import Mathlib

/-!
# Verification of the ip6calc `ipv6` package

Shallow embedding of the Go package `github.com/zlobste/ip6calc/ipv6`
(file `ipv6.go`).  A 16-byte big-endian `net.IP` holding a 128-bit value is
modelled as a natural number `v < 2^128`; the zero value `Address{}` (whose
`ip` field is a nil slice) is modelled by a dedicated constructor.  A Go
runtime panic (indexing a nil slice in `hiLo`/`Mask`, or `big.Int.FillBytes`
on a value that does not fit) is modelled by `Option`/`Res.panic`.
-/

set_option maxRecDepth 10000

namespace IP6Calc

/-- Width constants of the source (`ByteLen = 16`, `BitLen = 128`). -/
def BitLen : Nat := 128

/-- `MaxSplitParts = 1 << 20`: safety cap on the number of subnets. -/
def MaxSplitParts : Nat := 1 <<< 20

/-- `2^64`, the modulus of Go's `uint64` halves. -/
def two64 : Nat := 2 ^ 64

/-- `2^128`, the modulus of the 128-bit address space. -/
def two128 : Nat := 2 ^ 128

/-- The sentinel errors of the package (`ErrInvalidAddress`, ..., plus the two
ad-hoc `errors.New` values used by `CoverRange` and `Supernet`). -/
inductive Err where
  | invalidAddress
  | invalidCIDR
  | invalidPlen
  | invalidSplitPlen
  | splitExcessive
  | invalidRange
  | emptyList
deriving DecidableEq

/-- Result of a Go call that may panic (`panic`), return a sentinel error
(`err`) or return normally (`ok`). -/
inductive Res (α : Type) where
  | panic : Res α
  | err : Err → Res α
  | ok : α → Res α
deriving DecidableEq

/-- `Address` models the Go struct `Address{ ip net.IP }`: `mk v` is a 16-byte
`ip` slice holding the big-endian value `v` (every construction site ensures
`v < 2^128`), `empty` is the zero value whose `ip` slice is nil. -/
inductive Address where
  | empty : Address
  | mk (val : Nat) : Address
deriving DecidableEq

/-- `net.IP.To4() != nil` on a 16-byte slice: bytes 0-9 are zero and bytes
10-11 are `0xff` — i.e. the value `v` satisfies `v < 2^48` and bits 32..47
are all ones.  `NewAddress` rejects exactly these (IPv4-mapped) values. -/
def isV4Mapped (v : Nat) : Bool := decide (v < 2 ^ 48) && (v / 2 ^ 32 % 2 ^ 16 == 0xffff)

/-- `NewAddress` on a 16-byte slice holding value `v`: rejects the
IPv4-mapped pattern, otherwise copies the bytes.  (The `To16() == nil`
branch is unreachable here: every call site passes exactly 16 bytes.) -/
def NewAddress (v : Nat) : Except Err Address :=
  if isV4Mapped v then .error .invalidAddress else .ok (.mk v)

/-- `addr, _ := NewAddress(b)`: the error is discarded, leaving the zero
value `Address{}` when construction failed. -/
def orEmpty : Except Err Address → Address
  | .ok a => a
  | .error _ => .empty

/-- An address that can actually be built by the public constructors:
a 16-byte value that is not IPv4-mapped. -/
def Address.valid : Address → Prop
  | .empty => False
  | .mk v => v < two128 ∧ isV4Mapped v = false

instance : DecidablePred Address.valid := by
  intro a; cases a <;> simp [Address.valid] <;> infer_instance

/-- `Address.hiLo`: split the 16 bytes into two `uint64` halves.  Indexing
`a.ip[i]` panics (`none`) when the slice is nil. -/
def Address.hiLo : Address → Option (Nat × Nat)
  | .empty => none
  | .mk v => some (v / two64 % two64, v % two64)

/-- `fromHiLo`: write the two halves into a fresh 16-byte buffer and pass it
through `NewAddress`, discarding the error. -/
def fromHiLo (hi lo : Nat) : Address :=
  orEmpty (NewAddress ((hi % two64) * two64 + lo % two64))

/-- `Address.BigInt`: `big.Int.SetBytes` of the `ip` slice — a nil slice
yields 0. -/
def Address.BigInt : Address → Nat
  | .empty => 0
  | .mk v => v

/-- `AddressFromBigInt`: rejects `v < 0` or `v.BitLen() > 128`, then
`FillBytes` into 16 bytes and `NewAddress`. -/
def AddressFromBigInt (v : Int) : Except Err Address :=
  if v < 0 ∨ (2 ^ 128 : Int) ≤ v then .error .invalidAddress
  else NewAddress v.toNat

/-- The `delta.BitLen() <= 64` fast path of `Address.Add` (`delta ≥ 0`):
`uint64` addition of the low halves with carry into the high half. -/
def Address.addFastPath (a : Address) (d : Nat) : Option Address :=
  match a.hiLo with
  | none => none
  | some (hi, lo) =>
    let lo2 := (lo + d) % two64
    let carry := if lo2 < lo then 1 else 0
    some (fromHiLo ((hi + carry) % two64) lo2)

/-- The general path of `Address.Add` (`delta ≥ 0`): bignum addition reduced
`mod 2^128`, `FillBytes` into 16 bytes, `NewAddress` with the error
discarded.  (`SetBytes` of a nil slice is 0, so this path never panics.) -/
def Address.addBigPath (a : Address) (d : Nat) : Address :=
  orEmpty (NewAddress ((a.BigInt + d) % two128))

/-- The `delta.BitLen() <= 64` fast path of `Address.Sub` (`delta ≥ 0`):
`uint64` subtraction of the low halves with borrow from the high half. -/
def Address.subFastPath (a : Address) (d : Nat) : Option Address :=
  match a.hiLo with
  | none => none
  | some (hi, lo) =>
    if d ≤ lo then some (fromHiLo hi (lo - d))
    else some (fromHiLo ((hi + two64 - 1) % two64) (lo + two64 - d))

/-- The general path of `Address.Sub` (`delta ≥ 0`): bignum subtraction with
a wrap-around correction; `FillBytes` panics (`none`) if the result is
negative (possible when `delta > 2^128 + value`). -/
def Address.subBigPath (a : Address) (d : Nat) : Option Address :=
  let r : Int := (a.BigInt : Int) - d
  let r2 : Int := if r < 0 then r + two128 else r
  if r2 < 0 then none
  else some (orEmpty (NewAddress r2.toNat))

/-- `Address.Add` restricted to a non-negative delta `d`. -/
def Address.addPos (a : Address) (d : Nat) : Option Address :=
  if d < two64 then a.addFastPath d else some (a.addBigPath d)

/-- `Address.Sub` restricted to a non-negative delta `d`. -/
def Address.subPos (a : Address) (d : Nat) : Option Address :=
  if d < two64 then a.subFastPath d else a.subBigPath d

/-- `Address.Add`: `a + delta (mod 2^128)`; a negative delta delegates to
`Sub` of the absolute value. -/
def Address.Add (a : Address) (delta : Int) : Option Address :=
  if delta < 0 then a.subPos delta.natAbs else a.addPos delta.natAbs

/-- `Address.Sub`: `a - delta (mod 2^128)`; a negative delta delegates to
addition of the absolute value. -/
def Address.Sub (a : Address) (delta : Int) : Option Address :=
  if delta < 0 then a.addPos delta.natAbs else a.subPos delta.natAbs

/-- `Address.Compare` / `bytesCompare`: big-endian lexicographic comparison
of the `ip` slices; a shorter slice (the nil one) sorts first. -/
def Address.Compare : Address → Address → Int
  | .empty, .empty => 0
  | .empty, .mk _ => -1
  | .mk _, .empty => 1
  | .mk v, .mk w => if v < w then -1 else if w < v then 1 else 0

/-- `Address.Mask`: panics (`none`) when `plen > 128` or when the `ip` slice
is nil; otherwise ANDs with `maskTable[plen]`, which keeps the top `plen`
bits and clears the remaining `128 - plen` bits, and passes the buffer
through `NewAddress` discarding the error.  (The Go `plen < 0` panic branch
is subsumed by using `Nat`.) -/
def Address.Mask (a : Address) (plen : Nat) : Option Address :=
  if plen > BitLen then none
  else
    match a with
    | .empty => none
    | .mk v => some (orEmpty (NewAddress (v >>> (128 - plen) <<< (128 - plen))))

/-- The Go struct `CIDR{ base Address; plen int }`. -/
structure CIDR where
  base : Address
  plen : Nat
deriving DecidableEq

/-- A well-formed network as produced by the public constructors: a valid
base, masked to a prefix length in `[0, 128]`. -/
def CIDR.wf (c : CIDR) : Prop :=
  c.base.valid ∧ c.plen ≤ 128 ∧ c.base.Mask c.plen = some c.base

instance : DecidablePred CIDR.wf := by
  intro c; unfold CIDR.wf; infer_instance

/-- `NewCIDR`: validates the prefix length, then canonicalizes the base via
`Mask` (which panics on the zero-value address). -/
def NewCIDR (base : Address) (plen : Nat) : Res CIDR :=
  if plen > 128 then .err .invalidPlen
  else
    match base.Mask plen with
    | none => .panic
    | some b => .ok ⟨b, plen⟩

/-- `res, _ := NewCIDR(addr, plen)`: the error is discarded, leaving the
zero value `CIDR{}`; a panic still propagates. -/
def newCIDRorZero : Res CIDR → Option CIDR
  | .panic => none
  | .err _ => some ⟨.empty, 0⟩
  | .ok c => some c

/-- `CIDR.HostCount`: `1 << (128 - plen)`. -/
def CIDR.HostCount (c : CIDR) : Nat := 1 <<< (128 - c.plen)

/-- `CIDR.FirstHost` is the base address. -/
def CIDR.FirstHost (c : CIDR) : Address := c.base

/-- `CIDR.LastHost`: `base + hostCount - 1` via bignum, `FillBytes` into 16
bytes (panicking if the value needs more), `NewAddress` with the error
discarded. -/
def CIDR.LastHost (c : CIDR) : Option Address :=
  let last := c.base.BigInt + c.HostCount - 1
  if last ≥ two128 then none
  else some (orEmpty (NewAddress last))

/-- `CIDR.ContainsAddress`: `base == a.Mask(plen)`. -/
def CIDR.ContainsAddress (c : CIDR) (a : Address) : Option Bool :=
  (a.Mask c.plen).map fun m => c.base.Compare m == 0

/-- `CIDR.ContainsCIDR`: `c.plen <= o.plen && c.ContainsAddress(o.base)`
(the `&&` short-circuits before the `Mask` call). -/
def CIDR.ContainsCIDR (c o : CIDR) : Option Bool :=
  if c.plen ≤ o.plen then c.ContainsAddress o.base else some false

/-- `CIDR.Overlaps`: closed-interval intersection test on
`[FirstHost, LastHost]` as big integers. -/
def CIDR.Overlaps (c o : CIDR) : Option Bool :=
  match c.LastHost, o.LastHost with
  | some cEnd, some oEnd =>
      some (decide (c.FirstHost.BigInt ≤ oEnd.BigInt) &&
            decide (o.FirstHost.BigInt ≤ cEnd.BigInt))
  | _, _ => none

/-- `CIDR.Next`: base + hostCount at the same prefix length. -/
def CIDR.Next (c : CIDR) : Option CIDR :=
  match c.base.Add (c.HostCount : Int) with
  | none => none
  | some addr => newCIDRorZero (NewCIDR addr c.plen)

/-- `CIDR.Prev`: base - hostCount at the same prefix length. -/
def CIDR.Prev (c : CIDR) : Option CIDR :=
  match c.base.Sub (c.HostCount : Int) with
  | none => none
  | some addr => newCIDRorZero (NewCIDR addr c.plen)

/-- The allocation loop of `CIDR.Split`: `parts` iterations appending
`NewCIDR(cur, newPlen)` and stepping `cur` by `step`. -/
def splitLoop : Nat → Address → Nat → Nat → List CIDR → Res (List CIDR)
  | 0, _, _, _, acc => .ok acc.reverse
  | n + 1, cur, newPlen, step, acc =>
    match newCIDRorZero (NewCIDR cur newPlen) with
    | none => .panic
    | some sub =>
      match cur.Add (step : Int) with
      | none => .panic
      | some cur2 => splitLoop n cur2 newPlen step (sub :: acc)

/-- `CIDR.Split`: guard checks, degenerate equality case, then the loop. -/
def CIDR.Split (c : CIDR) (newPlen : Nat) : Res (List CIDR) :=
  if newPlen < c.plen ∨ newPlen > 128 then .err .invalidSplitPlen
  else if newPlen = c.plen then .ok [c]
  else
    let countBits := newPlen - c.plen
    if countBits ≥ 63 then .err .splitExcessive
    else
      let parts := 1 <<< countBits
      if parts > MaxSplitParts then .err .splitExcessive
      else splitLoop parts c.base newPlen (c.HostCount >>> countBits) []

/-- The Go struct `SubnetIterator`. -/
structure SubnetIterator where
  remaining : Nat
  current : Address
  step : Nat
  plen : Nat
deriving DecidableEq

/-- `CIDR.SubnetIterator`: same guards as `Split`; the equality case yields
a one-element iterator with a zero step. -/
def CIDR.mkSubnetIterator (c : CIDR) (newPlen : Nat) : Res SubnetIterator :=
  if newPlen < c.plen ∨ newPlen > 128 then .err .invalidSplitPlen
  else if newPlen = c.plen then .ok ⟨1, c.base, 0, newPlen⟩
  else
    let countBits := newPlen - c.plen
    if countBits ≥ 63 then .err .splitExcessive
    else
      let parts := 1 <<< countBits
      if parts > MaxSplitParts then .err .splitExcessive
      else .ok ⟨parts, c.base, c.HostCount >>> countBits, newPlen⟩

/-- `SubnetIterator.Next`: `(CIDR{}, false)` when exhausted, otherwise the
network at the current base, advancing the state. -/
def SubnetIterator.Next (it : SubnetIterator) :
    Option (CIDR × Bool × SubnetIterator) :=
  if it.remaining = 0 then some (⟨.empty, 0⟩, false, it)
  else
    match newCIDRorZero (NewCIDR it.current it.plen) with
    | none => none
    | some c =>
      match it.current.Add (it.step : Int) with
      | none => none
      | some cur2 =>
        some (c, true, ⟨it.remaining - 1, cur2, it.step, it.plen⟩)

/-- Draining loop for the iterator: call `Next` until `ok == false`,
collecting the emitted networks.  `Next` decrements `remaining` on every
emitting call, so fuel `remaining + 1` always suffices; the fuel-0 fallback
is unreachable from `drainIter`. -/
def drainAux : Nat → SubnetIterator → Res (List CIDR)
  | 0, _ => .panic
  | f + 1, it =>
    match it.Next with
    | none => .panic
    | some (_, false, _) => .ok []
    | some (x, true, it2) =>
      match drainAux f it2 with
      | .ok l => .ok (x :: l)
      | r => r

/-- Drain the iterator completely. -/
def drainIter (it : SubnetIterator) : Res (List CIDR) :=
  drainAux (it.remaining + 1) it

/-- The comparator passed to `sort.Slice` in `Summarize`: base ascending,
ties broken by prefix length ascending. -/
def cidrLess (a b : CIDR) : Bool :=
  decide (a.base.Compare b.base < 0) ||
    (a.base.Compare b.base == 0 && decide (a.plen < b.plen))

/-- The non-strict order induced by `cidrLess`.  `sort.Slice` guarantees a
permutation of the input that is `Sorted` for this relation; two values tied
under it have equal base bytes and equal prefix length, i.e. are the *same*
`CIDR` value, so the sorted permutation is unique and `insertionSort`
computes exactly the slice `sort.Slice` produces. -/
def cidrLe (a b : CIDR) : Prop := cidrLess b a = false

instance : DecidableRel cidrLe := by
  intro a b; unfold cidrLe; infer_instance

/-- The greedy upward-merge loop of `Summarize` (stack modelled with its top
at the head; the Go slice keeps the top at the end).  Each merge shortens
the stack, so fuel `stack.length` always suffices. -/
def mergeLoopAux : Nat → List CIDR → Option (List CIDR)
  | f + 1, last :: prev :: rest =>
    if last.plen ≠ prev.plen then some (last :: prev :: rest)
    else if last.plen = 0 then some (last :: prev :: rest)
    else
      match prev.Next with
      | none => none
      | some nx =>
        if nx.base.Compare last.base ≠ 0 then some (last :: prev :: rest)
        else
          match prev.base.Mask (last.plen - 1) with
          | none => none
          | some parentBase =>
            match last.base.Mask (last.plen - 1) with
            | none => none
            | some lb =>
              if parentBase.Compare lb ≠ 0 then some (last :: prev :: rest)
              else
                match newCIDRorZero (NewCIDR parentBase (last.plen - 1)) with
                | none => none
                | some parent => mergeLoopAux f (parent :: rest)
  | _, st => some st

/-- The merge loop at its full fuel budget. -/
def mergeLoop (st : List CIDR) : Option (List CIDR) := mergeLoopAux st.length st

/-- One iteration of the main `Summarize` loop: skip a candidate contained
in the top of the stack, otherwise push it and merge upward. -/
def sumStep (stack : List CIDR) (c : CIDR) : Option (List CIDR) :=
  match stack with
  | top :: _ =>
    match top.ContainsCIDR c with
    | none => none
    | some true => some stack
    | some false => mergeLoop (c :: stack)
  | [] => mergeLoop [c]

/-- `Summarize`: normalize every base to its own prefix, sort by
(base, prefix length), then fold the stack loop.  The result is returned
bottom-of-stack first, as in the Go slice. -/
def Summarize (cidrs : List CIDR) : Option (List CIDR) :=
  if cidrs.isEmpty then some []
  else
    match cidrs.mapM fun c => (c.base.Mask c.plen).map fun b => CIDR.mk b c.plen with
    | none => none
    | some norm =>
      match (List.insertionSort cidrLe norm).foldlM sumStep [] with
      | none => none
      | some stk => some stk.reverse

/-- `bits.TrailingZeros64` unrolled over at most 64 bits (returns 64 on 0,
as the Go intrinsic does). -/
def tzAux : Nat → Nat → Nat
  | 0, _ => 0
  | f + 1, n => if n % 2 = 1 then 0 else 1 + tzAux f (n / 2)

/-- `bits.TrailingZeros64`. -/
def tz64 (n : Nat) : Nat := tzAux 64 n

/-- Floor base-2 logarithm by repeated halving, bounded by fuel so that it
stays kernel-reducible; 129 halvings suffice for every value below `2^129`,
which covers every count arising in `CoverRange`. -/
def log2Fuel : Nat → Nat → Nat
  | 0, _ => 0
  | f + 1, n => if 2 ≤ n then log2Fuel f (n / 2) + 1 else 0

/-- `big.Int.BitLen`. -/
def bitLen (n : Nat) : Nat := if n = 0 then 0 else log2Fuel 129 n + 1

/-- The hi/lo subtraction with borrow at the heart of `Distance`, computing
`(bhi, blo) - (ahi, alo)` for `(ahi, alo) <= (bhi, blo)`. -/
def distHiLo (ahi alo bhi blo : Nat) : Nat :=
  if alo ≤ blo then (bhi - ahi) * two64 + (blo - alo)
  else (bhi - 1 - ahi) * two64 + (blo + two64 - alo)

/-- `Distance`: the unsigned difference of two addresses computed in hi/lo
halves with an explicit borrow, after swapping so that `a <= b` (the Go
code swaps the four locals in place; here the swap picks the argument
order of `distHiLo`); panics (`none`) on a nil `ip` slice. -/
def Distance (a b : Address) : Option Nat :=
  match a.hiLo, b.hiLo with
  | some (ahi, alo), some (bhi, blo) =>
    if bhi < ahi ∨ (ahi = bhi ∧ blo < alo) then some (distHiLo bhi blo ahi alo)
    else some (distHiLo ahi alo bhi blo)
  | _, _ => none

/-- `Address.Offset`: add an unsigned 64-bit offset. -/
def Address.Offset (a : Address) (u : Nat) : Option Address := a.Add (u : Int)

/-- Result type for `CoverRange`, whose Go loop is bounded here by fuel:
`fuelOut` is the artifact of running out of fuel (the Go loop would still be
running), the other constructors are as in `Res`. -/
inductive CoverRes where
  | panic : CoverRes
  | fuelOut : CoverRes
  | err : Err → CoverRes
  | ok : List CIDR → CoverRes
deriving DecidableEq

/-- The trailing-zero count of a full address given its hi/lo halves, as
computed inline by `CoverRange` (`bits.TrailingZeros64` on the nonzero
half, 128 for the zero address). -/
def addrTz (hi lo : Nat) : Nat :=
  if lo ≠ 0 then tz64 lo else if hi ≠ 0 then 64 + tz64 hi else 128

/-- The greedy loop of `CoverRange`: while `cur <= stop`, emit the largest
block aligned at `cur` that fits in the remaining count, and advance `cur`
past it. -/
def coverLoop : Nat → Address → Address → List CIDR → CoverRes
  | 0, _, _, _ => .fuelOut
  | f + 1, cur, stop, acc =>
    if cur.Compare stop ≤ 0 then
      match Distance cur stop with
      | none => .panic
      | some dist =>
        match cur.hiLo with
        | none => .panic
        | some (hi, lo) =>
          let tz := addrTz hi lo
          let remBits := bitLen (dist + 1) - 1
          let tz2 := if tz > remBits then remBits else tz
          match newCIDRorZero (NewCIDR cur (128 - tz2)) with
          | none => .panic
          | some cid =>
            match cid.LastHost with
            | none => .panic
            | some lh =>
              match lh.Add 1 with
              | none => .panic
              | some cur2 => coverLoop f cur2 stop (cid :: acc)
    else .ok acc.reverse

/-- `CoverRange`: the minimal set of CIDRs covering the inclusive range
`[start, stop]`; `ErrInvalidRange` when `start > stop`. -/
def CoverRange (fuel : Nat) (start stop : Address) : CoverRes :=
  if start.Compare stop > 0 then .err .invalidRange
  else coverLoop fuel start stop []

/-- Byte `i` (big-endian, `0 <= i < 16`) of a 128-bit value. -/
def byteOf (v i : Nat) : Nat := v / 2 ^ (8 * (15 - i)) % 256

/-- The inner bit loop of `Supernet`: count matching bits of two bytes from
bit 7 downwards, stopping at the first mismatch. -/
def cpBits : Nat → Nat → Nat → Nat
  | 0, _, _ => 0
  | k + 1, x, y => if x / 2 ^ k % 2 = y / 2 ^ k % 2 then 1 + cpBits k x y else 0

/-- The byte loop of `Supernet`: 8 bits per equal byte, then the bit loop in
the first differing byte. -/
def cpScan : Nat → Nat → Nat → Nat → Nat
  | 0, _, _, _ => 0
  | n + 1, i, v, w =>
    if byteOf v i = byteOf w i then 8 + cpScan n (i + 1) v w
    else cpBits 8 (byteOf v i) (byteOf w i)

/-- The min/max accumulation loop of `Supernet` over `list[1:]`. -/
def supLoop : List CIDR → Address → Address → Option (Address × Address)
  | [], mn, mx => some (mn, mx)
  | c :: rest, mn, mx =>
    let mn2 := if c.FirstHost.Compare mn < 0 then c.FirstHost else mn
    match c.LastHost with
    | none => none
    | some lh =>
      let mx2 := if lh.Compare mx > 0 then lh else mx
      supLoop rest mn2 mx2

/-- `Supernet`: smallest CIDR containing every input, via the longest common
prefix of the minimum first address and maximum last address (the common
prefix scan indexes the `ip` slices, panicking when one is nil). -/
def Supernet (list : List CIDR) : Res CIDR :=
  match list with
  | [] => .err .emptyList
  | c0 :: rest =>
    match c0.LastHost with
    | none => .panic
    | some l0 =>
      match supLoop rest c0.FirstHost l0 with
      | none => .panic
      | some (mn, mx) =>
        match mn, mx with
        | .mk v, .mk w =>
          let pfx := cpScan 16 0 v w
          match mn.Mask pfx with
          | none => .panic
          | some b => NewCIDR b pfx
        | _, _ => .panic

/-- Whitespace recognized by `strings.TrimSpace` on the inputs at hand. -/
def isSpaceCh (c : Char) : Bool := c = ' ' || c = '\t' || c = '\n' || c = '\r'

/-- `strings.TrimSpace` (text modelled as a list of characters). -/
def trimSpace (s : List Char) : List Char :=
  ((s.dropWhile isSpaceCh).reverse.dropWhile isSpaceCh).reverse

/-- Hexadecimal digit test. -/
def isHexDigit (c : Char) : Bool :=
  ('0' ≤ c && c ≤ '9') || ('a' ≤ c && c ≤ 'f') || ('A' ≤ c && c ≤ 'F')

/-- Value of a hexadecimal digit. -/
def hexDigitVal (c : Char) : Nat :=
  if '0' ≤ c && c ≤ '9' then c.toNat - 48
  else if 'a' ≤ c && c ≤ 'f' then c.toNat - 87
  else c.toNat - 55

/-- Modelled from the spec: one 16-bit group of `net.ParseIP`'s IPv6
grammar — one to four hexadecimal digits. -/
def parseGroup (t : List Char) : Option Nat :=
  if t ≠ [] ∧ t.length ≤ 4 ∧ t.all isHexDigit then
    some (t.foldl (fun acc c => acc * 16 + hexDigitVal c) 0)
  else none

/-- Big-endian combination of 16-bit groups. -/
def foldGroups (gs : List Nat) : Nat := gs.foldl (fun acc g => acc * 65536 + g) 0

/-- All tokens nonempty (no stray or doubled separators). -/
def noEmpty (ts : List (List Char)) : Bool := ts.all fun t => !t.isEmpty

/-- Modelled from the spec: locate the single `::` ellipsis in the token
list produced by splitting on `:` (an empty token marks a doubled
separator), returning the group tokens before and after it. -/
def splitEllipsis (ts : List (List Char)) : Option (List (List Char) × List (List Char)) :=
  match ts with
  | [] :: [] :: rest =>
    if rest = [[]] then some ([], [])
    else if rest ≠ [] ∧ noEmpty rest then some ([], rest)
    else none
  | _ =>
    match ts.findIdx? (·.isEmpty) with
    | none => none
    | some k =>
      let left := ts.take k
      let rest := ts.drop (k + 1)
      if left = [] ∨ ¬noEmpty left then none
      else if rest = [[]] then some (left, [])
      else if rest ≠ [] ∧ noEmpty rest then some (left, rest)
      else none

/-- Modelled from the spec: the IPv6 part of `net.ParseIP` (the standard
library source is not part of this repository).  It accepts eight
colon-separated groups, or fewer groups with one `::` standing for the
omitted run of zero groups; each group is 1-4 hex digits.  IPv4-suffix and
zone notations are irrelevant here: the repository only parses pure IPv6
text and text produced by the compressed formatter. -/
def parseTokens (ts : List (List Char)) : Option Nat :=
  if noEmpty ts then
    if ts.length = 8 then (ts.mapM parseGroup).map foldGroups else none
  else
    match splitEllipsis ts with
    | none => none
    | some (left, right) =>
      if left.length + right.length ≤ 7 then
        match left.mapM parseGroup, right.mapM parseGroup with
        | some gl, some gr =>
          some (foldGroups (gl ++ List.replicate (8 - (gl.length + gr.length)) 0 ++ gr))
        | _, _ => none
      else none

/-- Modelled from the spec: `net.ParseIP` on IPv6 text. -/
def parseIPv6 (s : List Char) : Option Nat := parseTokens (s.splitOn ':')

/-- `Parse`: trim, run the address parser, and validate via `NewAddress`
(which rejects IPv4-mapped byte patterns). -/
def Parse (s : List Char) : Except Err Address :=
  match parseIPv6 (trimSpace s) with
  | none => .error .invalidAddress
  | some v => NewAddress v

/-- The digit loop of `parsePrefix`: decimal digits only, failing early once
the value exceeds 128. -/
def parsePlenLoop : List Char → Nat → Except Err Nat
  | [], val => .ok val
  | r :: rest, val =>
    if r < '0' ∨ '9' < r then .error .invalidPlen
    else
      let val2 := val * 10 + (r.toNat - 48)
      if val2 > BitLen then .error .invalidPlen else parsePlenLoop rest val2

/-- `parsePrefix`: manual decimal parse of the prefix-length text. -/
def parsePlen (p : List Char) : Except Err Nat :=
  if p = [] then .error .invalidPlen
  else
    match parsePlenLoop p 0 with
    | .error e => .error e
    | .ok val => if val > BitLen then .error .invalidPlen else .ok val

/-- `ParseCIDR`: split on `/` into exactly two parts, parse the address and
the prefix length, and construct via `NewCIDR`. -/
def ParseCIDR (s : List Char) : Res CIDR :=
  match (trimSpace s).splitOn '/' with
  | [a, p] =>
    match Parse a with
    | .error e => .err e
    | .ok addr =>
      match parsePlen p with
      | .error e => .err e
      | .ok plen => NewCIDR addr plen
  | _ => .err .invalidCIDR

/-- The eight 16-bit groups of a 128-bit value, most significant first. -/
def groups (v : Nat) : List Nat :=
  (List.range 8).map fun i => v / 2 ^ (16 * (7 - i)) % 65536

/-- Length of the run of zero groups starting at index `i`. -/
def runAt (gs : List Nat) (i : Nat) : Nat :=
  ((gs.drop i).takeWhile (· = 0)).length

/-- Modelled from the spec: the zero-run selection of the compressed
formatter (`net.IP.String`, not part of this repository) — the longest run
of zero groups, leftmost on ties, and only runs of at least two groups are
compressed.  The Go scan jumps from maximal run to maximal run; scanning
every start index instead visits additionally only suffixes of maximal
runs, which are strictly shorter and never win under the strict `>`. -/
def bestRun (gs : List Nat) : Option (Nat × Nat) :=
  let best := (List.range 8).foldl
    (fun best i => if runAt gs i > best.2 then (i, runAt gs i) else best) (0, 0)
  if best.2 ≥ 2 then some (best.1, best.1 + best.2) else none

/-- Hexadecimal digit character (lowercase). -/
def toHexChar (n : Nat) : Char :=
  if n < 10 then Char.ofNat (48 + n) else Char.ofNat (87 + n)

/-- Lowercase hexadecimal text of `n`, no padding (fuel-bounded division
recursion; fuel 5 suffices for any 16-bit group). -/
def hexStrAux : Nat → Nat → List Char
  | 0, _ => []
  | f + 1, n => if n < 16 then [toHexChar n] else hexStrAux f (n / 16) ++ [toHexChar (n % 16)]

/-- Lowercase hexadecimal text of a 16-bit group. -/
def hexStr (n : Nat) : List Char := hexStrAux 5 n

/-- Modelled from the spec: the token sequence (between `:` separators) of
the compressed form — hex groups, with the selected zero run contributing
one empty token (two when the run touches an end of the address, so that
the rendered text starts or ends with `::`). -/
def toStrTokens (v : Nat) : List (List Char) :=
  let gs := groups v
  match bestRun gs with
  | none => gs.map hexStr
  | some (e0, e1) =>
    (if e0 = 0 then [[]] else (gs.take e0).map hexStr) ++ [[]] ++
      (if e1 = 8 then [[]] else (gs.drop e1).map hexStr)

/-- Modelled from the spec: `Address.String`, the canonical compressed
textual form (`net.IP.String`; `<nil>` for the zero value). -/
def Address.toStr : Address → List Char
  | .empty => ['<', 'n', 'i', 'l', '>']
  | .mk v => ([':'] : List Char).intercalate (toStrTokens v)

/-- The set of addresses of a network, as numbers: the closed-open interval
`[base, base + hostCount)`. -/
def CIDR.inRange (c : CIDR) (n : Nat) : Prop :=
  c.base.BigInt ≤ n ∧ n < c.base.BigInt + c.HostCount

instance (c : CIDR) (n : Nat) : Decidable (c.inRange n) := by
  unfold CIDR.inRange; infer_instance

/-- The condition under which the `Summarize` merge loop combines `prevC`
(lower in the stack) with `lastC` on top of it: equal positive prefix
lengths, `prevC.Next()` lands on `lastC`'s base, and both re-mask to the
same parent — the "mergeable sibling pair" test of the specification. -/
def isMergeableSib (prevC lastC : CIDR) : Bool :=
  (prevC.plen == lastC.plen) && decide (0 < lastC.plen) &&
    (match prevC.Next with
     | some nx => nx.base.Compare lastC.base == 0
     | none => false) &&
    (match prevC.base.Mask (lastC.plen - 1), lastC.base.Mask (lastC.plen - 1) with
     | some pb, some lb => pb.Compare lb == 0
     | _, _ => false)

/-- `Split` via the lazy iterator: build the iterator and drain it, keeping
the guard errors. -/
def splitViaIterator (c : CIDR) (newPlen : Nat) : Res (List CIDR) :=
  match c.mkSubnetIterator newPlen with
  | .panic => .panic
  | .err e => .err e
  | .ok it => drainIter it

/-- Invariant of the `Summarize` stack loop, for a stack `st` (top first)
after processing the inputs `P`:
* every stack entry is well formed;
* entries are pairwise disjoint and strictly descending from the top;
* consecutive entries are not mergeable siblings;
* the stack covers exactly the union of the processed ranges;
* every processed network fits inside a single stack entry;
* every stack entry starts at the base of some processed network of equal
  or larger size. -/
structure SumInv (st P : List CIDR) : Prop where
  wfAll : ∀ x ∈ st, x.wf
  disj : st.Pairwise fun a b => b.base.BigInt + b.HostCount ≤ a.base.BigInt
  nomerge : st.Chain' fun a b => isMergeableSib b a = false
  union : ∀ n : Nat, (∃ x ∈ st, x.inRange n) ↔ ∃ x ∈ P, x.inRange n
  cover : ∀ x ∈ P, ∃ d ∈ st,
    d.base.BigInt ≤ x.base.BigInt ∧
      x.base.BigInt + x.HostCount ≤ d.base.BigInt + d.HostCount
  anchor : ∀ d ∈ st, ∃ e ∈ P, e.base.BigInt = d.base.BigInt ∧ d.plen ≤ e.plen

/-- A list of networks forming a consecutive exact cover of the inclusive
interval `[w, e]`: each block starts where the previous one ended, the last
block ends exactly at `e`, and every block is well formed. -/
def consCover : Nat → Nat → List CIDR → Prop
  | _, _, [] => False
  | w, e, [c] => c.wf ∧ c.base.BigInt = w ∧ c.base.BigInt + c.HostCount - 1 = e
  | w, e, c :: rest =>
    c.wf ∧ c.base.BigInt = w ∧ c.base.BigInt + c.HostCount - 1 < e ∧
      consCover (c.base.BigInt + c.HostCount) e rest

deriving instance DecidableEq for Except

/-- Rank of an address under `bytesCompare`: the nil slice sorts before all
16-byte slices, which compare by value. -/
def addrKey : Address → Nat
  | .empty => 0
  | .mk v => v + 1

/-! ## Foundation lemmas -/

theorem two64_eq : two64 = 18446744073709551616 := by norm_num [two64]

theorem two128_eq : two128 = 340282366920938463463374607431768211456 := by
  norm_num [two128]

theorem orEmpty_newAddress (v : Nat) :
    orEmpty (NewAddress v) = if isV4Mapped v then .empty else .mk v := by
  unfold NewAddress
  split <;> rfl

theorem isV4Mapped_iff {v : Nat} : isV4Mapped v = true ↔ v / 2 ^ 32 = 65535 := by
  simp only [isV4Mapped, Bool.and_eq_true, decide_eq_true_eq, beq_iff_eq]
  omega

theorem isV4Mapped_false_iff {v : Nat} : isV4Mapped v = false ↔ v / 2 ^ 32 ≠ 65535 := by
  rw [← Bool.not_eq_true, not_iff_not]
  exact isV4Mapped_iff

theorem shiftr_shiftl_eq (v k : Nat) : v >>> k <<< k = v / 2 ^ k * 2 ^ k := by
  simp [Nat.shiftRight_eq_div_pow, Nat.shiftLeft_eq]

theorem mask_not_v4 {v : Nat} (k : Nat) (hv : isV4Mapped v = false) :
    isV4Mapped (v / 2 ^ k * 2 ^ k) = false := by
  rw [isV4Mapped_false_iff] at hv ⊢
  intro hm
  rcases le_or_lt k 32 with hk | hk
  · apply hv
    rw [← hm]
    have h32 : (2 : Nat) ^ 32 = 2 ^ k * 2 ^ (32 - k) := by
      rw [← pow_add]; congr 1; omega
    rw [h32, ← Nat.div_div_eq_div_mul, ← Nat.div_div_eq_div_mul,
      Nat.mul_div_cancel _ (Nat.pos_pow_of_pos k (by norm_num))]
  · have h33 : (2 : Nat) ^ 33 ∣ v / 2 ^ k * 2 ^ k :=
      Dvd.dvd.mul_left (pow_dvd_pow 2 (by omega)) _
    obtain ⟨t, ht⟩ := h33
    rw [ht] at hm
    have : (2 : Nat) ^ 33 = 2 ^ 32 * 2 := by norm_num
    rw [this, Nat.mul_assoc, Nat.mul_comm, Nat.mul_div_assoc _ (dvd_refl _),
      Nat.div_self (by norm_num)] at hm
    omega

theorem Mask_mk {v p : Nat} (hp : p ≤ 128) :
    Address.Mask (.mk v) p =
      some (if isV4Mapped (v / 2 ^ (128 - p) * 2 ^ (128 - p)) then Address.empty
            else .mk (v / 2 ^ (128 - p) * 2 ^ (128 - p))) := by
  unfold Address.Mask BitLen
  rw [if_neg (by omega)]
  show some (orEmpty (NewAddress (v >>> (128 - p) <<< (128 - p)))) = _
  rw [shiftr_shiftl_eq, orEmpty_newAddress]

theorem Mask_mk_of_not_v4 {v p : Nat} (hp : p ≤ 128) (hv : isV4Mapped v = false) :
    Address.Mask (.mk v) p = some (.mk (v / 2 ^ (128 - p) * 2 ^ (128 - p))) := by
  rw [Mask_mk hp, mask_not_v4 _ hv, if_neg (by simp)]

theorem addBigPath_mk {v : Nat} (d : Nat) :
    Address.addBigPath (.mk v) d = orEmpty (NewAddress ((v + d) % two128)) := rfl

theorem addFastPath_mk {v : Nat} (d : Nat) (hv : v < two128) (hd : d < two64) :
    Address.addFastPath (.mk v) d = some (orEmpty (NewAddress ((v + d) % two128))) := by
  unfold Address.addFastPath
  show some (fromHiLo _ _) = _
  unfold fromHiLo
  simp only [Option.some.injEq]
  congr 2
  simp only [two64_eq, two128_eq] at *
  split <;> omega

theorem addPos_mk {v : Nat} (d : Nat) (hv : v < two128) :
    Address.addPos (.mk v) d = some (orEmpty (NewAddress ((v + d) % two128))) := by
  unfold Address.addPos
  split
  · exact addFastPath_mk d hv (by assumption)
  · rfl

theorem subFastPath_mk {v : Nat} (d : Nat) (hv : v < two128) (hd : d < two64) :
    Address.subFastPath (.mk v) d =
      some (orEmpty (NewAddress ((v + (two128 - d)) % two128))) := by
  unfold Address.subFastPath
  show (if d ≤ v % two64 then some (fromHiLo _ _) else some (fromHiLo _ _)) = _
  unfold fromHiLo
  split <;>
    · simp only [Option.some.injEq]
      congr 2
      simp only [two64_eq, two128_eq] at *
      omega

theorem subBigPath_mk {v : Nat} (d : Nat) (hv : v < two128) (hd : d ≤ two128) :
    Address.subBigPath (.mk v) d =
      some (orEmpty (NewAddress ((v + (two128 - d)) % two128))) := by
  simp only [Address.subBigPath, Address.BigInt]
  rw [if_neg (by simp only [two128_eq] at *; split <;> omega)]
  simp only [Option.some.injEq]
  congr 2
  simp only [two64_eq, two128_eq] at *
  split <;> omega

theorem subPos_mk {v : Nat} (d : Nat) (hv : v < two128) (hd : d ≤ two128) :
    Address.subPos (.mk v) d =
      some (orEmpty (NewAddress ((v + (two128 - d)) % two128))) := by
  unfold Address.subPos
  split
  · exact subFastPath_mk d hv (by assumption)
  · exact subBigPath_mk d hv hd

theorem Add_mk {v : Nat} (d : Nat) (hv : v < two128) :
    Address.Add (.mk v) (d : Int) = some (orEmpty (NewAddress ((v + d) % two128))) := by
  unfold Address.Add
  rw [if_neg (by omega), Int.natAbs_ofNat, addPos_mk d hv]

theorem Sub_mk {v : Nat} (d : Nat) (hv : v < two128) (hd : d ≤ two128) :
    Address.Sub (.mk v) (d : Int) =
      some (orEmpty (NewAddress ((v + (two128 - d)) % two128))) := by
  unfold Address.Sub
  rw [if_neg (by omega), Int.natAbs_ofNat, subPos_mk d hv hd]

theorem compare_lt_iff {a b : Address} : a.Compare b < 0 ↔ addrKey a < addrKey b := by
  cases a <;> cases b <;> simp [Address.Compare, addrKey] <;> split_ifs <;> omega

theorem compare_eq_zero_iff {a b : Address} : a.Compare b = 0 ↔ a = b := by
  cases a <;> cases b <;> simp [Address.Compare] <;> split_ifs <;> simp_all <;> omega

theorem compare_pos_iff {a b : Address} : 0 < a.Compare b ↔ addrKey b < addrKey a := by
  cases a <;> cases b <;> simp [Address.Compare, addrKey] <;> split_ifs <;> omega

theorem compare_le_iff {a b : Address} : a.Compare b ≤ 0 ↔ addrKey a ≤ addrKey b := by
  cases a <;> cases b <;> simp [Address.Compare, addrKey] <;> split_ifs <;> omega

theorem addrKey_mk (v : Nat) : addrKey (.mk v) = v + 1 := rfl

theorem cidrLess_iff {a b : CIDR} :
    cidrLess a b = true ↔
      addrKey a.base < addrKey b.base ∨
        (addrKey a.base = addrKey b.base ∧ a.plen < b.plen) := by
  unfold cidrLess
  have h1 := @compare_lt_iff a.base b.base
  have h2 := @compare_eq_zero_iff a.base b.base
  have h3 := @compare_pos_iff a.base b.base
  simp only [Bool.or_eq_true, decide_eq_true_eq, Bool.and_eq_true, beq_iff_eq]
  constructor
  · rintro (h | ⟨h, hp⟩)
    · exact Or.inl (h1.mp h)
    · have : a.base = b.base := h2.mp h
      exact Or.inr ⟨by rw [this], hp⟩
  · rintro (h | ⟨h, hp⟩)
    · exact Or.inl (h1.mpr h)
    · refine Or.inr ⟨?_, hp⟩
      have : ¬ a.base.Compare b.base < 0 := by rw [h1]; omega
      have : ¬ 0 < a.base.Compare b.base := by rw [h3]; omega
      omega

theorem cidrLe_iff {a b : CIDR} :
    cidrLe a b ↔
      addrKey a.base < addrKey b.base ∨
        (addrKey a.base = addrKey b.base ∧ a.plen ≤ b.plen) := by
  unfold cidrLe
  rw [← Bool.not_eq_true, cidrLess_iff]
  omega

instance : IsTotal CIDR cidrLe :=
  ⟨fun a b => by rw [cidrLe_iff, cidrLe_iff]; omega⟩

instance : IsTrans CIDR cidrLe :=
  ⟨fun a b c hab hbc => by
    rw [cidrLe_iff] at *
    omega⟩

theorem hostCount_eq (c : CIDR) : c.HostCount = 2 ^ (128 - c.plen) := by
  simp [CIDR.HostCount, Nat.shiftLeft_eq]

theorem valid_mk {v : Nat} :
    (Address.mk v).valid ↔ v < two128 ∧ isV4Mapped v = false := Iff.rfl

theorem wf_iff {c : CIDR} :
    c.wf ↔ ∃ v, c.base = .mk v ∧ v < two128 ∧ isV4Mapped v = false ∧
      c.plen ≤ 128 ∧ v % 2 ^ (128 - c.plen) = 0 := by
  constructor
  · rintro ⟨hv, hp, hm⟩
    rcases hb : c.base with _ | v
    · rw [hb] at hv; exact absurd hv (by simp [Address.valid])
    · rw [hb] at hv hm
      obtain ⟨hlt, hv4⟩ := valid_mk.mp hv
      refine ⟨v, rfl, hlt, hv4, hp, ?_⟩
      rw [Mask_mk_of_not_v4 hp hv4] at hm
      simp only [Option.some.injEq] at hm
      have hinj : v / 2 ^ (128 - c.plen) * 2 ^ (128 - c.plen) = v := by
        have := congrArg addrKey hm
        simp only [addrKey_mk] at this
        omega
      have := Nat.div_add_mod' v (2 ^ (128 - c.plen))
      omega
  · rintro ⟨v, hb, hlt, hv4, hp, hmod⟩
    refine ⟨?_, hp, ?_⟩
    · rw [hb]; exact valid_mk.mpr ⟨hlt, hv4⟩
    · rw [hb, Mask_mk_of_not_v4 hp hv4]
      have := Nat.div_add_mod' v (2 ^ (128 - c.plen))
      congr 3
      omega

theorem wf_mk {v p : Nat} (hlt : v < two128) (hv4 : isV4Mapped v = false)
    (hp : p ≤ 128) (hmod : v % 2 ^ (128 - p) = 0) : CIDR.wf ⟨.mk v, p⟩ := by
  rw [wf_iff]
  exact ⟨v, rfl, hlt, hv4, hp, hmod⟩

theorem NewCIDR_mk {v p : Nat} (hp : p ≤ 128) (hv4 : isV4Mapped v = false) :
    NewCIDR (.mk v) p = .ok ⟨.mk (v / 2 ^ (128 - p) * 2 ^ (128 - p)), p⟩ := by
  unfold NewCIDR
  rw [if_neg (by omega), Mask_mk_of_not_v4 hp hv4]

theorem NewCIDR_ok_wf {a : Address} {p : Nat} {c : CIDR} (hv : a.valid)
    (h : NewCIDR a p = .ok c) : c.wf := by
  cases a with
  | empty => exact absurd hv (by simp [Address.valid])
  | mk v =>
    obtain ⟨hlt, hv4⟩ := hv
    by_cases hp : p ≤ 128
    · rw [NewCIDR_mk hp hv4] at h
      cases h
      refine wf_mk ?_ (mask_not_v4 _ hv4) hp ?_
      · exact lt_of_le_of_lt (Nat.div_mul_le_self v _) hlt
      · rw [Nat.mul_mod_left]
    · unfold NewCIDR at h
      rw [if_pos (by omega)] at h
      exact absurd h (by simp)

theorem NewCIDR_of_wf {c : CIDR} (h : c.wf) : NewCIDR c.base c.plen = .ok c := by
  obtain ⟨hv, hp, hm⟩ := h
  unfold NewCIDR
  rw [if_neg (by omega), hm]

theorem splitLoop_ne_err (n : Nat) :
    ∀ (cur : Address) (pl st : Nat) (acc : List CIDR) (e : Err),
      splitLoop n cur pl st acc ≠ .err e := by
  induction n with
  | zero => intro cur pl st acc e; simp [splitLoop]
  | succ m ih =>
    intro cur pl st acc e
    unfold splitLoop
    match h1 : newCIDRorZero (NewCIDR cur pl) with
    | none => simp
    | some sub =>
      simp only []
      match h2 : cur.Add (st : Int) with
      | none => simp
      | some cur2 => simpa using ih cur2 pl st (sub :: acc) e

/-! ## Claim theorems -/

/-- **C4.** There exist validly-constructed addresses and deltas (here
`::fffe:ffff:ffff + 1`) whose modular sum has the IPv4-mapped byte pattern;
`Add` discards the internal construction error and returns the zero-value
`Address` instead of the 128-bit sum, and subsequent operations on that
value — `Mask`, and hence `CIDR.Next`, `CIDR.Prev` and `CIDR.Split` when a
subnet base falls in that range — panic: the discarded error branch inside
the arithmetic paths is reachable from valid public inputs. -/
theorem c4_discarded_error_reachable :
    (Address.mk 0xfffeffffffff).valid ∧
    Address.Add (.mk 0xfffeffffffff) 1 = some .empty ∧
    Address.Mask .empty 64 = none ∧
    CIDR.wf ⟨.mk 0xfffe00000000, 96⟩ ∧
    CIDR.Next ⟨.mk 0xfffe00000000, 96⟩ = none ∧
    CIDR.wf ⟨.mk 0x1000000000000, 96⟩ ∧
    CIDR.Prev ⟨.mk 0x1000000000000, 96⟩ = none ∧
    CIDR.wf ⟨.mk 0xfffe00000000, 95⟩ ∧
    CIDR.Split ⟨.mk 0xfffe00000000, 95⟩ 96 = .panic := by
  decide

/-- **C8.** For every valid address and every delta of at most 64 bits, the
hi/lo carry-propagating fast path of `Add` and the borrow-propagating fast
path of `Sub` return results bit-for-bit identical to the general bignum
mod-2^128 paths applied to the same inputs. -/
theorem c8_fast_paths_agree (a : Address) (d : Nat) (hv : a.valid) (hd : d < two64) :
    a.addFastPath d = some (a.addBigPath d) ∧ a.subFastPath d = a.subBigPath d := by
  cases a with
  | empty => exact absurd hv (by simp [Address.valid])
  | mk v =>
    obtain ⟨hlt, _⟩ := valid_mk.mp hv
    constructor
    · rw [addFastPath_mk d hlt hd, addBigPath_mk]
    · rw [subFastPath_mk d hlt hd, subBigPath_mk d hlt (by simp only [two64_eq, two128_eq] at *; omega)]

/-- Witness for C8 at a concrete address and delta. -/
theorem c8_fast_paths_agree_witness :
    (Address.mk 3).addFastPath 9 = some ((Address.mk 3).addBigPath 9) ∧
      (Address.mk 3).subFastPath 9 = (Address.mk 3).subBigPath 9 :=
  c8_fast_paths_agree (.mk 3) 9 (by decide) (by decide)

/-- **C9.** `Split(N, p)` fails with `ErrInvalidSplitPrefix` iff
`p < N.plen` or `p > 128`; at `p = N.plen` it succeeds with exactly the
single input network unchanged; and it fails with `ErrSplitExcessive`
(returning before any subnet is built) exactly when the part count
`2^(p - N.plen)` would exceed the ceiling `MaxSplitParts = 2^20` or the
64-bit shift computing it would overflow (`p - N.plen ≥ 63`). -/
theorem c9_split_guards (c : CIDR) (p : Nat) (hc : c.plen ≤ 128) :
    (c.Split p = .err .invalidSplitPlen ↔ p < c.plen ∨ 128 < p) ∧
    (p = c.plen → c.Split p = .ok [c]) ∧
    (c.plen < p → p ≤ 128 →
      (c.Split p = .err .splitExcessive ↔
        MaxSplitParts < 2 ^ (p - c.plen) ∨ 63 ≤ p - c.plen)) := by
  refine ⟨?_, ?_, ?_⟩
  · unfold CIDR.Split
    by_cases h1 : p < c.plen ∨ p > 128
    · rw [if_pos h1]; simpa using h1
    · rw [if_neg h1]
      refine iff_of_false ?_ (by omega)
      by_cases h2 : p = c.plen
      · rw [if_pos h2]; simp
      · rw [if_neg h2]
        dsimp only
        split_ifs <;> first
          | simp
          | exact splitLoop_ne_err _ _ _ _ _ _
  · intro h
    unfold CIDR.Split
    rw [if_neg (by omega), if_pos h]
  · intro hlt hle
    unfold CIDR.Split
    rw [if_neg (by omega), if_neg (by omega)]
    simp only [Nat.shiftLeft_eq, one_mul]
    split_ifs with h1 h2
    · exact iff_of_true rfl (Or.inr h1)
    · exact iff_of_true rfl (Or.inl h2)
    · exact iff_of_false (splitLoop_ne_err _ _ _ _ _ _) (by push_neg; omega)

theorem next_true_remaining {it : SubnetIterator} {x : CIDR} {it2 : SubnetIterator}
    (h : it.Next = some (x, true, it2)) : it2.remaining + 1 = it.remaining := by
  unfold SubnetIterator.Next at h
  by_cases h0 : it.remaining = 0
  · rw [if_pos h0] at h
    simp at h
  · rw [if_neg h0] at h
    rcases h1 : newCIDRorZero (NewCIDR it.current it.plen) with _ | sub <;>
      rw [h1] at h <;> simp only [] at h
    · exact absurd h (by simp)
    rcases h2 : it.current.Add (it.step : Int) with _ | cur2 <;>
      rw [h2] at h <;> simp only [] at h
    · exact absurd h (by simp)
    · simp only [Option.some.injEq, Prod.mk.injEq] at h
      obtain ⟨-, -, hit2⟩ := h
      rw [← hit2]
      simp
      omega

theorem drainIter_step (it : SubnetIterator) :
    drainIter it =
      match it.Next with
      | none => .panic
      | some (_, false, _) => .ok []
      | some (x, true, it2) =>
        match drainIter it2 with
        | .ok l => .ok (x :: l)
        | r => r := by
  show drainAux (it.remaining + 1) it = _
  unfold drainAux
  cases hN : it.Next with
  | none => rfl
  | some t =>
    obtain ⟨x, b, it2⟩ := t
    cases b
    · rfl
    · have hrem := next_true_remaining hN
      show (match drainAux it.remaining it2 with
        | Res.ok l => Res.ok (x :: l)
        | r => r) = _
      simp only []
      rw [show drainIter it2 = drainAux it.remaining it2 by unfold drainIter; rw [hrem]]

theorem drainIter_length (n : Nat) :
    ∀ (it : SubnetIterator) (l : List CIDR), it.remaining = n →
      drainIter it = .ok l → l.length = it.remaining := by
  induction n with
  | zero =>
    intro it l hn h
    rw [drainIter_step] at h
    unfold SubnetIterator.Next at h
    rw [if_pos hn] at h
    simp only [] at h
    cases h
    simp [hn]
  | succ m ih =>
    intro it l hn h
    rw [drainIter_step] at h
    unfold SubnetIterator.Next at h
    rw [if_neg (by omega)] at h
    rcases h1 : newCIDRorZero (NewCIDR it.current it.plen) with _ | sub <;>
      rw [h1] at h <;> simp only [] at h
    · exact absurd h (by simp)
    rcases h2 : it.current.Add (it.step : Int) with _ | cur2 <;>
      rw [h2] at h <;> simp only [] at h
    · exact absurd h (by simp)
    rcases h3 : drainIter ⟨it.remaining - 1, cur2, it.step, it.plen⟩ with _ | _ | l2 <;>
      rw [h3] at h <;> simp only [] at h
    · exact absurd h (by simp)
    · exact absurd h (by simp)
    · cases h
      have := ih ⟨it.remaining - 1, cur2, it.step, it.plen⟩ l2 (by simp; omega) h3
      simp only [List.length_cons] at *
      omega

theorem splitLoop_eq_drain (n : Nat) :
    ∀ (cur : Address) (st pl : Nat) (acc : List CIDR),
      splitLoop n cur pl st acc =
        match drainIter ⟨n, cur, st, pl⟩ with
        | .ok l => .ok (acc.reverse ++ l)
        | r => r := by
  induction n with
  | zero =>
    intro cur st pl acc
    rw [drainIter_step]
    simp [splitLoop, SubnetIterator.Next]
  | succ m ih =>
    intro cur st pl acc
    rw [drainIter_step]
    unfold SubnetIterator.Next
    rw [if_neg (by simp)]
    unfold splitLoop
    simp only []
    cases h1 : newCIDRorZero (NewCIDR cur pl) with
    | none => rfl
    | some sub =>
      cases h2 : cur.Add (st : Int) with
      | none => rfl
      | some cur2 =>
        simp only []
        rw [ih cur2 st pl (sub :: acc)]
        show _ = (match (match drainIter ⟨m, cur2, st, pl⟩ with
          | .ok l => Res.ok (sub :: l)
          | r => r) with
          | .ok l => Res.ok (acc.reverse ++ l)
          | r => r)
        cases h3 : drainIter ⟨m, cur2, st, pl⟩ <;> simp
/-- Witness for C9 at concrete networks and prefixes. -/
theorem c9_split_guards_witness :
    CIDR.Split ⟨.mk 0, 64⟩ 64 = .ok [⟨.mk 0, 64⟩] ∧
    (CIDR.Split ⟨.mk 0, 64⟩ 130 = .err .invalidSplitPlen ↔ 130 < 64 ∨ 128 < 130) ∧
    (CIDR.Split ⟨.mk 0, 64⟩ 100 = .err .splitExcessive ↔
      MaxSplitParts < 2 ^ (100 - 64) ∨ 63 ≤ 100 - 64) :=
  ⟨(c9_split_guards ⟨.mk 0, 64⟩ 64 (by decide)).2.1 rfl,
   (c9_split_guards ⟨.mk 0, 64⟩ 130 (by decide)).1,
   (c9_split_guards ⟨.mk 0, 64⟩ 100 (by decide)).2.2 (by decide) (by decide)⟩

theorem Add_mk_ite {v : Nat} (d : Nat) (hlt : v < two128) :
    Address.Add (.mk v) (d : Int) =
      some (if isV4Mapped ((v + d) % two128) then Address.empty
            else .mk ((v + d) % two128)) := by
  rw [Add_mk d hlt, orEmpty_newAddress]

/-- **C10.** The eager `Split` and the drained `SubnetIterator` agree
exactly: the same guard errors, the same panics, and on success the same
networks in the same order; the iterator's part budget equals
`2^(p - plen)`, draining emits exactly `remaining` networks, and `Next`
reports `ok == false` precisely when the budget is exhausted. -/
theorem c10_split_iterator_agree (c : CIDR) (p : Nat) (hwf : c.wf) :
    splitViaIterator c p = c.Split p ∧
    (∀ it, c.mkSubnetIterator p = .ok it → it.remaining = 2 ^ (p - c.plen)) ∧
    (∀ (it : SubnetIterator) (l : List CIDR),
      drainIter it = .ok l → l.length = it.remaining) ∧
    (∀ (it : SubnetIterator) (x : CIDR) (b : Bool) (st : SubnetIterator),
      it.Next = some (x, b, st) → (b = false ↔ it.remaining = 0)) := by
  refine ⟨?_, ?_, ?_, ?_⟩
  · unfold splitViaIterator CIDR.mkSubnetIterator CIDR.Split
    by_cases h1 : p < c.plen ∨ p > 128
    · rw [if_pos h1, if_pos h1]
    · rw [if_neg h1, if_neg h1]
      by_cases h2 : p = c.plen
      · rw [if_pos h2, if_pos h2]
        show drainIter ⟨1, c.base, 0, p⟩ = .ok [c]
        have hok : NewCIDR c.base p = .ok c := by rw [h2]; exact NewCIDR_of_wf hwf
        obtain ⟨v, hb, hlt, hv4, hp, hmod⟩ := wf_iff.mp hwf
        show drainAux 2 ⟨1, c.base, 0, p⟩ = .ok [c]
        unfold drainAux SubnetIterator.Next
        rw [if_neg (by simp)]
        dsimp only
        rw [hok]
        simp only [newCIDRorZero]
        rw [hb, Add_mk_ite 0 hlt]
        rw [Nat.add_zero, Nat.mod_eq_of_lt hlt, hv4]
        rfl
      · rw [if_neg h2, if_neg h2]
        dsimp only
        by_cases h3 : p - c.plen ≥ 63
        · rw [if_pos h3, if_pos h3]
        · rw [if_neg h3, if_neg h3]
          by_cases h4 : 1 <<< (p - c.plen) > MaxSplitParts
          · rw [if_pos h4, if_pos h4]
          · rw [if_neg h4, if_neg h4]
            show drainIter _ = _
            rw [splitLoop_eq_drain]
            cases drainIter ⟨1 <<< (p - c.plen), c.base,
              c.HostCount >>> (p - c.plen), p⟩ <;> simp
  · intro it h
    unfold CIDR.mkSubnetIterator at h
    by_cases h1 : p < c.plen ∨ p > 128
    · rw [if_pos h1] at h; exact absurd h (by simp)
    · rw [if_neg h1] at h
      by_cases h2 : p = c.plen
      · rw [if_pos h2] at h
        cases h
        simp [h2]
      · rw [if_neg h2] at h
        dsimp only at h
        by_cases h3 : p - c.plen ≥ 63
        · rw [if_pos h3] at h; exact absurd h (by simp)
        · rw [if_neg h3] at h
          by_cases h4 : 1 <<< (p - c.plen) > MaxSplitParts
          · rw [if_pos h4] at h; exact absurd h (by simp)
          · rw [if_neg h4] at h
            cases h
            simp [Nat.shiftLeft_eq]
  · intro it l h
    exact drainIter_length it.remaining it l rfl h
  · intro it x b st h
    unfold SubnetIterator.Next at h
    by_cases h0 : it.remaining = 0
    · rw [if_pos h0] at h
      cases h
      simp [h0]
    · rw [if_neg h0] at h
      rcases h1 : newCIDRorZero (NewCIDR it.current it.plen) with _ | sub <;>
        rw [h1] at h <;> simp only [] at h
      · exact absurd h (by simp)
      rcases h2 : it.current.Add (it.step : Int) with _ | cur2 <;>
        rw [h2] at h <;> simp only [] at h
      · exact absurd h (by simp)
      simp only [Option.some.injEq, Prod.mk.injEq] at h
      obtain ⟨-, hb2, -⟩ := h
      simp [← hb2, h0]

theorem pow_dvd_two128 {k : Nat} (hk : k ≤ 128) : 2 ^ k ∣ two128 :=
  pow_dvd_pow 2 hk

theorem add_pow_le {v k m : Nat} (hd : 2 ^ k ∣ v) (hdm : 2 ^ k ∣ m) (h : v < m) :
    v + 2 ^ k ≤ m := by
  obtain ⟨a, ha⟩ := hd
  obtain ⟨b, hbb⟩ := hdm
  subst ha hbb
  have hpos : 0 < 2 ^ k := Nat.pos_pow_of_pos _ (by norm_num)
  have hab : a < b := lt_of_mul_lt_mul_left h (Nat.zero_le _)
  calc 2 ^ k * a + 2 ^ k = 2 ^ k * (a + 1) := by ring
  _ ≤ 2 ^ k * b := Nat.mul_le_mul_left _ (by omega)

theorem bigInt_orEmpty (x : Nat) :
    (orEmpty (NewAddress x)).BigInt = if isV4Mapped x then 0 else x := by
  rw [orEmpty_newAddress]
  split <;> rfl

theorem bigInt_orEmpty_le (x : Nat) : (orEmpty (NewAddress x)).BigInt ≤ x := by
  rw [bigInt_orEmpty]
  split <;> omega

theorem LastHost_eq {c : CIDR} {v : Nat} (hb : c.base = .mk v)
    (hfit : v + c.HostCount - 1 < two128) :
    c.LastHost = some (orEmpty (NewAddress (v + c.HostCount - 1))) := by
  unfold CIDR.LastHost
  rw [hb]
  show (if ((Address.mk v).BigInt + c.HostCount - 1 ≥ two128) then none else
    some (orEmpty (NewAddress ((Address.mk v).BigInt + c.HostCount - 1)))) = _
  show (if (v + c.HostCount - 1 ≥ two128) then none else
    some (orEmpty (NewAddress (v + c.HostCount - 1)))) = _
  rw [if_neg (by omega)]

theorem Overlaps_eq {c o : CIDR} {e1 e2 : Address} (h1 : c.LastHost = some e1)
    (h2 : o.LastHost = some e2) :
    c.Overlaps o = some (decide (c.base.BigInt ≤ e2.BigInt) &&
      decide (o.base.BigInt ≤ e1.BigInt)) := by
  unfold CIDR.Overlaps
  rw [h1, h2]
  rfl

theorem NewCIDR_empty {p : Nat} (hp : p ≤ 128) : NewCIDR .empty p = .panic := by
  have hmask : Address.Mask .empty p = none := by
    unfold Address.Mask
    split
    · rfl
    · rfl
  unfold NewCIDR
  rw [if_neg (by omega), hmask]

/-- Characterization of `CIDR.Next` on a well-formed network: the successor
base is `(base + hostCount) mod 2^128`; the call panics exactly when that
value is IPv4-mapped. -/
theorem Next_char {c : CIDR} (hwf : c.wf) :
    c.Next = (if isV4Mapped ((c.base.BigInt + c.HostCount) % two128) then none
              else some ⟨.mk ((c.base.BigInt + c.HostCount) % two128), c.plen⟩) := by
  obtain ⟨v, hb, hlt, hv4, hp, hmod⟩ := wf_iff.mp hwf
  unfold CIDR.Next
  rw [hb, Add_mk_ite c.HostCount hlt]
  show (match (if isV4Mapped ((v + c.HostCount) % two128) then Address.empty
        else .mk ((v + c.HostCount) % two128)) with
    | a => newCIDRorZero (NewCIDR a c.plen)) = _
  simp only [hb, Address.BigInt]
  split
  · rw [NewCIDR_empty hp]
    rfl
  · rename_i hw4
    rw [NewCIDR_mk hp (by simpa using hw4)]
    have hdvd : 2 ^ (128 - c.plen) ∣ (v + c.HostCount) % two128 := by
      rw [Nat.dvd_mod_iff (pow_dvd_two128 (by omega))]
      exact Nat.dvd_add (Nat.dvd_of_mod_eq_zero hmod)
        (by rw [hostCount_eq])
    rw [Nat.div_mul_cancel hdvd]
    rfl

/-- Characterization of `CIDR.Prev` on a well-formed network. -/
theorem Prev_char {c : CIDR} (hwf : c.wf) :
    c.Prev = (if isV4Mapped ((c.base.BigInt + (two128 - c.HostCount)) % two128) then none
              else some ⟨.mk ((c.base.BigInt + (two128 - c.HostCount)) % two128), c.plen⟩) := by
  obtain ⟨v, hb, hlt, hv4, hp, hmod⟩ := wf_iff.mp hwf
  have hcle : c.HostCount ≤ two128 := by
    rw [hostCount_eq]
    exact Nat.pow_le_pow_right (by norm_num) (by omega)
  unfold CIDR.Prev
  rw [hb, Sub_mk c.HostCount hlt hcle, orEmpty_newAddress]
  simp only [hb, Address.BigInt]
  split
  · rw [NewCIDR_empty hp]
    rfl
  · rename_i hw4
    rw [NewCIDR_mk hp (by simpa using hw4)]
    have hdvd : 2 ^ (128 - c.plen) ∣ (v + (two128 - c.HostCount)) % two128 := by
      rw [Nat.dvd_mod_iff (pow_dvd_two128 (by omega))]
      refine Nat.dvd_add (Nat.dvd_of_mod_eq_zero hmod) ?_
      have h1 : 2 ^ (128 - c.plen) ∣ two128 := pow_dvd_two128 (by omega)
      have h2 : 2 ^ (128 - c.plen) ∣ c.HostCount := by rw [hostCount_eq]
      exact Nat.dvd_sub' h1 h2
    rw [Nat.div_mul_cancel hdvd]
    rfl

/-- **C6 counterexample.** The claim fails on the code in two ways: for
`::/0` the successor wraps to the network itself, which overlaps it; and
for `::fffe:0:0/96` the successor base is IPv4-mapped, so `Next` panics and
returns nothing at all. -/
theorem c6_counterexample :
    CIDR.wf ⟨.mk 0, 0⟩ ∧
    CIDR.Next ⟨.mk 0, 0⟩ = some ⟨.mk 0, 0⟩ ∧
    CIDR.Overlaps ⟨.mk 0, 0⟩ ⟨.mk 0, 0⟩ = some true ∧
    CIDR.wf ⟨.mk 0xfffe00000000, 96⟩ ∧
    CIDR.Next ⟨.mk 0xfffe00000000, 96⟩ = none := by
  decide

/-- **C6 (amended).** For every well-formed network `N` whose `Next` call
returns (does not panic on an IPv4-mapped successor base),
`N.Next().Prev() == N`; and whenever additionally `N.prefixLength ≥ 1`,
`N.Next()` does not overlap `N` (at prefix length 0 the successor wraps
around to `N` itself and overlaps it). -/
theorem c6_next_prev_adjacency (c M : CIDR) (hwf : c.wf) (h : c.Next = some M) :
    M.Prev = some c ∧
      (1 ≤ c.plen → (c.Overlaps M = some false ∧ M.Overlaps c = some false)) := by
  obtain ⟨v, hb, hlt, hv4, hp, hmod⟩ := wf_iff.mp hwf
  rw [Next_char hwf] at h
  rw [hb] at h
  simp only [Address.BigInt] at h
  by_cases hw4 : isV4Mapped ((v + c.HostCount) % two128) = true
  · rw [if_pos hw4] at h
    exact absurd h (by simp)
  rw [if_neg hw4] at h
  have hM : M = ⟨.mk ((v + c.HostCount) % two128), c.plen⟩ := by
    cases h
    rfl
  have hpos : 0 < 2 ^ (128 - c.plen) := Nat.pos_pow_of_pos _ (by norm_num)
  have hs1 : (1 : Nat) ≤ c.HostCount := by rw [hostCount_eq]; omega
  have hdvdv : 2 ^ (128 - c.plen) ∣ v := Nat.dvd_of_mod_eq_zero hmod
  have hdvdM : 2 ^ (128 - c.plen) ∣ two128 := pow_dvd_two128 (by omega)
  have hfit : v + c.HostCount ≤ two128 := by
    rw [hostCount_eq]
    exact add_pow_le hdvdv hdvdM hlt
  set w := (v + c.HostCount) % two128 with hwdef
  have hMpos : (0 : Nat) < two128 := by rw [two128_eq]; norm_num
  have hwval : w = v + c.HostCount ∨ (w = 0 ∧ v + c.HostCount = two128) := by
    rcases Nat.lt_or_ge (v + c.HostCount) two128 with hc | hc
    · exact Or.inl (Nat.mod_eq_of_lt hc)
    · have he : v + c.HostCount = two128 := by omega
      refine Or.inr ⟨?_, he⟩
      rw [hwdef, he, Nat.mod_self]
  have hwlt : w < two128 := Nat.mod_lt _ hMpos
  have hdvdw : 2 ^ (128 - c.plen) ∣ w := by
    rw [hwdef, Nat.dvd_mod_iff hdvdM]
    exact Nat.dvd_add hdvdv (by rw [hostCount_eq])
  have hwmod : w % 2 ^ (128 - c.plen) = 0 := by
    obtain ⟨t, ht⟩ := hdvdw
    rw [ht]
    exact Nat.mul_mod_right _ _
  have hw4f : isV4Mapped w = false := by simpa using hw4
  have hMwf : M.wf := by
    rw [hM]
    exact wf_mk hwlt hw4f hp hwmod
  have hwfit : w + c.HostCount ≤ two128 := by
    rw [hostCount_eq]
    exact add_pow_le hdvdw hdvdM hwlt
  constructor
  · rw [Prev_char hMwf, hM]
    simp only [Address.BigInt]
    have hval : (w + (two128 - (⟨Address.mk w, c.plen⟩ : CIDR).HostCount)) % two128 = v := by
      show (w + (two128 - c.HostCount)) % two128 = v
      rcases hwval with hA | ⟨hB, hBe⟩
      · rw [hA]
        have he : v + c.HostCount + (two128 - c.HostCount) = v + two128 := by omega
        rw [he, Nat.add_mod_right, Nat.mod_eq_of_lt hlt]
      · rw [hB, Nat.zero_add, Nat.mod_eq_of_lt (by omega)]
        omega
    rw [hval, hv4]
    show some (⟨Address.mk v, c.plen⟩ : CIDR) = some c
    rw [← hb]
  · intro hp1
    have h2s : c.HostCount + c.HostCount ≤ two128 := by
      rw [hostCount_eq]
      have he : (2 : Nat) ^ (128 - c.plen) + 2 ^ (128 - c.plen) = 2 ^ (128 - c.plen + 1) := by
        rw [pow_succ]
        ring
      rw [he]
      show (2 : Nat) ^ (128 - c.plen + 1) ≤ 2 ^ 128
      exact Nat.pow_le_pow_right (by norm_num) (by omega)
    have hcl : c.LastHost = some (orEmpty (NewAddress (v + c.HostCount - 1))) :=
      LastHost_eq hb (by omega)
    have hMl : M.LastHost = some (orEmpty (NewAddress (w + c.HostCount - 1))) := by
      rw [hM]
      exact LastHost_eq rfl (by show w + c.HostCount - 1 < two128; omega)
    have he1 := bigInt_orEmpty_le (v + c.HostCount - 1)
    have he2 := bigInt_orEmpty_le (w + c.HostCount - 1)
    constructor
    · rw [Overlaps_eq hcl hMl, hM, hb]
      dsimp only
      simp only [Option.some.injEq, Bool.and_eq_false_iff, decide_eq_false_iff_not]
      rw [show (Address.mk v).BigInt = v from rfl, show (Address.mk w).BigInt = w from rfl]
      rcases hwval with hA | ⟨hB, hBe⟩ <;> omega
    · rw [hM] at hMl ⊢
      rw [Overlaps_eq hMl hcl, hb]
      dsimp only
      simp only [Option.some.injEq, Bool.and_eq_false_iff, decide_eq_false_iff_not]
      rw [show (Address.mk v).BigInt = v from rfl, show (Address.mk w).BigInt = w from rfl]
      rcases hwval with hA | ⟨hB, hBe⟩ <;> omega

/-- Witness for C6 at `::/64`: the successor exists, its predecessor is the
original network, and the two do not overlap. -/
theorem c6_next_prev_adjacency_witness :
    CIDR.Prev ⟨.mk 18446744073709551616, 64⟩ = some ⟨.mk 0, 64⟩ ∧
      (1 ≤ (64 : Nat) →
        (CIDR.Overlaps ⟨.mk 0, 64⟩ ⟨.mk 18446744073709551616, 64⟩ = some false ∧
         CIDR.Overlaps ⟨.mk 18446744073709551616, 64⟩ ⟨.mk 0, 64⟩ = some false)) :=
  c6_next_prev_adjacency ⟨.mk 0, 64⟩ ⟨.mk 18446744073709551616, 64⟩ (by decide) (by decide)

theorem overlaps_false_of_disjoint {a b : CIDR} (hwa : a.wf) (hwb : b.wf)
    (hd : b.base.BigInt + b.HostCount ≤ a.base.BigInt ∨
          a.base.BigInt + a.HostCount ≤ b.base.BigInt) :
    a.Overlaps b = some false := by
  obtain ⟨va, hba, hlta, hv4a, hpa, hmoda⟩ := wf_iff.mp hwa
  obtain ⟨vb, hbb, hltb, hv4b, hpb, hmodb⟩ := wf_iff.mp hwb
  have hfita : va + a.HostCount ≤ two128 := by
    rw [hostCount_eq]
    exact add_pow_le (Nat.dvd_of_mod_eq_zero hmoda) (pow_dvd_two128 (by omega)) hlta
  have hfitb : vb + b.HostCount ≤ two128 := by
    rw [hostCount_eq]
    exact add_pow_le (Nat.dvd_of_mod_eq_zero hmodb) (pow_dvd_two128 (by omega)) hltb
  have hs1a : (1 : Nat) ≤ a.HostCount := by rw [hostCount_eq]; exact Nat.one_le_two_pow
  have hs1b : (1 : Nat) ≤ b.HostCount := by rw [hostCount_eq]; exact Nat.one_le_two_pow
  have hal : a.LastHost = some (orEmpty (NewAddress (va + a.HostCount - 1))) :=
    LastHost_eq hba (by omega)
  have hbl : b.LastHost = some (orEmpty (NewAddress (vb + b.HostCount - 1))) :=
    LastHost_eq hbb (by omega)
  rw [Overlaps_eq hal hbl, hba, hbb]
  simp only [Option.some.injEq, Bool.and_eq_false_iff, decide_eq_false_iff_not]
  rw [show (Address.mk va).BigInt = va from rfl, show (Address.mk vb).BigInt = vb from rfl]
  have he1 := bigInt_orEmpty_le (va + a.HostCount - 1)
  have he2 := bigInt_orEmpty_le (vb + b.HostCount - 1)
  rw [hba] at hd
  rw [hbb] at hd
  rw [show (Address.mk va).BigInt = va from rfl, show (Address.mk vb).BigInt = vb from rfl] at hd
  rcases hd with hd | hd
  · left; omega
  · right; omega

/-- Characterization of a successful `splitLoop` run starting at an aligned
non-v4-mapped base: the produced networks step through the arithmetic
progression of width-`2^(128-p)` blocks, and every base stays clear of the
IPv4-mapped range. -/
theorem splitLoop_ok (m : Nat) :
    ∀ (v p : Nat) (acc l : List CIDR),
      p ≤ 128 →
      isV4Mapped v = false →
      v % 2 ^ (128 - p) = 0 →
      v + m * 2 ^ (128 - p) ≤ two128 →
      splitLoop m (.mk v) p (2 ^ (128 - p)) acc = .ok l →
      l = acc.reverse ++
        (List.range m).map (fun i => ⟨.mk (v + i * 2 ^ (128 - p)), p⟩) ∧
      ∀ i < m, isV4Mapped (v + i * 2 ^ (128 - p)) = false := by
  induction m with
  | zero =>
    intro v p acc l hp hv4 hmod hbound h
    unfold splitLoop at h
    simp only [Res.ok.injEq] at h
    subst h
    simp
  | succ n ih =>
    intro v p acc l hp hv4 hmod hbound h
    have hpos : 0 < 2 ^ (128 - p) := Nat.pos_pow_of_pos _ (by norm_num)
    have hone : 2 ^ (128 - p) ≤ (n + 1) * 2 ^ (128 - p) :=
      Nat.le_mul_of_pos_left _ (by omega)
    have hlt : v < two128 := by omega
    unfold splitLoop at h
    rw [NewCIDR_mk hp hv4] at h
    rw [Nat.div_mul_cancel (Nat.dvd_of_mod_eq_zero hmod)] at h
    simp only [newCIDRorZero] at h
    rw [Add_mk_ite (2 ^ (128 - p)) hlt] at h
    simp only [] at h
    cases n with
    | zero =>
      unfold splitLoop at h
      simp only [Res.ok.injEq] at h
      subst h
      constructor
      · rw [show List.range 1 = [0] from rfl]
        simp
      · intro i hi
        interval_cases i
        simpa using hv4
    | succ k =>
      have hvs : (v + 2 ^ (128 - p)) % two128 = v + 2 ^ (128 - p) := by
        apply Nat.mod_eq_of_lt
        have h2 : (2 : Nat) * 2 ^ (128 - p) ≤ (k + 1 + 1) * 2 ^ (128 - p) :=
          Nat.mul_le_mul_right _ (by omega)
        rw [two_mul] at h2
        omega
      rw [hvs] at h
      by_cases hw4 : isV4Mapped (v + 2 ^ (128 - p)) = true
      · rw [if_pos hw4] at h
        unfold splitLoop at h
        rw [NewCIDR_empty hp] at h
        simp only [newCIDRorZero] at h
        exact absurd h (by simp)
      · rw [if_neg hw4] at h
        have hmod2 : (v + 2 ^ (128 - p)) % 2 ^ (128 - p) = 0 := by
          rw [Nat.add_mod_right]
          exact hmod
        have hbound2 : (v + 2 ^ (128 - p)) + (k + 1) * 2 ^ (128 - p) ≤ two128 := by
          have he : v + 2 ^ (128 - p) + (k + 1) * 2 ^ (128 - p) =
              v + (k + 1 + 1) * 2 ^ (128 - p) := by ring
          rw [he]
          exact hbound
        obtain ⟨hl, hall⟩ := ih (v + 2 ^ (128 - p)) p (⟨.mk v, p⟩ :: acc) l hp
          (by simpa using hw4) hmod2 hbound2 h
        constructor
        · rw [hl]
          have hmap : (List.range (k + 1 + 1)).map
              (fun i => (⟨.mk (v + i * 2 ^ (128 - p)), p⟩ : CIDR)) =
              ⟨.mk v, p⟩ :: (List.range (k + 1)).map
                (fun i => ⟨.mk (v + 2 ^ (128 - p) + i * 2 ^ (128 - p)), p⟩) := by
            rw [List.range_succ_eq_map, List.map_cons, List.map_map]
            congr 1
            · simp
            · apply List.map_congr_left
              intro i _
              simp only [Function.comp_apply, Nat.succ_eq_add_one]
              have he : v + (i + 1) * 2 ^ (128 - p) =
                  v + 2 ^ (128 - p) + i * 2 ^ (128 - p) := by ring
              rw [he]
          rw [hmap]
          simp [List.reverse_cons, List.append_assoc]
        · intro i hi
          cases i with
          | zero => simpa using hv4
          | succ j =>
            have := hall j (by omega)
            have he : v + 2 ^ (128 - p) + j * 2 ^ (128 - p) =
                v + (j + 1) * 2 ^ (128 - p) := by ring
            rw [he] at this
            exact this

theorem mod_eq_zero_of_dvd {d v : Nat} (h : d ∣ v) : v % d = 0 := by
  obtain ⟨t, ht⟩ := h
  rw [ht]
  exact Nat.mul_mod_right _ _

theorem inRange_mk {w q n : Nat} :
    CIDR.inRange ⟨.mk w, q⟩ n ↔ w ≤ n ∧ n < w + 2 ^ (128 - q) := by
  unfold CIDR.inRange
  rw [show (⟨Address.mk w, q⟩ : CIDR).base.BigInt = w from rfl,
    show (⟨Address.mk w, q⟩ : CIDR).HostCount = 2 ^ (128 - q) from by rw [hostCount_eq]]

/-- **C2.** For every well-formed network `N` and prefix `p` for which
`Split(N, p)` succeeds, the subnets all have prefix length `p`, there are
`2^(p - N.plen)` of them, their bases form the arithmetic progression
`base, base + step, base + 2*step, ...` with
`step = hostCount(N) >> (p - N.plen)`, their ranges exactly cover `N`'s
address range, and no two of them overlap. -/
theorem c2_split_correct (c : CIDR) (p : Nat) (l : List CIDR) (hwf : c.wf)
    (h : c.Split p = .ok l) :
    (∀ x ∈ l, x.plen = p) ∧
    l.length = 2 ^ (p - c.plen) ∧
    (∀ (i : Nat) (hi : i < l.length),
      (l.get ⟨i, hi⟩).base.BigInt =
        c.base.BigInt + i * (c.HostCount >>> (p - c.plen))) ∧
    (∀ n : Nat, (∃ x ∈ l, x.inRange n) ↔ c.inRange n) ∧
    l.Pairwise (fun a b => a.Overlaps b = some false ∧ b.Overlaps a = some false) := by
  obtain ⟨v, hb, hlt, hv4, hplen, hmod⟩ := wf_iff.mp hwf
  unfold CIDR.Split at h
  by_cases h1 : p < c.plen ∨ p > 128
  · rw [if_pos h1] at h
    exact absurd h (by simp)
  rw [if_neg h1] at h
  push_neg at h1
  obtain ⟨hple, hp128⟩ := h1
  by_cases h2 : p = c.plen
  · rw [if_pos h2] at h
    simp only [Res.ok.injEq] at h
    subst h
    have hp0 : p - c.plen = 0 := by omega
    refine ⟨?_, ?_, ?_, ?_, ?_⟩
    · intro x hx
      simp only [List.mem_singleton] at hx
      subst hx
      omega
    · rw [hp0]
      rfl
    · intro i hi
      simp only [List.length_singleton] at hi
      have hi0 : i = 0 := by omega
      subst hi0
      simp
    · intro n
      simp
    · simp
  rw [if_neg h2] at h
  dsimp only at h
  by_cases h3 : p - c.plen ≥ 63
  · rw [if_pos h3] at h
    exact absurd h (by simp)
  rw [if_neg h3] at h
  by_cases h4 : 1 <<< (p - c.plen) > MaxSplitParts
  · rw [if_pos h4] at h
    exact absurd h (by simp)
  rw [if_neg h4] at h
  have hstep : c.HostCount >>> (p - c.plen) = 2 ^ (128 - p) := by
    rw [hostCount_eq, Nat.shiftRight_eq_div_pow, Nat.pow_div (by omega) (by norm_num)]
    congr 1
    omega
  have hparts : (1 : Nat) <<< (p - c.plen) = 2 ^ (p - c.plen) := by
    rw [Nat.shiftLeft_eq, one_mul]
  rw [hb, hstep, hparts] at h
  have hdvdvp : (2 : Nat) ^ (128 - p) ∣ v :=
    dvd_trans (pow_dvd_pow 2 (by omega)) (Nat.dvd_of_mod_eq_zero hmod)
  have hbound : v + 2 ^ (p - c.plen) * 2 ^ (128 - p) ≤ two128 := by
    rw [← pow_add]
    have he : p - c.plen + (128 - p) = 128 - c.plen := by omega
    rw [he]
    exact add_pow_le (Nat.dvd_of_mod_eq_zero hmod) (pow_dvd_two128 (by omega)) hlt
  obtain ⟨hl, hv4all⟩ := splitLoop_ok (2 ^ (p - c.plen)) v p [] l hp128 hv4
    (mod_eq_zero_of_dvd hdvdvp) hbound h
  set s := (2 : Nat) ^ (128 - p) with hsdef
  set m := (2 : Nat) ^ (p - c.plen) with hmdef
  have hpos : 0 < s := Nat.pos_pow_of_pos _ (by norm_num)
  have hms : m * s = 2 ^ (128 - c.plen) := by
    rw [hmdef, hsdef, ← pow_add]
    congr 1
    omega
  have helemwf : ∀ i, i < m → CIDR.wf ⟨.mk (v + i * s), p⟩ := by
    intro i hi
    refine wf_mk ?_ (hv4all i hi) hp128 ?_
    · have h5 : (i + 1) * s ≤ m * s := Nat.mul_le_mul_right _ (by omega)
      rw [add_one_mul] at h5
      omega
    · exact mod_eq_zero_of_dvd (dvd_add hdvdvp (dvd_mul_left s i))
  subst hl
  refine ⟨?_, ?_, ?_, ?_, ?_⟩
  · intro x hx
    simp only [List.reverse_nil, List.nil_append, List.mem_map, List.mem_range] at hx
    obtain ⟨i, _, rfl⟩ := hx
    rfl
  · simp
  · intro i hi
    simp only [List.reverse_nil, List.nil_append, List.length_map, List.length_range] at hi
    rw [List.get_eq_getElem]
    simp only [List.reverse_nil, List.nil_append]
    rw [List.getElem_map, List.getElem_range]
    rw [hb, hstep]
    rfl
  · intro n
    simp only [List.reverse_nil, List.nil_append]
    unfold CIDR.inRange
    rw [hb, show (Address.mk v).BigInt = v from rfl, hostCount_eq, ← hms]
    constructor
    · rintro ⟨x, hx, hxin⟩
      simp only [List.mem_map, List.mem_range] at hx
      obtain ⟨i, hi, rfl⟩ := hx
      rw [show (⟨Address.mk (v + i * s), p⟩ : CIDR).base.BigInt = v + i * s from rfl,
        show (⟨Address.mk (v + i * s), p⟩ : CIDR).HostCount = s from by
          rw [hostCount_eq, ← hsdef]] at hxin
      have h5 : (i + 1) * s ≤ m * s := Nat.mul_le_mul_right _ (by omega)
      rw [add_one_mul] at h5
      omega
    · rintro ⟨hn1, hn2⟩
      refine ⟨⟨.mk (v + (n - v) / s * s), p⟩, ?_, ?_⟩
      · simp only [List.mem_map, List.mem_range]
        refine ⟨(n - v) / s, ?_, rfl⟩
        rw [Nat.div_lt_iff_lt_mul hpos]
        omega
      · rw [show (⟨Address.mk (v + (n - v) / s * s), p⟩ : CIDR).base.BigInt =
            v + (n - v) / s * s from rfl,
          show (⟨Address.mk (v + (n - v) / s * s), p⟩ : CIDR).HostCount = s from by
            rw [hostCount_eq, ← hsdef]]
        have hq1 : (n - v) / s * s ≤ n - v := Nat.div_mul_le_self _ _
        have hq2 := Nat.div_add_mod' (n - v) s
        have hq3 : (n - v) % s < s := Nat.mod_lt _ hpos
        constructor <;> omega
  · simp only [List.reverse_nil, List.nil_append]
    rw [List.pairwise_iff_getElem]
    intro i j hi hj hij
    simp only [List.length_map, List.length_range] at hi hj
    rw [List.getElem_map, List.getElem_map, List.getElem_range, List.getElem_range]
    have hwi := helemwf i hi
    have hwj := helemwf j hj
    have hdisj : (⟨Address.mk (v + i * s), p⟩ : CIDR).base.BigInt +
        (⟨Address.mk (v + i * s), p⟩ : CIDR).HostCount ≤
        (⟨Address.mk (v + j * s), p⟩ : CIDR).base.BigInt := by
      rw [show (⟨Address.mk (v + i * s), p⟩ : CIDR).base.BigInt = v + i * s from rfl,
        show (⟨Address.mk (v + j * s), p⟩ : CIDR).base.BigInt = v + j * s from rfl,
        show (⟨Address.mk (v + i * s), p⟩ : CIDR).HostCount = s from by
          rw [hostCount_eq, ← hsdef]]
      have h5 : (i + 1) * s ≤ j * s := Nat.mul_le_mul_right _ (by omega)
      rw [add_one_mul] at h5
      omega
    exact ⟨overlaps_false_of_disjoint hwi hwj (Or.inr hdisj),
      overlaps_false_of_disjoint hwj hwi (Or.inl hdisj)⟩

/-- Witness for C2: `::/126` split at `/127`. -/
theorem c2_split_correct_witness :
    (∀ x ∈ [(⟨.mk 0, 127⟩ : CIDR), ⟨.mk 2, 127⟩], x.plen = 127) ∧
    ([(⟨.mk 0, 127⟩ : CIDR), ⟨.mk 2, 127⟩].length = 2 ^ (127 - 126)) ∧
    (∀ (i : Nat) (hi : i < [(⟨.mk 0, 127⟩ : CIDR), ⟨.mk 2, 127⟩].length),
      ([(⟨.mk 0, 127⟩ : CIDR), ⟨.mk 2, 127⟩].get ⟨i, hi⟩).base.BigInt =
        (⟨.mk 0, 126⟩ : CIDR).base.BigInt +
          i * ((⟨.mk 0, 126⟩ : CIDR).HostCount >>> (127 - 126))) ∧
    (∀ n : Nat, (∃ x ∈ [(⟨.mk 0, 127⟩ : CIDR), ⟨.mk 2, 127⟩], x.inRange n) ↔
      (⟨.mk 0, 126⟩ : CIDR).inRange n) ∧
    ([(⟨.mk 0, 127⟩ : CIDR), ⟨.mk 2, 127⟩].Pairwise
      (fun a b => a.Overlaps b = some false ∧ b.Overlaps a = some false)) :=
  c2_split_correct ⟨.mk 0, 126⟩ 127 [⟨.mk 0, 127⟩, ⟨.mk 2, 127⟩] (by decide) (by decide)

theorem distance_mk {a b : Nat} (hab : a ≤ b) (ha : a < two128) (hb : b < two128) :
    Distance (.mk a) (.mk b) = some (b - a) := by
  unfold Distance Address.hiLo
  simp only []
  rw [if_neg (by
    simp only [two64_eq, two128_eq] at *
    push_neg
    refine ⟨by omega, fun h => by omega⟩)]
  unfold distHiLo
  simp only [Option.some.injEq]
  simp only [two64_eq, two128_eq] at *
  split <;> omega

theorem tzAux_le (f : Nat) : ∀ n, tzAux f n ≤ f := by
  induction f with
  | zero => intro n; simp [tzAux]
  | succ g ih =>
    intro n
    unfold tzAux
    split
    · omega
    · have := ih (n / 2)
      omega

theorem tzAux_dvd (f : Nat) : ∀ n, 2 ^ tzAux f n ∣ n := by
  induction f with
  | zero => intro n; simp [tzAux]
  | succ g ih =>
    intro n
    unfold tzAux
    split
    · simp
    · rename_i hodd
      have h2 : n % 2 = 0 := by omega
      have hd := ih (n / 2)
      have hn : n = 2 * (n / 2) := by omega
      rw [pow_add]
      conv_rhs => rw [hn]
      exact mul_dvd_mul (by norm_num) hd

theorem tz64_le (n : Nat) : tz64 n ≤ 64 := tzAux_le 64 n

theorem tz64_dvd (n : Nat) : 2 ^ tz64 n ∣ n := tzAux_dvd 64 n

theorem hostCount_pos (c : CIDR) : 1 ≤ c.HostCount := by
  rw [hostCount_eq]; exact Nat.one_le_two_pow

theorem log2Fuel_eq (f : Nat) : ∀ n, n < 2 ^ f → log2Fuel f n = Nat.log2 n := by
  induction f with
  | zero =>
    intro n hn
    have : n = 0 := by simpa using hn
    subst this
    conv_rhs => rw [Nat.log2]
    rw [if_neg (by omega)]
    rfl
  | succ g ih =>
    intro n hn
    unfold log2Fuel
    by_cases h2 : 2 ≤ n
    · rw [if_pos h2, ih (n / 2) (by rw [pow_succ] at hn; omega)]
      conv_rhs => rw [Nat.log2]
      rw [if_pos h2]
    · rw [if_neg h2]
      conv_rhs => rw [Nat.log2]
      rw [if_neg h2]

/-- The inline trailing-zero computation of `CoverRange` on the two halves
of a 128-bit value is at most 128 and its power of two divides the value. -/
theorem addrTz_le_dvd (w : Nat) (hw : w < two128) :
    addrTz (w / two64 % two64) (w % two64) ≤ 128 ∧
      2 ^ addrTz (w / two64 % two64) (w % two64) ∣ w := by
  have hdivlt : w / two64 < two64 := by
    rw [Nat.div_lt_iff_lt_mul (by norm_num [two64])]
    calc w < two128 := hw
      _ = two64 * two64 := by norm_num [two64, two128]
  have hmodid : w / two64 % two64 = w / two64 := Nat.mod_eq_of_lt hdivlt
  have hsplit : two64 * (w / two64) + w % two64 = w := Nat.div_add_mod w two64
  unfold addrTz
  rw [hmodid]
  by_cases hlo : w % two64 ≠ 0
  · rw [if_pos hlo]
    refine ⟨le_trans (tz64_le _) (by norm_num), ?_⟩
    have h1 : 2 ^ tz64 (w % two64) ∣ w % two64 := tz64_dvd _
    have h2 : 2 ^ tz64 (w % two64) ∣ two64 := by
      rw [show two64 = 2 ^ 64 from by norm_num [two64]]
      exact pow_dvd_pow 2 (tz64_le _)
    have h3 : 2 ^ tz64 (w % two64) ∣ two64 * (w / two64) + w % two64 :=
      dvd_add (Dvd.dvd.mul_right h2 _) h1
    rwa [hsplit] at h3
  · rw [if_neg hlo]
    push_neg at hlo
    by_cases hhi : w / two64 ≠ 0
    · rw [if_pos hhi]
      constructor
      · have := tz64_le (w / two64); omega
      · rw [pow_add]
        have h1 : 2 ^ tz64 (w / two64) ∣ w / two64 := tz64_dvd _
        have h3 : 2 ^ 64 * 2 ^ tz64 (w / two64) ∣ two64 * (w / two64) := by
          refine mul_dvd_mul ?_ h1
          rw [show two64 = 2 ^ 64 from by norm_num [two64]]
        conv_rhs => rw [show w = two64 * (w / two64) from by omega]
        exact h3
    · rw [if_neg hhi]
      push_neg at hhi
      have hz : w = 0 := by rw [two64_eq] at hlo hhi; omega
      exact ⟨le_refl _, hz ▸ dvd_zero _⟩

/-- One iteration of the `CoverRange` loop on a valid cursor not past the
stop: it chooses the block size `2^t2` with `t2 = min(trailingZeros cur,
floorLog2 remaining)`, emits the aligned block `cur/(128 - t2)`, and
either panics (when the block's last host is IPv4-mapped) or recurses on
the successor address. -/
theorem coverLoop_step (f : Nat) {w e : Nat} (acc : List CIDR)
    (hw : w < two128) (hv4 : isV4Mapped w = false) (he : e < two128)
    (hwe : w ≤ e) :
    ∃ t2 : Nat, t2 ≤ 128 ∧ 2 ^ t2 ∣ w ∧ 2 ^ t2 ≤ e - w + 1 ∧
      coverLoop (f + 1) (.mk w) (.mk e) acc =
        (if isV4Mapped (w + 2 ^ t2 - 1) then CoverRes.panic
         else coverLoop f (orEmpty (NewAddress ((w + 2 ^ t2) % two128))) (.mk e)
           (⟨.mk w, 128 - t2⟩ :: acc)) := by
  have hrem1 : 1 ≤ e - w + 1 := by omega
  have hbl : bitLen (e - w + 1) - 1 = Nat.log2 (e - w + 1) := by
    unfold bitLen
    rw [if_neg (by omega)]
    rw [log2Fuel_eq 129 (e - w + 1) (by rw [two128_eq] at he; norm_num; omega)]
    omega
  have hlog : Nat.log2 (e - w + 1) ≤ 128 := by
    have h129 : e - w + 1 < 2 ^ 129 := by
      rw [two128_eq] at he
      omega
    have := (Nat.log2_lt (by omega)).mpr h129
    omega
  obtain ⟨htzle, htzdvd⟩ := addrTz_le_dvd w hw
  set T := if addrTz (w / two64 % two64) (w % two64) > bitLen (e - w + 1) - 1
    then bitLen (e - w + 1) - 1 else addrTz (w / two64 % two64) (w % two64)
    with hT
  have hTle : T ≤ 128 := by rw [hT]; split <;> omega
  have hTletz : T ≤ addrTz (w / two64 % two64) (w % two64) := by
    rw [hT]; split <;> omega
  have hTdvd : 2 ^ T ∣ w := dvd_trans (pow_dvd_pow 2 hTletz) htzdvd
  have hTbound : 2 ^ T ≤ e - w + 1 := by
    have hTlog : T ≤ Nat.log2 (e - w + 1) := by rw [hT]; split <;> omega
    calc 2 ^ T ≤ 2 ^ Nat.log2 (e - w + 1) := Nat.pow_le_pow_right (by omega) hTlog
      _ ≤ e - w + 1 := Nat.log2_self_le (by omega)
  refine ⟨T, hTle, hTdvd, hTbound, ?_⟩
  conv_lhs => rw [coverLoop]
  rw [if_pos (by rw [compare_le_iff]; simp only [addrKey_mk]; omega)]
  rw [distance_mk hwe hw he]
  simp only [Address.hiLo]
  rw [← hT]
  have hcnt : (⟨Address.mk w, 128 - T⟩ : CIDR).HostCount = 2 ^ T := by
    rw [hostCount_eq]
    rw [show (⟨Address.mk w, 128 - T⟩ : CIDR).plen = 128 - T from rfl]
    congr 1
    omega
  have h2pos : (1 : Nat) ≤ 2 ^ T := Nat.one_le_two_pow
  rw [NewCIDR_mk (show 128 - T ≤ 128 by omega) hv4]
  rw [show 128 - (128 - T) = T from by omega]
  rw [Nat.div_mul_cancel hTdvd]
  simp only [newCIDRorZero]
  rw [LastHost_eq rfl (by rw [hcnt]; omega)]
  simp only []
  rw [hcnt]
  rw [orEmpty_newAddress]
  by_cases hlast : isV4Mapped (w + 2 ^ T - 1) = true
  · rw [if_pos hlast, if_pos hlast]
    rw [show Address.empty.Add 1 = none from rfl]
  · rw [if_neg hlast, if_neg hlast]
    rw [show (1 : Int) = ((1 : Nat) : Int) from rfl]
    rw [Add_mk_ite (v := w + 2 ^ T - 1) 1 (by omega)]
    rw [show w + 2 ^ T - 1 + 1 = w + 2 ^ T from by omega]
    rw [orEmpty_newAddress]

theorem coverLoop_empty_ne_ok (f : Nat) (stop : Address) (acc l : List CIDR) :
    coverLoop f .empty stop acc ≠ .ok l := by
  cases f with
  | zero => simp [coverLoop]
  | succ g =>
    unfold coverLoop
    rw [if_pos (by rw [compare_le_iff]; cases stop <;> simp only [addrKey] <;> omega)]
    have hd : Distance .empty stop = none := by cases stop <;> rfl
    rw [hd]
    simp

theorem coverLoop_gt {f : Nat} {w2 e : Nat} {acc l : List CIDR} (hgt : e < w2)
    (h : coverLoop f (.mk w2) (.mk e) acc = .ok l) : l = acc.reverse := by
  cases f with
  | zero => exact absurd h (by simp [coverLoop])
  | succ g =>
    unfold coverLoop at h
    rw [if_neg (by rw [compare_le_iff]; simp only [addrKey_mk]; omega)] at h
    exact (CoverRes.ok.inj h).symm

/-- When the stop address is the all-ones address, the cursor can never
exceed it, so the `CoverRange` loop never terminates normally (in the Go
code this is an infinite loop; here the fuel runs out). -/
theorem coverLoop_max_ne_ok (f : Nat) :
    ∀ (w : Nat) (acc l : List CIDR), w < two128 → isV4Mapped w = false →
      coverLoop f (.mk w) (.mk (two128 - 1)) acc ≠ .ok l := by
  induction f with
  | zero => intro w acc l _ _; simp [coverLoop]
  | succ g ih =>
    intro w acc l hw hv4 hok
    obtain ⟨t2, ht2le, ht2dvd, ht2bound, heq⟩ :=
      coverLoop_step g acc hw hv4 (show two128 - 1 < two128 by rw [two128_eq]; omega)
        (by omega)
    rw [heq] at hok
    by_cases hlast : isV4Mapped (w + 2 ^ t2 - 1) = true
    · rw [if_pos hlast] at hok
      exact absurd hok (by simp)
    · rw [if_neg hlast, orEmpty_newAddress] at hok
      by_cases hv2 : isV4Mapped ((w + 2 ^ t2) % two128) = true
      · rw [if_pos hv2] at hok
        exact coverLoop_empty_ne_ok g _ _ _ hok
      · rw [if_neg hv2] at hok
        rw [Bool.not_eq_true] at hv2
        exact ih ((w + 2 ^ t2) % two128) _ _
          (Nat.mod_lt _ (by rw [two128_eq]; omega)) hv2 hok

theorem consCover_nil {w e : Nat} (h : consCover w e []) : False := h

theorem consCover_singleton {w e : Nat} {c : CIDR} (h1 : c.wf)
    (h2 : c.base.BigInt = w) (h3 : c.base.BigInt + c.HostCount - 1 = e) :
    consCover w e [c] := ⟨h1, h2, h3⟩

theorem consCover_cons {w e w' : Nat} {c r : CIDR} {rs : List CIDR}
    (h1 : c.wf) (h2 : c.base.BigInt = w)
    (hw' : c.base.BigInt + c.HostCount = w') (h3 : w' - 1 < e)
    (h4 : consCover w' e (r :: rs)) : consCover w e (c :: r :: rs) := by
  refine ⟨h1, h2, by omega, ?_⟩
  rw [hw']
  exact h4

/-- Characterization of a successful `CoverRange` loop run: the produced
list extends the accumulator with a consecutive exact cover of `[w, e]`. -/
theorem coverLoop_ok (f : Nat) :
    ∀ (w e : Nat) (acc l : List CIDR), w < two128 → isV4Mapped w = false →
      e < two128 → w ≤ e →
      coverLoop f (.mk w) (.mk e) acc = .ok l →
      ∃ rest, l = acc.reverse ++ rest ∧ consCover w e rest := by
  induction f with
  | zero => intro w e acc l _ _ _ _ h; exact absurd h (by simp [coverLoop])
  | succ g ih =>
    intro w e acc l hw hv4 he hwe hok
    by_cases hemax : e = two128 - 1
    · subst hemax
      exact absurd hok (coverLoop_max_ne_ok (g + 1) w acc l hw hv4)
    obtain ⟨t2, ht2le, ht2dvd, ht2bound, heq⟩ := coverLoop_step g acc hw hv4 he hwe
    rw [heq] at hok
    have h2pos : (1 : Nat) ≤ 2 ^ t2 := Nat.one_le_two_pow
    by_cases hlast : isV4Mapped (w + 2 ^ t2 - 1) = true
    · rw [if_pos hlast] at hok
      exact absurd hok (by simp)
    rw [if_neg hlast, orEmpty_newAddress] at hok
    rw [Bool.not_eq_true] at hlast
    have hcid_wf : CIDR.wf ⟨.mk w, 128 - t2⟩ := by
      refine wf_mk hw hv4 (by omega) ?_
      rw [show 128 - (128 - t2) = t2 from by omega]
      exact mod_eq_zero_of_dvd ht2dvd
    have hcnt : (⟨Address.mk w, 128 - t2⟩ : CIDR).HostCount = 2 ^ t2 := by
      rw [hostCount_eq]
      rw [show (⟨Address.mk w, 128 - t2⟩ : CIDR).plen = 128 - t2 from rfl]
      congr 1
      omega
    by_cases hv2 : isV4Mapped ((w + 2 ^ t2) % two128) = true
    · rw [if_pos hv2] at hok
      exact absurd hok (coverLoop_empty_ne_ok g _ _ _)
    rw [if_neg hv2] at hok
    rw [Bool.not_eq_true] at hv2
    have hmodid : (w + 2 ^ t2) % two128 = w + 2 ^ t2 :=
      Nat.mod_eq_of_lt (by omega)
    rw [hmodid] at hok hv2
    by_cases hend : w + 2 ^ t2 - 1 < e
    · obtain ⟨rest', hl', hcc'⟩ := ih (w + 2 ^ t2) e (⟨.mk w, 128 - t2⟩ :: acc) l
        (by omega) hv2 he (by omega) hok
      refine ⟨⟨.mk w, 128 - t2⟩ :: rest', ?_, ?_⟩
      · rw [hl']
        simp
      · cases rest' with
        | nil => exact absurd hcc' consCover_nil
        | cons r rs =>
          refine consCover_cons hcid_wf rfl ?_ ?_ hcc'
          · rw [hcnt, show (⟨Address.mk w, 128 - t2⟩ : CIDR).base.BigInt = w from rfl]
          · omega
    · have hw2 : w + 2 ^ t2 = e + 1 := by omega
      rw [hw2] at hok
      have hl := coverLoop_gt (by omega) hok
      refine ⟨[⟨.mk w, 128 - t2⟩], ?_, ?_⟩
      · rw [hl]
        simp
      · refine consCover_singleton hcid_wf rfl ?_
        rw [hcnt]
        show w + 2 ^ t2 - 1 = e
        omega

/-- Consequences of a consecutive exact cover: every block is well formed,
blocks stay inside `[w, e]`, their union is exactly `[w, e]`, and they are
strictly ascending and pairwise disjoint. -/
theorem consCover_props (rest : List CIDR) : ∀ (w e : Nat), consCover w e rest →
    (∀ x ∈ rest, x.wf) ∧
    (∀ x ∈ rest, w ≤ x.base.BigInt ∧ x.base.BigInt + x.HostCount - 1 ≤ e) ∧
    (∀ n : Nat, (∃ x ∈ rest, x.inRange n) ↔ w ≤ n ∧ n ≤ e) ∧
    rest.Pairwise (fun a b => a.base.BigInt + a.HostCount ≤ b.base.BigInt) := by
  induction rest with
  | nil => intro w e h; exact (consCover_nil h).elim
  | cons c rest ih =>
    intro w e h
    cases rest with
    | nil =>
      obtain ⟨h1, h2, h3⟩ := h
      have hc1 : 1 ≤ c.HostCount := hostCount_pos c
      refine ⟨?_, ?_, ?_, ?_⟩
      · intro x hx
        rcases List.mem_cons.mp hx with hx | hx
        · subst hx; exact h1
        · exact absurd hx (List.not_mem_nil x)
      · intro x hx
        rcases List.mem_cons.mp hx with hx | hx
        · subst hx; omega
        · exact absurd hx (List.not_mem_nil x)
      · intro n
        simp only [List.mem_cons, List.not_mem_nil, or_false, exists_eq_left]
        unfold CIDR.inRange
        omega
      · exact List.pairwise_singleton _ _
    | cons r rs =>
      obtain ⟨h1, h2, h3, h4⟩ := h
      obtain ⟨ihwf, ihbounds, ihunion, ihpw⟩ := ih (c.base.BigInt + c.HostCount) e h4
      have hc1 : 1 ≤ c.HostCount := hostCount_pos c
      refine ⟨?_, ?_, ?_, ?_⟩
      · intro x hx
        rcases List.mem_cons.mp hx with hx | hx
        · subst hx; exact h1
        · exact ihwf x hx
      · intro x hx
        rcases List.mem_cons.mp hx with hx | hx
        · subst hx; omega
        · have := ihbounds x hx
          omega
      · intro n
        constructor
        · rintro ⟨x, hx, hr⟩
          rcases List.mem_cons.mp hx with hx | hx
          · subst hx
            unfold CIDR.inRange at hr
            omega
          · have h5 := (ihunion n).mp ⟨x, hx, hr⟩
            omega
        · intro hn
          by_cases hin : n < c.base.BigInt + c.HostCount
          · exact ⟨c, List.mem_cons_self _ _, by unfold CIDR.inRange; omega⟩
          · obtain ⟨x, hx, hr⟩ := (ihunion n).mpr ⟨by omega, hn.2⟩
            exact ⟨x, List.mem_cons_of_mem _ hx, hr⟩
      · refine List.pairwise_cons.mpr ⟨?_, ihpw⟩
        intro b hb
        exact (ihbounds b hb).1

theorem coverLoop_ne_err (f : Nat) :
    ∀ (cur stop : Address) (acc : List CIDR) (er : Err),
      coverLoop f cur stop acc ≠ .err er := by
  induction f with
  | zero => intro cur stop acc er; simp [coverLoop]
  | succ g ih =>
    intro cur stop acc er
    unfold coverLoop
    split
    · split
      · simp
      · split
        · simp
        · simp only []
          split
          · simp
          · split
            · simp
            · split
              · simp
              · exact ih _ _ _ _
    · simp

/-- **C3 counterexample.** For the valid addresses `::fffe:0:0` and
`::1:0:0:0` we have `start < stop`, yet `CoverRange` panics instead of
returning a cover: the greedy loop advances the cursor into the rejected
IPv4-mapped range `::ffff:0:0/96`, the discarded `NewAddress` error leaves
a zero-value `Address`, and the next iteration indexes its nil `ip` slice. -/
theorem c3_counterexample :
    Address.valid (.mk 0xfffe00000000) ∧ Address.valid (.mk (2 ^ 48)) ∧
    (0xfffe00000000 : Nat) < 2 ^ 48 ∧
    CoverRange 50 (.mk 0xfffe00000000) (.mk (2 ^ 48)) = CoverRes.panic := by
  refine ⟨by decide, by decide, by norm_num, by decide⟩

/-- **C3 (amended).** For valid (well-formed, non-IPv4-mapped) addresses:
`CoverRange` returns `ErrInvalidRange` exactly when `start > stop`; when
`stop` is the all-ones address the loop never terminates normally (the
cursor can never exceed `stop`); when it does return a list, the networks
are well formed, in strictly ascending order, pairwise disjoint (both by
interval arithmetic and by `Overlaps`), none extends past `stop`, and
their union is exactly the inclusive interval `[start, stop]`; and the
documented example `coverRange(2001:db8::1, 2001:db8::ff)` yields exactly
8 networks.  (The original claim is refuted by `c3_counterexample`: the
loop can also panic for `start < stop`.) -/
theorem c3_cover_range (fuel : Nat) (start stop : Address) (l : List CIDR)
    (hstart : start.valid) (hstop : stop.valid) :
    (CoverRange fuel start stop = .err .invalidRange ↔
      stop.BigInt < start.BigInt) ∧
    (stop = .mk (two128 - 1) → CoverRange fuel start stop ≠ .ok l) ∧
    (CoverRange fuel start stop = .ok l →
      (∀ x ∈ l, x.wf) ∧
      (∀ x ∈ l, start.BigInt ≤ x.base.BigInt ∧
        x.base.BigInt + x.HostCount - 1 ≤ stop.BigInt) ∧
      (∀ n : Nat, (∃ x ∈ l, x.inRange n) ↔
        start.BigInt ≤ n ∧ n ≤ stop.BigInt) ∧
      l.Pairwise (fun a b => a.base.BigInt + a.HostCount ≤ b.base.BigInt) ∧
      l.Pairwise (fun a b =>
        a.Overlaps b = some false ∧ b.Overlaps a = some false)) ∧
    CoverRange 20 (.mk 0x20010db8000000000000000000000001)
        (.mk 0x20010db80000000000000000000000ff) =
      .ok [⟨.mk 0x20010db8000000000000000000000001, 128⟩,
           ⟨.mk 0x20010db8000000000000000000000002, 127⟩,
           ⟨.mk 0x20010db8000000000000000000000004, 126⟩,
           ⟨.mk 0x20010db8000000000000000000000008, 125⟩,
           ⟨.mk 0x20010db8000000000000000000000010, 124⟩,
           ⟨.mk 0x20010db8000000000000000000000020, 123⟩,
           ⟨.mk 0x20010db8000000000000000000000040, 122⟩,
           ⟨.mk 0x20010db8000000000000000000000080, 121⟩] := by
  cases start with
  | empty => exact absurd hstart (by simp [Address.valid])
  | mk a =>
    cases stop with
    | empty => exact absurd hstop (by simp [Address.valid])
    | mk b =>
      obtain ⟨ha, hv4a⟩ := hstart
      obtain ⟨hb, hv4b⟩ := hstop
      rw [show (Address.mk a).BigInt = a from rfl,
        show (Address.mk b).BigInt = b from rfl]
      refine ⟨?_, ?_, ?_, ?_⟩
      · unfold CoverRange
        by_cases hgt : b < a
        · rw [if_pos (by rw [gt_iff_lt, compare_pos_iff]; simp only [addrKey]; omega)]
          exact iff_of_true rfl hgt
        · rw [if_neg (by rw [gt_iff_lt, compare_pos_iff]; simp only [addrKey]; omega)]
          exact iff_of_false (coverLoop_ne_err fuel _ _ _ _) hgt
      · intro hstop' h
        injection hstop' with hbe
        subst hbe
        unfold CoverRange at h
        rw [if_neg (by
          rw [gt_iff_lt, compare_pos_iff]
          simp only [addrKey]
          rw [two128_eq] at ha ⊢
          omega)] at h
        exact coverLoop_max_ne_ok fuel a [] l ha hv4a h
      · intro h
        unfold CoverRange at h
        by_cases hgt : b < a
        · rw [if_pos (by rw [gt_iff_lt, compare_pos_iff]; simp only [addrKey]; omega)] at h
          exact absurd h (by simp)
        · rw [if_neg (by rw [gt_iff_lt, compare_pos_iff]; simp only [addrKey]; omega)] at h
          obtain ⟨rest, hl, hcc⟩ :=
            coverLoop_ok fuel a b [] l ha hv4a hb (by omega) h
          simp only [List.reverse_nil, List.nil_append] at hl
          subst hl
          obtain ⟨hwf, hbounds, hunion, hpw⟩ := consCover_props l a b hcc
          refine ⟨hwf, hbounds, hunion, hpw, ?_⟩
          refine List.Pairwise.imp_of_mem ?_ hpw
          intro x y hx hy hxy
          exact ⟨overlaps_false_of_disjoint (hwf x hx) (hwf y hy) (Or.inr hxy),
            overlaps_false_of_disjoint (hwf y hy) (hwf x hx) (Or.inl hxy)⟩
      · decide

/-- Witness for C3: the amended theorem applied to the concrete inputs
`start = ::1`, `stop = ::`, where `CoverRange` reports the invalid range. -/
theorem c3_cover_range_witness :
    CoverRange 1 (.mk 1) (.mk 0) = .err .invalidRange := by
  have h := c3_cover_range 1 (.mk 1) (.mk 0) [] (by decide) (by decide)
  exact h.1.mpr (by decide)

theorem NewAddress_ok {v : Nat} {a : Address} (h : NewAddress v = .ok a) :
    a = .mk v ∧ isV4Mapped v = false := by
  unfold NewAddress at h
  by_cases hv : isV4Mapped v = true
  · rw [if_pos hv] at h
    exact absurd h (by simp)
  · rw [Bool.not_eq_true] at hv
    rw [if_neg (by simp [hv])] at h
    exact ⟨(Except.ok.inj h).symm, hv⟩

theorem hexDigitVal_lt {c : Char} (h : isHexDigit c = true) : hexDigitVal c < 16 := by
  have hcc : c.toNat = c.val.toBitVec.toNat := rfl
  unfold isHexDigit at h
  simp [Char.le_def, UInt32.le_def, BitVec.le_def] at h
  unfold hexDigitVal
  split_ifs with h1 h2
  · simp [Char.le_def, UInt32.le_def, BitVec.le_def] at h1
    omega
  · simp [Char.le_def, UInt32.le_def, BitVec.le_def] at h2
    omega
  · simp [Char.le_def, UInt32.le_def, BitVec.le_def] at h1 h2
    omega

theorem foldMulAdd_lt (B : Nat) (ds : List Nat) : ∀ (acc k : Nat),
    (∀ d ∈ ds, d < B) → acc < B ^ k →
    ds.foldl (fun a d => a * B + d) acc < B ^ (k + ds.length) := by
  induction ds with
  | nil => intro acc k _ hacc; simpa using hacc
  | cons d rest ih =>
    intro acc k hall hacc
    simp only [List.foldl_cons, List.length_cons]
    have hd : d < B := hall d (List.mem_cons_self _ _)
    have hstep : acc * B + d < B ^ (k + 1) := by
      rw [pow_succ]
      have h5 : (acc + 1) * B ≤ B ^ k * B :=
        Nat.mul_le_mul_right _ (by omega)
      rw [add_one_mul] at h5
      omega
    have h6 := ih (acc * B + d) (k + 1)
      (fun x hx => hall x (List.mem_cons_of_mem _ hx)) hstep
    rw [show k + (rest.length + 1) = k + 1 + rest.length from by omega]
    exact h6

theorem parseGroup_lt {t : List Char} {g : Nat} (h : parseGroup t = some g) :
    g < 65536 := by
  unfold parseGroup at h
  split_ifs at h with hc
  obtain ⟨hne, hlen, hall⟩ := hc
  have hmem : ∀ d ∈ t.map hexDigitVal, d < 16 := by
    intro d hd
    obtain ⟨ch, hch, rfl⟩ := List.mem_map.mp hd
    refine hexDigitVal_lt ?_
    rw [List.all_eq_true] at hall
    exact hall ch hch
  have h1 := foldMulAdd_lt 16 (t.map hexDigitVal) 0 0 hmem (by norm_num)
  rw [List.length_map] at h1
  have h2 : (16 : Nat) ^ (0 + t.length) ≤ 16 ^ 4 :=
    Nat.pow_le_pow_right (by norm_num) (by omega)
  have h3 : t.foldl (fun acc c => acc * 16 + hexDigitVal c) 0 =
      (t.map hexDigitVal).foldl (fun a d => a * 16 + d) 0 :=
    (List.foldl_map _ _ _ _).symm
  cases h
  rw [h3]
  omega

theorem mapM_parseGroup_bound : ∀ (ts : List (List Char)) (gl : List Nat),
    ts.mapM parseGroup = some gl → gl.length = ts.length ∧ ∀ g ∈ gl, g < 65536 := by
  intro ts
  induction ts with
  | nil =>
    intro gl h
    simp only [List.mapM_nil, Option.pure_def, Option.some.injEq] at h
    subst h
    exact ⟨rfl, by simp⟩
  | cons t rest ih =>
    intro gl h
    rw [List.mapM_cons] at h
    cases hg : parseGroup t with
    | none => rw [hg] at h; simp at h
    | some g =>
      rw [hg] at h
      cases hgs : rest.mapM parseGroup with
      | none => rw [hgs] at h; simp at h
      | some gs =>
        rw [hgs] at h
        simp at h
        subst h
        obtain ⟨hlen, hmem⟩ := ih gs hgs
        refine ⟨by simp [hlen], ?_⟩
        intro x hx
        rcases List.mem_cons.mp hx with hx | hx
        · subst hx; exact parseGroup_lt hg
        · exact hmem x hx

theorem foldGroups_lt_two128 {gs : List Nat} (hmem : ∀ g ∈ gs, g < 65536)
    (hlen : gs.length ≤ 8) : foldGroups gs < two128 := by
  have h1 := foldMulAdd_lt 65536 gs 0 0 hmem (by norm_num)
  have h2 : (65536 : Nat) ^ (0 + gs.length) ≤ 65536 ^ 8 :=
    Nat.pow_le_pow_right (by norm_num) (by omega)
  have h3 : (65536 : Nat) ^ 8 = two128 := by norm_num [two128]
  unfold foldGroups
  omega

theorem parseTokens_lt {ts : List (List Char)} {v : Nat}
    (h : parseTokens ts = some v) : v < two128 := by
  unfold parseTokens at h
  by_cases hne : noEmpty ts = true
  · rw [if_pos hne] at h
    by_cases h8 : ts.length = 8
    · rw [if_pos h8] at h
      cases hm : ts.mapM parseGroup with
      | none => rw [hm] at h; exact absurd h (by simp)
      | some gl =>
        rw [hm] at h
        rw [show Option.map foldGroups (some gl) = some (foldGroups gl) from rfl] at h
        cases h
        obtain ⟨hlen, hmem⟩ := mapM_parseGroup_bound ts gl hm
        exact foldGroups_lt_two128 hmem (by omega)
    · rw [if_neg h8] at h
      exact absurd h (by simp)
  · rw [if_neg hne] at h
    rcases hse : splitEllipsis ts with _ | ⟨left, right⟩
    · rw [hse] at h; exact absurd h (by simp)
    · rw [hse] at h
      simp only [] at h
      by_cases hlen7 : left.length + right.length ≤ 7
      · rw [if_pos hlen7] at h
        rcases hml : left.mapM parseGroup with _ | gl
        · rw [hml] at h
          rcases hmr : right.mapM parseGroup with _ | gr <;> rw [hmr] at h <;>
            exact absurd h (by simp)
        · rw [hml] at h
          rcases hmr : right.mapM parseGroup with _ | gr
          · rw [hmr] at h; exact absurd h (by simp)
          · rw [hmr] at h
            simp only [Option.some.injEq] at h
            subst h
            obtain ⟨hll, hlm⟩ := mapM_parseGroup_bound left gl hml
            obtain ⟨hrl, hrm⟩ := mapM_parseGroup_bound right gr hmr
            refine foldGroups_lt_two128 ?_ ?_
            · intro g hg
              rcases List.mem_append.mp hg with hg | hg
              · rcases List.mem_append.mp hg with hg | hg
                · exact hlm g hg
                · rw [List.eq_of_mem_replicate hg]; norm_num
              · exact hrm g hg
            · simp only [List.length_append, List.length_replicate]
              omega
      · rw [if_neg hlen7] at h
        exact absurd h (by simp)

theorem Parse_ok_valid {s : List Char} {a : Address} (h : Parse s = .ok a) :
    a.valid := by
  unfold Parse at h
  cases hp : parseIPv6 (trimSpace s) with
  | none => rw [hp] at h; exact absurd h (by simp)
  | some v =>
    rw [hp] at h
    obtain ⟨ha, hv4⟩ := NewAddress_ok h
    subst ha
    exact ⟨parseTokens_lt hp, hv4⟩

theorem ParseCIDR_ok_wf {s : List Char} {c : CIDR} (h : ParseCIDR s = .ok c) :
    c.wf := by
  unfold ParseCIDR at h
  split at h
  · split at h
    · exact absurd h (by simp)
    · rename_i addr haddr
      split at h
      · exact absurd h (by simp)
      · exact NewCIDR_ok_wf (Parse_ok_valid haddr) h
  · exact absurd h (by simp)

theorem Mask_valid {a : Address} {p : Nat} (hv : a.valid) (hp : p ≤ 128) :
    ∃ w, a.Mask p = some (.mk w) ∧ w < two128 ∧ isV4Mapped w = false ∧
      w % 2 ^ (128 - p) = 0 := by
  cases a with
  | empty => exact absurd hv (by simp [Address.valid])
  | mk v =>
    obtain ⟨hlt, hv4⟩ := hv
    refine ⟨v / 2 ^ (128 - p) * 2 ^ (128 - p), ?_, ?_, ?_, ?_⟩
    · exact Mask_mk_of_not_v4 hp hv4
    · exact lt_of_le_of_lt (Nat.div_mul_le_self _ _) hlt
    · exact mask_not_v4 _ hv4
    · rw [Nat.mul_mod_left]

theorem newCIDRorZero_valid {a : Address} {p : Nat} {c : CIDR}
    (hv : a.valid) (hp : p ≤ 128)
    (h : newCIDRorZero (NewCIDR a p) = some c) : c.wf := by
  obtain ⟨w, hm, hlt, hv4, hmod⟩ := Mask_valid hv hp
  unfold NewCIDR at h
  rw [if_neg (by omega), hm] at h
  simp only [newCIDRorZero] at h
  cases h
  exact wf_mk hlt hv4 hp hmod

theorem Next_ok_wf {c M : CIDR} (hwf : c.wf) (h : c.Next = some M) : M.wf := by
  obtain ⟨v, hb, hlt, hv4, hp, hmod⟩ := wf_iff.mp hwf
  rw [Next_char hwf] at h
  split_ifs at h with hv
  rw [Bool.not_eq_true] at hv
  have hdvd : 2 ^ (128 - c.plen) ∣ (c.base.BigInt + c.HostCount) % two128 := by
    rw [Nat.dvd_mod_iff (pow_dvd_two128 (by omega))]
    refine dvd_add ?_ ?_
    · rw [hb, show (Address.mk v).BigInt = v from rfl]
      exact Nat.dvd_of_mod_eq_zero hmod
    · rw [hostCount_eq]
  cases h
  exact wf_mk (Nat.mod_lt _ (by rw [two128_eq]; omega)) hv hp
    (mod_eq_zero_of_dvd hdvd)

theorem Prev_ok_wf {c M : CIDR} (hwf : c.wf) (h : c.Prev = some M) : M.wf := by
  obtain ⟨v, hb, hlt, hv4, hp, hmod⟩ := wf_iff.mp hwf
  rw [Prev_char hwf] at h
  split_ifs at h with hv
  rw [Bool.not_eq_true] at hv
  have hdvd : 2 ^ (128 - c.plen) ∣
      (c.base.BigInt + (two128 - c.HostCount)) % two128 := by
    rw [Nat.dvd_mod_iff (pow_dvd_two128 (by omega))]
    refine dvd_add ?_ (Nat.dvd_sub' (pow_dvd_two128 (by omega)) ?_)
    · rw [hb, show (Address.mk v).BigInt = v from rfl]
      exact Nat.dvd_of_mod_eq_zero hmod
    · rw [hostCount_eq]
  cases h
  exact wf_mk (Nat.mod_lt _ (by rw [two128_eq]; omega)) hv hp
    (mod_eq_zero_of_dvd hdvd)

theorem split_ok_wf {c : CIDR} {p : Nat} {l : List CIDR} (hwf : c.wf)
    (h : c.Split p = .ok l) : ∀ x ∈ l, x.wf := by
  obtain ⟨v, hb, hlt, hv4, hplen, hmod⟩ := wf_iff.mp hwf
  unfold CIDR.Split at h
  by_cases h1 : p < c.plen ∨ p > 128
  · rw [if_pos h1] at h
    exact absurd h (by simp)
  rw [if_neg h1] at h
  push_neg at h1
  obtain ⟨hple, hp128⟩ := h1
  by_cases h2 : p = c.plen
  · rw [if_pos h2] at h
    simp only [Res.ok.injEq] at h
    subst h
    intro x hx
    simp only [List.mem_singleton] at hx
    subst hx
    exact hwf
  rw [if_neg h2] at h
  dsimp only at h
  by_cases h3 : p - c.plen ≥ 63
  · rw [if_pos h3] at h
    exact absurd h (by simp)
  rw [if_neg h3] at h
  by_cases h4 : 1 <<< (p - c.plen) > MaxSplitParts
  · rw [if_pos h4] at h
    exact absurd h (by simp)
  rw [if_neg h4] at h
  have hstep : c.HostCount >>> (p - c.plen) = 2 ^ (128 - p) := by
    rw [hostCount_eq, Nat.shiftRight_eq_div_pow, Nat.pow_div (by omega) (by norm_num)]
    congr 1
    omega
  have hparts : (1 : Nat) <<< (p - c.plen) = 2 ^ (p - c.plen) := by
    rw [Nat.shiftLeft_eq, one_mul]
  rw [hb, hstep, hparts] at h
  have hdvdvp : (2 : Nat) ^ (128 - p) ∣ v :=
    dvd_trans (pow_dvd_pow 2 (by omega)) (Nat.dvd_of_mod_eq_zero hmod)
  have hbound : v + 2 ^ (p - c.plen) * 2 ^ (128 - p) ≤ two128 := by
    rw [← pow_add]
    have he : p - c.plen + (128 - p) = 128 - c.plen := by omega
    rw [he]
    exact add_pow_le (Nat.dvd_of_mod_eq_zero hmod) (pow_dvd_two128 (by omega)) hlt
  obtain ⟨hl, hv4all⟩ := splitLoop_ok (2 ^ (p - c.plen)) v p [] l hp128 hv4
    (mod_eq_zero_of_dvd hdvdvp) hbound h
  subst hl
  have hspos : 0 < (2 : Nat) ^ (128 - p) := Nat.pos_pow_of_pos _ (by norm_num)
  intro x hx
  simp only [List.reverse_nil, List.nil_append, List.mem_map, List.mem_range] at hx
  obtain ⟨i, hi, rfl⟩ := hx
  refine wf_mk ?_ (hv4all i hi) hp128 ?_
  · have h5 : (i + 1) * 2 ^ (128 - p) ≤ 2 ^ (p - c.plen) * 2 ^ (128 - p) :=
      Nat.mul_le_mul_right _ (by omega)
    rw [add_one_mul] at h5
    omega
  · exact mod_eq_zero_of_dvd (dvd_add hdvdvp (dvd_mul_left _ i))

theorem splitViaIterator_eq_split (c : CIDR) (p : Nat) (hwf : c.wf) :
    splitViaIterator c p = c.Split p := by
  unfold splitViaIterator CIDR.mkSubnetIterator CIDR.Split
  by_cases h1 : p < c.plen ∨ p > 128
  · rw [if_pos h1, if_pos h1]
  · rw [if_neg h1, if_neg h1]
    by_cases h2 : p = c.plen
    · rw [if_pos h2, if_pos h2]
      show drainIter ⟨1, c.base, 0, p⟩ = .ok [c]
      have hok : NewCIDR c.base p = .ok c := by
        rw [h2]
        exact NewCIDR_of_wf hwf
      obtain ⟨v, hb, hlt, hv4, hp, hmod⟩ := wf_iff.mp hwf
      show drainAux 2 ⟨1, c.base, 0, p⟩ = .ok [c]
      unfold drainAux SubnetIterator.Next
      rw [if_neg (by simp)]
      dsimp only
      rw [hok]
      simp only [newCIDRorZero]
      rw [hb, Add_mk_ite 0 hlt]
      rw [Nat.add_zero, Nat.mod_eq_of_lt hlt, hv4]
      rfl
    · rw [if_neg h2, if_neg h2]
      dsimp only
      by_cases h3 : p - c.plen ≥ 63
      · rw [if_pos h3, if_pos h3]
      · rw [if_neg h3, if_neg h3]
        by_cases h4 : 1 <<< (p - c.plen) > MaxSplitParts
        · rw [if_pos h4, if_pos h4]
        · rw [if_neg h4, if_neg h4]
          show drainIter _ = _
          rw [splitLoop_eq_drain]
          cases drainIter ⟨1 <<< (p - c.plen), c.base,
            c.HostCount >>> (p - c.plen), p⟩ <;> simp

theorem mergeLoopAux_wf (f : Nat) : ∀ (st out : List CIDR),
    (∀ x ∈ st, x.wf) → mergeLoopAux f st = some out → ∀ x ∈ out, x.wf := by
  induction f with
  | zero =>
    intro st out hall h
    have heq : mergeLoopAux 0 st = some st := by
      rcases st with _ | ⟨a, _ | ⟨b, r2⟩⟩ <;> rfl
    rw [heq] at h
    cases h
    exact hall
  | succ g ih =>
    intro st out hall h
    rcases st with _ | ⟨last, _ | ⟨prev, rest⟩⟩
    · rw [show mergeLoopAux (g + 1) [] = some [] from rfl] at h
      cases h
      exact hall
    · rw [show mergeLoopAux (g + 1) [last] = some [last] from rfl] at h
      cases h
      exact hall
    · unfold mergeLoopAux at h
      have hlwf : last.wf := hall last (by simp)
      have hpwf : prev.wf := hall prev (by simp)
      have hrest : ∀ x ∈ rest, x.wf := fun x hx => hall x (by simp [hx])
      split_ifs at h with h1 h2
      · cases h; exact hall
      · cases h; exact hall
      · rcases hnx : prev.Next with _ | nx
        · rw [hnx] at h
          exact absurd h (by simp)
        rw [hnx] at h
        simp only [] at h
        split_ifs at h with h3
        · cases h; exact hall
        rcases hmask : prev.base.Mask (last.plen - 1) with _ | parentBase
        · rw [hmask] at h
          exact absurd h (by simp)
        rw [hmask] at h
        simp only [] at h
        rcases hmask2 : last.base.Mask (last.plen - 1) with _ | lb
        · rw [hmask2] at h
          exact absurd h (by simp)
        rw [hmask2] at h
        simp only [] at h
        split_ifs at h with h4
        · cases h; exact hall
        rcases hnew : newCIDRorZero (NewCIDR parentBase (last.plen - 1)) with _ | parent
        · rw [hnew] at h
          exact absurd h (by simp)
        rw [hnew] at h
        simp only [] at h
        have hple : last.plen - 1 ≤ 128 := by
          have := hlwf.2.1
          omega
        have hpbvalid : parentBase.valid := by
          obtain ⟨w, hm, hltw, hv4w, hmodw⟩ := Mask_valid hpwf.1 hple
          rw [hmask] at hm
          cases hm
          exact ⟨hltw, hv4w⟩
        have hparentwf : parent.wf := newCIDRorZero_valid hpbvalid hple hnew
        refine ih (parent :: rest) out ?_ h
        intro x hx
        rcases List.mem_cons.mp hx with hx | hx
        · subst hx; exact hparentwf
        · exact hrest x hx

theorem sumStep_wf {stack : List CIDR} {c : CIDR} {st2 : List CIDR}
    (hall : ∀ x ∈ stack, x.wf) (hc : c.wf) (h : sumStep stack c = some st2) :
    ∀ x ∈ st2, x.wf := by
  unfold sumStep at h
  rcases stack with _ | ⟨top, rest⟩
  · unfold mergeLoop at h
    refine mergeLoopAux_wf _ _ _ ?_ h
    intro x hx
    simp only [List.mem_singleton] at hx
    subst hx
    exact hc
  · simp only [] at h
    rcases hcc : top.ContainsCIDR c with _ | b
    · rw [hcc] at h
      exact absurd h (by simp)
    rw [hcc] at h
    cases b
    · simp only [] at h
      unfold mergeLoop at h
      refine mergeLoopAux_wf _ _ _ ?_ h
      intro x hx
      rcases List.mem_cons.mp hx with hx | hx
      · subst hx; exact hc
      · exact hall x hx
    · simp only [] at h
      cases h
      exact hall

theorem foldlM_sumStep_wf : ∀ (l st0 stk : List CIDR),
    (∀ x ∈ st0, x.wf) → (∀ x ∈ l, x.wf) →
    l.foldlM sumStep st0 = some stk → ∀ x ∈ stk, x.wf := by
  intro l
  induction l with
  | nil =>
    intro st0 stk h0 _ h
    simp only [List.foldlM_nil, Option.pure_def, Option.some.injEq] at h
    subst h
    exact h0
  | cons c rest ih =>
    intro st0 stk h0 hl h
    rw [List.foldlM_cons] at h
    cases h1 : sumStep st0 c with
    | none => rw [h1] at h; simp at h
    | some st1 =>
      rw [h1] at h
      simp at h
      exact ih st1 stk (sumStep_wf h0 (hl c (by simp)) h1)
        (fun x hx => hl x (by simp [hx])) h

theorem mapM_norm_wf : ∀ (cs norm : List CIDR),
    (∀ x ∈ cs, x.base.valid ∧ x.plen ≤ 128) →
    (cs.mapM fun c => (c.base.Mask c.plen).map fun b => CIDR.mk b c.plen) =
      some norm →
    ∀ x ∈ norm, x.wf := by
  intro cs
  induction cs with
  | nil =>
    intro norm _ h
    simp only [List.mapM_nil, Option.pure_def, Option.some.injEq] at h
    subst h
    simp
  | cons c rest ih =>
    intro norm hin h
    rw [List.mapM_cons] at h
    obtain ⟨hv, hp⟩ := hin c (by simp)
    obtain ⟨w, hm, hltw, hv4w, hmodw⟩ := Mask_valid hv hp
    rw [hm] at h
    rw [show (Option.map (fun b => CIDR.mk b c.plen) (some (Address.mk w))) =
      some (CIDR.mk (Address.mk w) c.plen) from rfl] at h
    cases hds : rest.mapM fun c => (c.base.Mask c.plen).map fun b =>
        CIDR.mk b c.plen with
    | none => rw [hds] at h; simp at h
    | some ds =>
      rw [hds] at h
      simp at h
      subst h
      intro x hx
      rcases List.mem_cons.mp hx with hx | hx
      · subst hx
        exact wf_mk hltw hv4w hp hmodw
      · exact ih ds (fun y hy => hin y (by simp [hy])) hds x hx

theorem summarize_ok_wf {cs out : List CIDR}
    (hin : ∀ x ∈ cs, x.base.valid ∧ x.plen ≤ 128)
    (h : Summarize cs = some out) : ∀ x ∈ out, x.wf := by
  unfold Summarize at h
  split_ifs at h with hemp
  · cases h
    intro x hx
    simp at hx
  · cases hnorm : cs.mapM fun c => (c.base.Mask c.plen).map fun b =>
        CIDR.mk b c.plen with
    | none => rw [hnorm] at h; simp at h
    | some norm =>
      rw [hnorm] at h
      simp only [] at h
      cases hstk : (List.insertionSort cidrLe norm).foldlM sumStep [] with
      | none => rw [hstk] at h; simp at h
      | some stk =>
        rw [hstk] at h
        simp at h
        subst h
        have hnw := mapM_norm_wf cs norm hin hnorm
        have hsw : ∀ x ∈ List.insertionSort cidrLe norm, x.wf := fun x hx =>
          hnw x ((List.perm_insertionSort cidrLe norm).mem_iff.mp hx)
        have hfw := foldlM_sumStep_wf _ [] stk (by simp) hsw hstk
        intro x hx
        rw [List.mem_reverse] at hx
        exact hfw x hx

theorem coverRange_ok_wf {fuel : Nat} {s1 s2 : Address} {l : List CIDR}
    (h1 : s1.valid) (h2 : s2.valid) (h : CoverRange fuel s1 s2 = .ok l) :
    ∀ x ∈ l, x.wf := by
  cases s1 with
  | empty => exact absurd h1 (by simp [Address.valid])
  | mk a =>
    cases s2 with
    | empty => exact absurd h2 (by simp [Address.valid])
    | mk b =>
      obtain ⟨ha, hv4a⟩ := h1
      obtain ⟨hb, hv4b⟩ := h2
      unfold CoverRange at h
      by_cases hgt : b < a
      · rw [if_pos (by rw [gt_iff_lt, compare_pos_iff]; simp only [addrKey]; omega)] at h
        exact absurd h (by simp)
      · rw [if_neg (by rw [gt_iff_lt, compare_pos_iff]; simp only [addrKey]; omega)] at h
        obtain ⟨rest, hl, hcc⟩ := coverLoop_ok fuel a b [] l ha hv4a hb (by omega) h
        simp only [List.reverse_nil, List.nil_append] at hl
        subst hl
        exact (consCover_props l a b hcc).1

theorem supLoop_fst_valid : ∀ (rest : List CIDR) (mn mx : Address)
    (res : Address × Address),
    (∀ x ∈ rest, x.wf) → mn.valid → supLoop rest mn mx = some res →
    res.1.valid := by
  intro rest
  induction rest with
  | nil =>
    intro mn mx res _ hv h
    simp only [supLoop, Option.some.injEq] at h
    subst h
    exact hv
  | cons c rest2 ih =>
    intro mn mx res hall hv h
    unfold supLoop at h
    simp only [] at h
    rcases hlh : c.LastHost with _ | lh
    · rw [hlh] at h
      exact absurd h (by simp)
    · rw [hlh] at h
      simp only [] at h
      refine ih _ _ res (fun x hx => hall x (by simp [hx])) ?_ h
      split_ifs with hcomp
      · exact (hall c (by simp)).1
      · exact hv

theorem supernet_ok_wf {cs : List CIDR} {c : CIDR}
    (hin : ∀ x ∈ cs, x.wf) (h : Supernet cs = .ok c) : c.wf := by
  unfold Supernet at h
  rcases cs with _ | ⟨c0, rest⟩
  · exact absurd h (by simp)
  · simp only [] at h
    rcases hlh : c0.LastHost with _ | l0
    · rw [hlh] at h
      exact absurd h (by simp)
    rw [hlh] at h
    simp only [] at h
    rcases hsl : supLoop rest c0.FirstHost l0 with _ | res
    · rw [hsl] at h
      exact absurd h (by simp)
    rw [hsl] at h
    simp only [] at h
    obtain ⟨mn, mx⟩ := res
    have hmnv : mn.valid := supLoop_fst_valid rest c0.FirstHost l0 (mn, mx)
      (fun x hx => hin x (by simp [hx])) (hin c0 (by simp)).1 hsl
    rcases mn with _ | v
    · exact absurd hmnv (by simp [Address.valid])
    rcases mx with _ | w
    · exact absurd h (by simp)
    simp only [] at h
    rcases hm : Address.Mask (.mk v) (cpScan 16 0 v w) with _ | b
    · rw [hm] at h
      exact absurd h (by simp)
    rw [hm] at h
    have hple : cpScan 16 0 v w ≤ 128 := by
      by_contra hgt
      unfold Address.Mask at hm
      rw [if_pos (by unfold BitLen; omega)] at hm
      exact absurd hm (by simp)
    obtain ⟨w2, hm2, hltw, hv4w, hmodw⟩ := Mask_valid hmnv hple
    rw [hm] at hm2
    cases hm2
    have hbv : (Address.mk w2).valid := by
      show w2 < two128 ∧ isV4Mapped w2 = false
      exact ⟨hltw, hv4w⟩
    exact NewCIDR_ok_wf hbv h

/-- **C5.** The masked-base invariant (`base == base.Mask(prefixLength)`,
together with a well-formed 16-byte base and a prefix length of at most
128, i.e. `CIDR.wf`) holds for every network produced by every public
constructor: `NewCIDR` on any constructible address, `ParseCIDR`, `Next`,
`Prev`, `Split`, the drained `SubnetIterator`, `Summarize` of
mask-normalizable inputs, `CoverRange`, and `Supernet` — in each case the
invariant is re-established at the construction site rather than assumed
from the caller. -/
theorem c5_base_mask_invariant :
    (∀ (a : Address) (p : Nat) (c : CIDR), a.valid → NewCIDR a p = .ok c → c.wf) ∧
    (∀ (s : List Char) (c : CIDR), ParseCIDR s = .ok c → c.wf) ∧
    (∀ c M : CIDR, c.wf → c.Next = some M → M.wf) ∧
    (∀ c M : CIDR, c.wf → c.Prev = some M → M.wf) ∧
    (∀ (c : CIDR) (p : Nat) (l : List CIDR), c.wf → c.Split p = .ok l →
      ∀ x ∈ l, x.wf) ∧
    (∀ (c : CIDR) (p : Nat) (l : List CIDR), c.wf → splitViaIterator c p = .ok l →
      ∀ x ∈ l, x.wf) ∧
    (∀ (cs out : List CIDR), (∀ x ∈ cs, x.base.valid ∧ x.plen ≤ 128) →
      Summarize cs = some out → ∀ x ∈ out, x.wf) ∧
    (∀ (fuel : Nat) (s1 s2 : Address) (l : List CIDR), s1.valid → s2.valid →
      CoverRange fuel s1 s2 = .ok l → ∀ x ∈ l, x.wf) ∧
    (∀ (cs : List CIDR) (c : CIDR), (∀ x ∈ cs, x.wf) → Supernet cs = .ok c →
      c.wf) :=
  ⟨fun _ _ _ hv h => NewCIDR_ok_wf hv h,
   fun _ _ h => ParseCIDR_ok_wf h,
   fun _ _ hwf h => Next_ok_wf hwf h,
   fun _ _ hwf h => Prev_ok_wf hwf h,
   fun _ _ _ hwf h => split_ok_wf hwf h,
   fun c p _ hwf h => split_ok_wf hwf
     (by rw [← splitViaIterator_eq_split c p hwf]; exact h),
   fun _ _ hin h => summarize_ok_wf hin h,
   fun _ _ _ _ h1 h2 h => coverRange_ok_wf h1 h2 h,
   fun _ _ hin h => supernet_ok_wf hin h⟩

/-- Witness for C5: `NewCIDR(::, 64)` yields `::/64`, which satisfies the
masked-base invariant. -/
theorem c5_base_mask_invariant_witness : CIDR.wf ⟨.mk 0, 64⟩ :=
  c5_base_mask_invariant.1 (.mk 0) 64 ⟨.mk 0, 64⟩ (by decide) (by decide)

theorem toHexChar_spec : ∀ n < 16, isHexDigit (toHexChar n) = true ∧
    hexDigitVal (toHexChar n) = n ∧ toHexChar n ≠ ':' ∧
    isSpaceCh (toHexChar n) = false := by decide

theorem hexStrAux_spec : ∀ (f : Nat), 1 ≤ f → ∀ n, n < 16 ^ f →
    hexStrAux f n ≠ [] ∧
    (∀ c ∈ hexStrAux f n, ∃ d, d < 16 ∧ c = toHexChar d) ∧
    (∀ k, 1 ≤ k → n < 16 ^ k → (hexStrAux f n).length ≤ k) ∧
    (hexStrAux f n).foldl (fun acc c => acc * 16 + hexDigitVal c) 0 = n := by
  intro f
  induction f with
  | zero => intro h; omega
  | succ g ih =>
    intro _ n hn
    unfold hexStrAux
    by_cases h16 : n < 16
    · rw [if_pos h16]
      refine ⟨by simp, ?_, ?_, ?_⟩
      · intro c hc
        simp only [List.mem_singleton] at hc
        exact ⟨n, h16, hc⟩
      · intro k hk _
        simp only [List.length_singleton]
        omega
      · simp only [List.foldl_cons, List.foldl_nil, Nat.zero_mul, Nat.zero_add]
        exact (toHexChar_spec n h16).2.1
    · rw [if_neg h16]
      have hg1 : 1 ≤ g := by
        by_contra hg
        have : g = 0 := by omega
        subst this
        simp at hn
        omega
      have hdivlt : n / 16 < 16 ^ g := by
        rw [Nat.div_lt_iff_lt_mul (by norm_num)]
        rw [pow_succ] at hn
        exact hn
      obtain ⟨ihne, ihmem, ihlen, ihfold⟩ := ih hg1 (n / 16) hdivlt
      refine ⟨by simp, ?_, ?_, ?_⟩
      · intro c hc
        rcases List.mem_append.mp hc with hc | hc
        · exact ihmem c hc
        · simp only [List.mem_singleton] at hc
          exact ⟨n % 16, Nat.mod_lt _ (by norm_num), hc⟩
      · intro k hk hnk
        have hk2 : 2 ≤ k := by
          by_contra hh
          have : k = 1 := by omega
          subst this
          simp at hnk
          omega
        have hdivk : n / 16 < 16 ^ (k - 1) := by
          rw [Nat.div_lt_iff_lt_mul (by norm_num)]
          have : (16 : Nat) ^ (k - 1) * 16 = 16 ^ k := by
            rw [← pow_succ]
            congr 1
            omega
          omega
        have := ihlen (k - 1) (by omega) hdivk
        simp only [List.length_append, List.length_singleton]
        omega
      · rw [List.foldl_append, ihfold]
        simp only [List.foldl_cons, List.foldl_nil]
        rw [(toHexChar_spec (n % 16) (Nat.mod_lt _ (by norm_num))).2.1]
        omega

theorem parseGroup_hexStr {n : Nat} (hn : n < 65536) :
    parseGroup (hexStr n) = some n := by
  obtain ⟨hne, hmem, hlen, hfold⟩ := hexStrAux_spec 5 (by norm_num) n (by norm_num; omega)
  unfold parseGroup hexStr
  rw [if_pos ?_]
  · rw [hfold]
  · refine ⟨hne, hlen 4 (by norm_num) (by omega), ?_⟩
    rw [List.all_eq_true]
    intro c hc
    obtain ⟨d, hd, rfl⟩ := hmem c hc
    exact (toHexChar_spec d hd).1

theorem hexStr_ne_nil {n : Nat} (hn : n < 65536) : hexStr n ≠ [] :=
  (hexStrAux_spec 5 (by norm_num) n (by norm_num; omega)).1

theorem mapM_map_hexStr : ∀ (gs : List Nat), (∀ g ∈ gs, g < 65536) →
    ((gs.map hexStr).mapM parseGroup) = some gs := by
  intro gs
  induction gs with
  | nil => intro _; rfl
  | cons g rest ih =>
    intro hmem
    rw [List.map_cons, List.mapM_cons, parseGroup_hexStr (hmem g (by simp)),
      ih (fun x hx => hmem x (by simp [hx]))]
    rfl

theorem groups_length (v : Nat) : (groups v).length = 8 := by
  unfold groups
  simp

theorem groups_mem_lt {v : Nat} : ∀ g ∈ groups v, g < 65536 := by
  intro g hg
  unfold groups at hg
  simp only [List.mem_map, List.mem_range] at hg
  obtain ⟨i, _, rfl⟩ := hg
  exact Nat.mod_lt _ (by norm_num)

theorem foldGroups_groups {v : Nat} (hv : v < two128) : foldGroups (groups v) = v := by
  have hg : groups v = [v / 2 ^ 112 % 65536, v / 2 ^ 96 % 65536, v / 2 ^ 80 % 65536,
      v / 2 ^ 64 % 65536, v / 2 ^ 48 % 65536, v / 2 ^ 32 % 65536, v / 2 ^ 16 % 65536,
      v / 2 ^ 0 % 65536] := rfl
  rw [hg]
  unfold foldGroups
  simp only [List.foldl_cons, List.foldl_nil]
  rw [two128_eq] at hv
  omega

theorem noEmpty_map_hexStr {gs : List Nat} (h : ∀ g ∈ gs, g < 65536) :
    noEmpty (gs.map hexStr) = true := by
  unfold noEmpty
  rw [List.all_eq_true]
  intro t ht
  obtain ⟨g, hg, rfl⟩ := List.mem_map.mp ht
  have := hexStr_ne_nil (h g hg)
  simp [List.isEmpty_iff, this]

theorem noEmpty_false_of_mem {ts : List (List Char)} (h : ([] : List Char) ∈ ts) :
    noEmpty ts = false := by
  unfold noEmpty
  rw [List.all_eq_false]
  exact ⟨[], h, by simp⟩

theorem bestRun_spec {gs : List Nat} {e0 e1 : Nat} (hlen : gs.length = 8)
    (h : bestRun gs = some (e0, e1)) :
    e0 + 2 ≤ e1 ∧ e1 ≤ 8 ∧ runAt gs e0 = e1 - e0 := by
  unfold bestRun at h
  simp only [] at h
  have hinv : ∀ (l : List Nat) (b : Nat × Nat), (b = (0, 0) ∨ b.2 = runAt gs b.1) →
      ((l.foldl (fun best i => if runAt gs i > best.2 then (i, runAt gs i) else best) b)
          = (0, 0) ∨
        (l.foldl (fun best i => if runAt gs i > best.2 then (i, runAt gs i) else best) b).2 =
          runAt gs
            (l.foldl (fun best i => if runAt gs i > best.2 then (i, runAt gs i) else best) b).1) := by
    intro l
    induction l with
    | nil => intro b hb; exact hb
    | cons i rest ihl =>
      intro b hb
      simp only [List.foldl_cons]
      apply ihl
      by_cases hc : runAt gs i > b.2
      · rw [if_pos hc]
        right
        rfl
      · rw [if_neg hc]
        exact hb
  have hbest := hinv (List.range 8) (0, 0) (Or.inl rfl)
  split_ifs at h with hge
  simp only [Option.some.injEq, Prod.mk.injEq] at h
  obtain ⟨he0, he1⟩ := h
  rcases hbest with hbest | hbest
  · rw [hbest] at hge
    simp at hge
  · rw [he0] at hbest
    have hrle : runAt gs e0 ≤ 8 - e0 := by
      have h1 := (List.takeWhile_prefix (l := gs.drop e0) (· = 0)).length_le
      rw [List.length_drop, hlen] at h1
      exact h1
    rw [← he1, ← hbest]
    refine ⟨by omega, by omega, by omega⟩

theorem splitEllipsis_cons_ne {t : List Char} {ts : List (List Char)} (ht : t ≠ []) :
    splitEllipsis (t :: ts) =
      (match (t :: ts).findIdx? (·.isEmpty) with
       | none => none
       | some k =>
         let left := (t :: ts).take k
         let rest := (t :: ts).drop (k + 1)
         if left = [] ∨ ¬noEmpty left then none
         else if rest = [[]] then some (left, [])
         else if rest ≠ [] ∧ noEmpty rest then some (left, rest)
         else none) := by
  rcases t with _ | ⟨c, t2⟩
  · exact absurd rfl ht
  · rfl

theorem findIdx_empty_boundary {A B : List (List Char)} (hA : ∀ t ∈ A, t ≠ []) :
    (A ++ ([] : List Char) :: B).findIdx? (·.isEmpty) = some A.length := by
  rw [List.findIdx?_eq_some_iff_getElem]
  have hlt : A.length < (A ++ ([] : List Char) :: B).length := by
    simp
  refine ⟨hlt, ?_, ?_⟩
  · rw [List.getElem_append_right (le_refl A.length)]
    simp
  · intro j hj
    rw [List.getElem_append_left (by omega)]
    have hj2 : j < A.length := hj
    have hmem := List.getElem_mem hj2
    have := hA _ hmem
    simp [List.isEmpty_iff, this]

theorem run_decomp {gs : List Nat} {e0 e1 : Nat} (hlen : gs.length = 8)
    (hle : e0 ≤ e1) (hrun : runAt gs e0 = e1 - e0) :
    gs.take e0 ++ (List.replicate (e1 - e0) 0 ++ gs.drop e1) = gs := by
  have hrep : (gs.drop e0).takeWhile (· = 0) = List.replicate (e1 - e0) 0 := by
    rw [List.eq_replicate_iff]
    constructor
    · exact hrun
    · intro b hb
      have := List.mem_takeWhile_imp hb
      simpa using this
  have hdw : (gs.drop e0).dropWhile (· = 0) = gs.drop e1 := by
    have h2 : (gs.drop e0).dropWhile (· = 0) =
        (((gs.drop e0).takeWhile (· = 0)) ++ ((gs.drop e0).dropWhile (· = 0))).drop
          ((gs.drop e0).takeWhile (· = 0)).length := (List.drop_left _ _).symm
    rw [List.takeWhile_append_dropWhile] at h2
    rw [h2]
    rw [show ((gs.drop e0).takeWhile (· = 0)).length = runAt gs e0 from rfl, hrun]
    rw [List.drop_drop]
    congr 1
    omega
  calc gs.take e0 ++ (List.replicate (e1 - e0) 0 ++ gs.drop e1)
      = gs.take e0 ++ ((gs.drop e0).takeWhile (· = 0) ++ (gs.drop e0).dropWhile (· = 0)) := by
        rw [hrep, hdw]
    _ = gs.take e0 ++ gs.drop e0 := by rw [List.takeWhile_append_dropWhile]
    _ = gs := List.take_append_drop e0 gs

theorem mem_toStrTokens {v : Nat} {t : List Char} (hv : v < two128)
    (ht : t ∈ toStrTokens v) : t = [] ∨ ∃ g, g < 65536 ∧ t = hexStr g := by
  unfold toStrTokens at ht
  simp only [] at ht
  cases hbr : bestRun (groups v) with
  | none =>
    rw [hbr] at ht
    simp only [] at ht
    obtain ⟨g, hg, rfl⟩ := List.mem_map.mp ht
    exact Or.inr ⟨g, groups_mem_lt g hg, rfl⟩
  | some pair =>
    obtain ⟨e0, e1⟩ := pair
    rw [hbr] at ht
    simp only [] at ht
    rcases List.mem_append.mp ht with ht | ht
    · rcases List.mem_append.mp ht with ht | ht
      · by_cases he0 : e0 = 0
        · rw [if_pos he0] at ht
          simp only [List.mem_singleton] at ht
          exact Or.inl ht
        · rw [if_neg he0] at ht
          obtain ⟨g, hg, rfl⟩ := List.mem_map.mp ht
          exact Or.inr ⟨g, groups_mem_lt g (List.mem_of_mem_take hg), rfl⟩
      · simp only [List.mem_singleton] at ht
        exact Or.inl ht
    · by_cases he1 : e1 = 8
      · rw [if_pos he1] at ht
        simp only [List.mem_singleton] at ht
        exact Or.inl ht
      · rw [if_neg he1] at ht
        obtain ⟨g, hg, rfl⟩ := List.mem_map.mp ht
        exact Or.inr ⟨g, groups_mem_lt g (List.mem_of_mem_drop hg), rfl⟩

theorem mem_intercalate_colon {c : Char} : ∀ (ls : List (List Char)),
    c ∈ ([':'] : List Char).intercalate ls → c = ':' ∨ ∃ t ∈ ls, c ∈ t := by
  intro ls
  induction ls with
  | nil => intro h; simp [List.intercalate] at h
  | cons t rest ih =>
    cases rest with
    | nil =>
      intro h
      simp [List.intercalate] at h
      exact Or.inr ⟨t, by simp, h⟩
    | cons t2 rest2 =>
      intro h
      have hstep : ([':'] : List Char).intercalate (t :: t2 :: rest2) =
          t ++ [':'] ++ ([':'] : List Char).intercalate (t2 :: rest2) := by
        simp [List.intercalate, List.append_assoc]
      rw [hstep] at h
      rcases List.mem_append.mp h with h | h
      · rcases List.mem_append.mp h with h | h
        · exact Or.inr ⟨t, by simp, h⟩
        · simp only [List.mem_singleton] at h
          exact Or.inl h
      · rcases ih h with h | ⟨t3, ht3, hc3⟩
        · exact Or.inl h
        · exact Or.inr ⟨t3, by simp [ht3], hc3⟩

theorem dropWhile_eq_self_of {p : Char → Bool} :
    ∀ (s : List Char), (∀ c ∈ s, p c = false) → s.dropWhile p = s := by
  intro s h
  cases s with
  | nil => rfl
  | cons c rest =>
    rw [List.dropWhile_cons, if_neg (by simp [h c (by simp)])]

theorem trimSpace_eq_self {s : List Char} (h : ∀ c ∈ s, isSpaceCh c = false) :
    trimSpace s = s := by
  unfold trimSpace
  rw [dropWhile_eq_self_of s h,
    dropWhile_eq_self_of s.reverse (fun c hc => h c (List.mem_reverse.mp hc)),
    List.reverse_reverse]

theorem hexStr_chars {g : Nat} (hg : g < 65536) :
    ∀ c ∈ hexStr g, isSpaceCh c = false ∧ c ≠ ':' := by
  intro c hc
  obtain ⟨d, hd, rfl⟩ :=
    (hexStrAux_spec 5 (by norm_num) g (by norm_num; omega)).2.1 c hc
  exact ⟨(toHexChar_spec d hd).2.2.2, (toHexChar_spec d hd).2.2.1⟩

theorem toStrTokens_ne_nil {v : Nat} (hv : v < two128) : toStrTokens v ≠ [] := by
  unfold toStrTokens
  simp only []
  cases hbr : bestRun (groups v) with
  | none =>
    intro hcon
    have := congrArg List.length hcon
    rw [List.length_map, groups_length] at this
    simp at this
  | some pair =>
    obtain ⟨e0, e1⟩ := pair
    intro hcon
    have := congrArg List.length hcon
    simp at this

theorem toStr_splitOn {v : Nat} (hv : v < two128) :
    (Address.toStr (.mk v)).splitOn ':' = toStrTokens v := by
  show (([':'] : List Char).intercalate (toStrTokens v)).splitOn ':' = toStrTokens v
  refine List.splitOn_intercalate _ ':' ?_ (toStrTokens_ne_nil hv)
  intro t ht
  rcases mem_toStrTokens hv ht with rfl | ⟨g, hg, rfl⟩
  · simp
  · intro hcol
    exact absurd rfl (hexStr_chars hg ':' hcol).2

theorem trimSpace_toStr {v : Nat} (hv : v < two128) :
    trimSpace (Address.toStr (.mk v)) = Address.toStr (.mk v) := by
  refine trimSpace_eq_self ?_
  intro c hc
  rcases mem_intercalate_colon (toStrTokens v) hc with rfl | ⟨t, ht, hct⟩
  · decide
  · rcases mem_toStrTokens hv ht with rfl | ⟨g, hg, rfl⟩
    · simp at hct
    · exact (hexStr_chars hg c hct).1

theorem splitEllipsis_boundary {A B : List (List Char)} (hAne : A ≠ [])
    (hAmem : ∀ t ∈ A, t ≠ []) (hAno : noEmpty A = true) :
    splitEllipsis (A ++ ([] : List Char) :: B) =
      (if B = [[]] then some (A, [])
       else if B ≠ [] ∧ noEmpty B then some (A, B)
       else none) := by
  obtain ⟨t0, A2, rfl⟩ : ∃ t0 A2, A = t0 :: A2 := by
    rcases A with _ | ⟨x, xs⟩
    · exact absurd rfl hAne
    · exact ⟨x, xs, rfl⟩
  rw [List.cons_append, splitEllipsis_cons_ne (hAmem t0 (by simp)), ← List.cons_append]
  rw [findIdx_empty_boundary hAmem]
  simp only []
  rw [List.take_left]
  rw [show (((t0 :: A2) ++ ([] : List Char) :: B).drop ((t0 :: A2).length + 1)) = B from by
    rw [show (t0 :: A2) ++ ([] : List Char) :: B = ((t0 :: A2) ++ [[]]) ++ B from by
      rw [List.append_assoc]
      rfl]
    exact List.drop_left' (by simp)]
  rw [if_neg (by simp [hAno])]

theorem parseTokens_toStrTokens {v : Nat} (hv : v < two128) :
    parseTokens (toStrTokens v) = some v := by
  have hgl : (groups v).length = 8 := groups_length v
  unfold toStrTokens
  simp only []
  cases hbr : bestRun (groups v) with
  | none =>
    simp only []
    unfold parseTokens
    rw [if_pos (noEmpty_map_hexStr groups_mem_lt)]
    rw [if_pos (by rw [List.length_map, hgl])]
    rw [mapM_map_hexStr (groups v) groups_mem_lt]
    rw [show Option.map foldGroups (some (groups v)) = some (foldGroups (groups v))
      from rfl]
    rw [foldGroups_groups hv]
  | some pair =>
    obtain ⟨e0, e1⟩ := pair
    simp only []
    obtain ⟨h2le, he18, hrun⟩ := bestRun_spec hgl hbr
    have hdecomp := run_decomp hgl (by omega) hrun
    by_cases he0 : e0 = 0
    · subst he0
      by_cases he1 : e1 = 8
      · subst he1
        rw [if_pos rfl, if_pos rfl]
        have hdrop8 : (groups v).drop 8 = [] := by
          rw [← hgl]
          exact List.drop_length _
        rw [hdrop8, List.take_zero] at hdecomp
        simp only [List.nil_append, List.append_nil] at hdecomp
        have hv0 : v = 0 := by
          have hfg := foldGroups_groups hv
          rw [← hdecomp] at hfg
          rw [show foldGroups (List.replicate (8 - 0) 0) = 0 from rfl] at hfg
          omega
        rw [hv0]
        decide
      · rw [if_pos rfl, if_neg he1]
        have hX : (((groups v).drop e1).map hexStr) ≠ [] := by
          intro hcon
          have := congrArg List.length hcon
          rw [List.length_map, List.length_drop, hgl] at this
          simp at this
          omega
        have hXno : noEmpty (((groups v).drop e1).map hexStr) = true :=
          noEmpty_map_hexStr (fun g hg => groups_mem_lt g (List.mem_of_mem_drop hg))
        show parseTokens ([] :: [] :: ((groups v).drop e1).map hexStr) = some v
        have hno : noEmpty ([] :: [] :: ((groups v).drop e1).map hexStr) = false :=
          noEmpty_false_of_mem (by simp)
        unfold parseTokens
        rw [if_neg (by rw [hno]; simp)]
        rw [show splitEllipsis ([] :: [] :: ((groups v).drop e1).map hexStr) =
            (if ((groups v).drop e1).map hexStr = [[]] then some ([], [])
             else if ((groups v).drop e1).map hexStr ≠ [] ∧
                 noEmpty (((groups v).drop e1).map hexStr) then
               some ([], ((groups v).drop e1).map hexStr)
             else none) from rfl]
        have hXne2 : ((groups v).drop e1).map hexStr ≠ [[]] := by
          intro hcon
          rw [hcon] at hXno
          exact absurd hXno (by decide)
        rw [if_neg hXne2, if_pos ⟨hX, hXno⟩]
        simp only []
        rw [if_pos (by
          simp only [List.length_nil, List.length_map, List.length_drop, hgl]
          omega)]
        rw [show (([] : List (List Char)).mapM parseGroup) = some [] from rfl]
        rw [mapM_map_hexStr _ (fun g hg => groups_mem_lt g (List.mem_of_mem_drop hg))]
        simp only []
        congr 1
        rw [show (8 - (([] : List Nat).length + ((groups v).drop e1).length)) = e1 - 0
          from by
          simp only [List.length_nil, List.length_drop, hgl]
          omega]
        calc foldGroups ([] ++ List.replicate (e1 - 0) 0 ++ (groups v).drop e1)
            = foldGroups ((groups v).take 0 ++
                (List.replicate (e1 - 0) 0 ++ (groups v).drop e1)) := by simp
          _ = foldGroups (groups v) := by rw [hdecomp]
          _ = v := foldGroups_groups hv
    · rw [if_neg he0]
      have hAlen : (((groups v).take e0).map hexStr).length = e0 := by
        rw [List.length_map, List.length_take, hgl]
        omega
      have hAmem : ∀ t ∈ ((groups v).take e0).map hexStr, t ≠ [] := by
        intro t ht
        obtain ⟨g, hg, rfl⟩ := List.mem_map.mp ht
        exact hexStr_ne_nil (groups_mem_lt g (List.mem_of_mem_take hg))
      have hAno : noEmpty (((groups v).take e0).map hexStr) = true :=
        noEmpty_map_hexStr (fun g hg => groups_mem_lt g (List.mem_of_mem_take hg))
      have hAne : ((groups v).take e0).map hexStr ≠ [] := by
        intro hcon
        rw [hcon] at hAlen
        simp at hAlen
        omega
      by_cases he1 : e1 = 8
      · subst he1
        rw [if_pos rfl, List.append_assoc]
        show parseTokens (((groups v).take e0).map hexStr ++
          ([] : List Char) :: [[]]) = some v
        have hno : noEmpty (((groups v).take e0).map hexStr ++
            ([] : List Char) :: [[]]) = false :=
          noEmpty_false_of_mem (by simp)
        unfold parseTokens
        rw [if_neg (by rw [hno]; simp)]
        rw [splitEllipsis_boundary hAne hAmem hAno]
        rw [if_pos rfl]
        simp only []
        rw [if_pos (by rw [hAlen]; simp; omega)]
        rw [mapM_map_hexStr _ (fun g hg => groups_mem_lt g (List.mem_of_mem_take hg))]
        rw [show (([] : List (List Char)).mapM parseGroup) = some [] from rfl]
        simp only []
        congr 1
        have hdrop8 : (groups v).drop 8 = [] := by
          rw [← hgl]
          exact List.drop_length _
        rw [show (8 - (((groups v).take e0).length + ([] : List Nat).length)) = 8 - e0
          from by
          simp only [List.length_take, List.length_nil, hgl]
          omega]
        have hdecomp2 : (groups v).take e0 ++ List.replicate (8 - e0) 0 = groups v := by
          rw [hdrop8, List.append_nil] at hdecomp
          exact hdecomp
        rw [List.append_nil, hdecomp2]
        exact foldGroups_groups hv
      · rw [if_neg he1]
        have hB : (((groups v).drop e1).map hexStr) ≠ [] := by
          intro hcon
          have := congrArg List.length hcon
          rw [List.length_map, List.length_drop, hgl] at this
          simp at this
          omega
        have hBno : noEmpty (((groups v).drop e1).map hexStr) = true :=
          noEmpty_map_hexStr (fun g hg => groups_mem_lt g (List.mem_of_mem_drop hg))
        rw [List.append_assoc]
        show parseTokens (((groups v).take e0).map hexStr ++
          ([] : List Char) :: ((groups v).drop e1).map hexStr) = some v
        have hno : noEmpty (((groups v).take e0).map hexStr ++
            ([] : List Char) :: ((groups v).drop e1).map hexStr) = false :=
          noEmpty_false_of_mem (by simp)
        unfold parseTokens
        rw [if_neg (by rw [hno]; simp)]
        rw [splitEllipsis_boundary hAne hAmem hAno]
        have hBne2 : ((groups v).drop e1).map hexStr ≠ [[]] := by
          intro hcon
          rw [hcon] at hBno
          exact absurd hBno (by decide)
        rw [if_neg hBne2, if_pos ⟨hB, hBno⟩]
        simp only []
        rw [if_pos (by
          rw [hAlen]
          simp only [List.length_map, List.length_drop, hgl]
          omega)]
        rw [mapM_map_hexStr _ (fun g hg => groups_mem_lt g (List.mem_of_mem_take hg))]
        rw [mapM_map_hexStr _ (fun g hg => groups_mem_lt g (List.mem_of_mem_drop hg))]
        simp only []
        congr 1
        rw [show (8 - (((groups v).take e0).length + ((groups v).drop e1).length)) =
            e1 - e0 from by
          simp only [List.length_take, List.length_drop, hgl]
          omega]
        calc foldGroups ((groups v).take e0 ++ List.replicate (e1 - e0) 0 ++
              (groups v).drop e1)
            = foldGroups ((groups v).take e0 ++
                (List.replicate (e1 - e0) 0 ++ (groups v).drop e1)) := by
              rw [List.append_assoc]
          _ = foldGroups (groups v) := by rw [hdecomp]
          _ = v := foldGroups_groups hv

theorem parse_toStr {v : Nat} (hlt : v < two128) (hv4 : isV4Mapped v = false) :
    Parse (Address.toStr (.mk v)) = .ok (.mk v) := by
  unfold Parse
  rw [trimSpace_toStr hlt]
  unfold parseIPv6
  rw [toStr_splitOn hlt]
  rw [parseTokens_toStrTokens hlt]
  simp only []
  unfold NewAddress
  rw [if_neg (by simp [hv4])]

/-- **C7 counterexample.** `0xffff00000000` (the address `::ffff:0:0`) is a
valid 128-bit integer with `0 <= v < 2^128`, yet `AddressFromBigInt`
rejects it: the `NewAddress` validation refuses the IPv4-mapped byte
pattern, so `fromInteger` neither succeeds on all of `[0, 2^128)` nor
fails only outside that range. -/
theorem c7_counterexample :
    (0 : Int) ≤ 0xffff00000000 ∧ (0xffff00000000 : Int) < 2 ^ 128 ∧
    AddressFromBigInt 0xffff00000000 = .error .invalidAddress := by
  refine ⟨by norm_num, by norm_num, by decide⟩

/-- **C7 (amended).** `fromInteger` (`AddressFromBigInt`) succeeds — with
the address holding exactly the 16 big-endian bytes of `v` — if and only
if `0 <= v < 2^128` **and** `v` is not in the rejected IPv4-mapped range
`::ffff:0:0/96`; it returns `ErrInvalidAddress` whenever `v < 0` or
`v >= 2^128` (but also for the in-range IPv4-mapped values, refuting the
"exactly"); and for every constructible value the round trip holds:
parsing the compressed string form returns the same address, whose
integer value is `w`. -/
theorem c7_from_integer_round_trip (v : Int) (w : Nat) :
    (AddressFromBigInt v = .ok (.mk v.toNat) ↔
      0 ≤ v ∧ v < 2 ^ 128 ∧ isV4Mapped v.toNat = false) ∧
    ((v < 0 ∨ (2 : Int) ^ 128 ≤ v) → AddressFromBigInt v = .error .invalidAddress) ∧
    (∀ a, AddressFromBigInt v = .ok a → a = .mk v.toNat) ∧
    (w < two128 → isV4Mapped w = false →
      Parse (Address.toStr (.mk w)) = .ok (.mk w) ∧ (Address.mk w).BigInt = w) := by
  unfold AddressFromBigInt
  refine ⟨?_, ?_, ?_, ?_⟩
  · by_cases hr : v < 0 ∨ (2 ^ 128 : Int) ≤ v
    · rw [if_pos hr]
      constructor
      · intro h
        exact absurd h (by simp)
      · rintro ⟨h1, h2, _⟩
        exact absurd hr (not_or.mpr ⟨by omega, by omega⟩)
    · rw [if_neg hr]
      push_neg at hr
      obtain ⟨h0, hlt⟩ := hr
      unfold NewAddress
      by_cases hv4 : isV4Mapped v.toNat = true
      · rw [if_pos hv4]
        constructor
        · intro h
          exact absurd h (by simp)
        · rintro ⟨_, _, h4⟩
          rw [h4] at hv4
          simp at hv4
      · rw [if_neg hv4]
        rw [Bool.not_eq_true] at hv4
        constructor
        · intro _
          exact ⟨h0, hlt, hv4⟩
        · intro _
          rfl
  · intro hr
    rw [if_pos hr]
  · intro a ha
    by_cases hr : v < 0 ∨ (2 ^ 128 : Int) ≤ v
    · rw [if_pos hr] at ha
      exact absurd ha (by simp)
    · rw [if_neg hr] at ha
      exact (NewAddress_ok ha).1
  · intro hw hv4
    exact ⟨parse_toStr hw hv4, rfl⟩

/-- Witness for C7: `fromInteger 1` succeeds with `::1`, and printing then
parsing `::1` returns the same address. -/
theorem c7_from_integer_round_trip_witness :
    AddressFromBigInt 1 = .ok (.mk (1 : Int).toNat) ∧
    Parse (Address.toStr (.mk 1)) = .ok (.mk 1) := by
  have h := c7_from_integer_round_trip 1 1
  exact ⟨h.1.mpr ⟨by norm_num, by norm_num, by decide⟩,
    (h.2.2.2 (by rw [two128_eq]; norm_num) (by decide)).1⟩

theorem contains_char {c o : CIDR} (hc : c.wf) (ho : o.wf) :
    c.ContainsCIDR o = some (decide (c.plen ≤ o.plen) &&
      decide (c.base.BigInt =
        o.base.BigInt / 2 ^ (128 - c.plen) * 2 ^ (128 - c.plen))) := by
  obtain ⟨va, hba, hlta, hv4a, hpa, hmoda⟩ := wf_iff.mp hc
  obtain ⟨vb, hbb, hltb, hv4b, hpb, hmodb⟩ := wf_iff.mp ho
  unfold CIDR.ContainsCIDR
  by_cases hple : c.plen ≤ o.plen
  · rw [if_pos hple]
    unfold CIDR.ContainsAddress
    rw [hbb, Mask_mk_of_not_v4 (by omega) hv4b]
    rw [show Option.map (fun m => c.base.Compare m == 0)
        (some (.mk (vb / 2 ^ (128 - c.plen) * 2 ^ (128 - c.plen)))) =
      some (c.base.Compare (.mk (vb / 2 ^ (128 - c.plen) * 2 ^ (128 - c.plen))) == 0)
      from rfl]
    congr 1
    rw [show decide (c.plen ≤ o.plen) = true from decide_eq_true hple, Bool.true_and]
    rw [Bool.eq_iff_iff, beq_iff_eq, decide_eq_true_eq, compare_eq_zero_iff]
    rw [hba]
    rw [show (Address.mk va).BigInt = va from rfl,
      show (Address.mk vb).BigInt = vb from rfl]
    constructor
    · intro he
      exact (Address.mk.injEq _ _).mp he
    · intro he
      rw [he]
  · rw [if_neg hple]
    congr 1
    rw [show decide (c.plen ≤ o.plen) = false from decide_eq_false hple,
      Bool.false_and]

theorem dyadic_floor {lo n k : Nat} (hal : lo % 2 ^ k = 0) (h1 : lo ≤ n)
    (h2 : n < lo + 2 ^ k) : n / 2 ^ k * 2 ^ k = lo := by
  obtain ⟨q, hq⟩ := Nat.dvd_of_mod_eq_zero hal
  have hq2 : q * 2 ^ k = lo := by rw [hq]; ring
  have hn : n / 2 ^ k = q := by
    refine Nat.div_eq_of_lt_le ?_ ?_
    · omega
    · rw [Nat.succ_mul]
      omega
  rw [hn, hq2]

theorem contains_true_iff {c o : CIDR} (hc : c.wf) (ho : o.wf) :
    c.ContainsCIDR o = some true ↔
      (c.base.BigInt ≤ o.base.BigInt ∧
       o.base.BigInt + o.HostCount ≤ c.base.BigInt + c.HostCount) := by
  obtain ⟨va, hba, hlta, hv4a, hpa, hmoda⟩ := wf_iff.mp hc
  obtain ⟨vb, hbb, hltb, hv4b, hpb, hmodb⟩ := wf_iff.mp ho
  rw [contains_char hc ho]
  rw [hba, hbb, show (Address.mk va).BigInt = va from rfl,
    show (Address.mk vb).BigInt = vb from rfl, hostCount_eq, hostCount_eq]
  simp only [Option.some.injEq, Bool.and_eq_true, decide_eq_true_eq]
  have hS1 : (1 : Nat) ≤ 2 ^ (128 - c.plen) := Nat.one_le_two_pow
  have hT1 : (1 : Nat) ≤ 2 ^ (128 - o.plen) := Nat.one_le_two_pow
  constructor
  · rintro ⟨hple, hfl⟩
    have hfle : vb / 2 ^ (128 - c.plen) * 2 ^ (128 - c.plen) ≤ vb :=
      Nat.div_mul_le_self _ _
    have hmod : vb / 2 ^ (128 - c.plen) * 2 ^ (128 - c.plen) + vb % 2 ^ (128 - c.plen) = vb :=
      Nat.div_add_mod' vb _
    have hmlt : vb % 2 ^ (128 - c.plen) < 2 ^ (128 - c.plen) :=
      Nat.mod_lt _ (by omega)
    have hTS : (2 : Nat) ^ (128 - o.plen) ∣ 2 ^ (128 - c.plen) :=
      pow_dvd_pow 2 (by omega)
    have hdvd2 : (2 : Nat) ^ (128 - o.plen) ∣ va + 2 ^ (128 - c.plen) := by
      refine dvd_add ?_ hTS
      rw [hfl]
      exact dvd_trans hTS (dvd_mul_left _ _)
    refine ⟨by omega, ?_⟩
    exact add_pow_le (Nat.dvd_of_mod_eq_zero hmodb) hdvd2 (by omega)
  · rintro ⟨hle, hend⟩
    have hTleS : (2 : Nat) ^ (128 - o.plen) ≤ 2 ^ (128 - c.plen) := by omega
    have hple : c.plen ≤ o.plen := by
      have := (Nat.pow_le_pow_iff_right (by norm_num : 1 < 2)).mp hTleS
      omega
    refine ⟨hple, ?_⟩
    exact (dyadic_floor hmoda hle (by omega)).symm

theorem hostCount_dvd_of_le {c o : CIDR} (h : o.HostCount ≤ c.HostCount) :
    o.HostCount ∣ c.HostCount := by
  rw [hostCount_eq o, hostCount_eq c] at h ⊢
  exact pow_dvd_pow 2
    ((Nat.pow_le_pow_iff_right (by norm_num : 1 < 2)).mp h)

theorem push_disjoint_nat {va vb pa pb : Nat}
    (hmoda : va % 2 ^ (128 - pa) = 0) (hmodb : vb % 2 ^ (128 - pb) = 0)
    (hge : va ≤ vb) (hcnt : 2 ^ (128 - pb) ≤ 2 ^ (128 - pa))
    (hnc : ¬(va ≤ vb ∧ vb + 2 ^ (128 - pb) ≤ va + 2 ^ (128 - pa))) :
    va + 2 ^ (128 - pa) ≤ vb := by
  by_contra hlt
  push_neg at hlt
  apply hnc
  refine ⟨hge, ?_⟩
  have hTdvd : (2 : Nat) ^ (128 - pb) ∣ 2 ^ (128 - pa) :=
    pow_dvd_pow 2 ((Nat.pow_le_pow_iff_right (by norm_num : 1 < 2)).mp hcnt)
  have hdvd2 : (2 : Nat) ^ (128 - pb) ∣ va + 2 ^ (128 - pa) :=
    dvd_add (dvd_trans hTdvd (Nat.dvd_of_mod_eq_zero hmoda)) hTdvd
  exact add_pow_le (Nat.dvd_of_mod_eq_zero hmodb) hdvd2 hlt

theorem base_eq_nat {va vb pa pb : Nat}
    (hmoda : va % 2 ^ (128 - pa) = 0) (hmodb : vb % 2 ^ (128 - pb) = 0)
    (hge : va ≤ vb) (hlt : vb < va + 2 ^ (128 - pa))
    (hcnt : 2 ^ (128 - pa) ≤ 2 ^ (128 - pb)) :
    vb = va := by
  have hSdvd : (2 : Nat) ^ (128 - pa) ∣ 2 ^ (128 - pb) :=
    pow_dvd_pow 2 ((Nat.pow_le_pow_iff_right (by norm_num : 1 < 2)).mp hcnt)
  have hvbmod : vb % 2 ^ (128 - pa) = 0 :=
    mod_eq_zero_of_dvd (dvd_trans hSdvd (Nat.dvd_of_mod_eq_zero hmodb))
  have hfl0 := dyadic_floor hmoda hge hlt
  have hfl : vb / 2 ^ (128 - pa) * 2 ^ (128 - pa) = vb :=
    Nat.div_mul_cancel (Nat.dvd_of_mod_eq_zero hvbmod)
  omega

theorem isMergeableSib_false_of_next_ne {p l : CIDR} (hp : p.wf) (hl : l.wf)
    (h : (p.base.BigInt + p.HostCount) % two128 ≠ l.base.BigInt) :
    isMergeableSib p l = false := by
  obtain ⟨vl, hbl, hltl, hv4l, hpl, hmodl⟩ := wf_iff.mp hl
  unfold isMergeableSib
  rw [Next_char hp]
  by_cases hv4 : isV4Mapped ((p.base.BigInt + p.HostCount) % two128) = true
  · rw [if_pos hv4]
    simp
  · rw [if_neg hv4]
    simp only []
    rw [hbl]
    have hne : ((Address.mk ((p.base.BigInt + p.HostCount) % two128)).Compare
        (Address.mk vl) == 0) = false := by
      rw [beq_eq_false_iff_ne]
      intro hcon
      rw [compare_eq_zero_iff] at hcon
      rw [hbl] at h
      rw [show (Address.mk vl).BigInt = vl from rfl] at h
      exact h ((Address.mk.injEq _ _).mp hcon)
    rw [hne]
    simp

theorem isMergeableSib_true_elim {p l : CIDR} (hp : p.wf) (hl : l.wf)
    (h : isMergeableSib p l = true) :
    p.plen = l.plen ∧ 1 ≤ l.plen ∧
      (p.base.BigInt + p.HostCount) % two128 = l.base.BigInt ∧
      p.base.BigInt / 2 ^ (129 - l.plen) * 2 ^ (129 - l.plen) =
        l.base.BigInt / 2 ^ (129 - l.plen) * 2 ^ (129 - l.plen) := by
  obtain ⟨vp, hbp, hltp, hv4p, hpp, hmodp⟩ := wf_iff.mp hp
  obtain ⟨vl, hbl, hltl, hv4l, hpl, hmodl⟩ := wf_iff.mp hl
  unfold isMergeableSib at h
  rw [Next_char hp] at h
  by_cases hv4 : isV4Mapped ((p.base.BigInt + p.HostCount) % two128) = true
  · rw [if_pos hv4] at h
    simp at h
  · rw [if_neg hv4] at h
    simp only [] at h
    rw [hbp, hbl] at h
    rw [Mask_mk_of_not_v4 (by omega) hv4p, Mask_mk_of_not_v4 (by omega) hv4l] at h
    simp only [Bool.and_eq_true, beq_iff_eq, decide_eq_true_eq] at h
    obtain ⟨⟨⟨hpeq, hppos⟩, hnext⟩, hmask⟩ := h
    rw [compare_eq_zero_iff] at hnext hmask
    refine ⟨hpeq, hppos, ?_, ?_⟩
    · have h2 := (Address.mk.injEq _ _).mp hnext
      rw [show (Address.mk vp).BigInt = vp from rfl] at h2
      rw [hbp, hbl, show (Address.mk vp).BigInt = vp from rfl,
        show (Address.mk vl).BigInt = vl from rfl]
      exact h2
    · have h2 := (Address.mk.injEq _ _).mp hmask
      rw [show 128 - (l.plen - 1) = 129 - l.plen from by omega] at h2
      rw [hbp, hbl, show (Address.mk vp).BigInt = vp from rfl,
        show (Address.mk vl).BigInt = vl from rfl]
      exact h2

theorem isMergeableSib_rev {a b : CIDR} (ha : a.wf) (hb : b.wf)
    (hd : b.base.BigInt + b.HostCount ≤ a.base.BigInt)
    (h : isMergeableSib a b = true) : isMergeableSib b a = true := by
  obtain ⟨va, hba, hlta, hv4a, hpa, hmoda⟩ := wf_iff.mp ha
  obtain ⟨vb, hbb, hltb, hv4b, hpb, hmodb⟩ := wf_iff.mp hb
  obtain ⟨hpeq, hppos, hnext, hmask⟩ := isMergeableSib_true_elim ha hb h
  rw [hba, hbb, show (Address.mk va).BigInt = va from rfl,
    show (Address.mk vb).BigInt = vb from rfl] at hd hnext hmask
  rw [hostCount_eq b] at hd
  rw [hostCount_eq a] at hnext
  set p := b.plen with hpdef
  have hfit : va + 2 ^ (128 - a.plen) ≤ two128 :=
    add_pow_le (Nat.dvd_of_mod_eq_zero hmoda) (pow_dvd_two128 (by omega)) hlta
  have hcb1 : (1 : Nat) ≤ 2 ^ (128 - p) := Nat.one_le_two_pow
  have hca1 : (1 : Nat) ≤ 2 ^ (128 - a.plen) := Nat.one_le_two_pow
  -- no-wrap is impossible: the next base is strictly above va, but vb is below
  have hwrap : va + 2 ^ (128 - a.plen) = two128 := by
    by_contra hnw
    have hlt2 : va + 2 ^ (128 - a.plen) < two128 := by omega
    rw [Nat.mod_eq_of_lt hlt2] at hnext
    omega
  rw [hwrap, Nat.mod_self] at hnext
  -- vb = 0
  have hvb0 : vb = 0 := hnext.symm
  subst hvb0
  -- the shared parent forces p = 1 and va = 2^127
  rw [show (0 : Nat) / 2 ^ (129 - p) * 2 ^ (129 - p) = 0 from by simp] at hmask
  have hg1 : (1 : Nat) ≤ 2 ^ (129 - p) := Nat.one_le_two_pow
  have hvalt : va < 2 ^ (129 - p) := by
    by_contra hge
    push_neg at hge
    have h1 : 1 ≤ va / 2 ^ (129 - p) := (Nat.one_le_div_iff (by omega)).mpr hge
    have h2 : 2 ^ (129 - p) ≤ va / 2 ^ (129 - p) * 2 ^ (129 - p) :=
      le_mul_of_one_le_left (Nat.zero_le _) h1
    omega
  have hsplit : (2 : Nat) ^ a.plen * 2 ^ (128 - a.plen) = two128 := by
    rw [← pow_add, two128]
    congr 1
    omega
  have hp129 : (2 : Nat) ^ (129 - p) = 2 * 2 ^ (128 - p) := by
    rw [← pow_succ']
    congr 1
    omega
  have hpeq2 : a.plen = p := hpeq
  rw [hpeq2] at hwrap hsplit
  have hp1 : p = 1 := by
    have h3 : (2 : Nat) ^ p * 2 ^ (128 - p) - 2 ^ (128 - p) < 2 * 2 ^ (128 - p) := by
      rw [← hp129]
      omega
    have h4 : (2 : Nat) ^ p < 3 := by
      rcases Nat.lt_or_ge (2 ^ p) 3 with hc | hc
      · exact hc
      · exfalso
        have : 3 * 2 ^ (128 - p) ≤ 2 ^ p * 2 ^ (128 - p) :=
          Nat.mul_le_mul_right _ hc
        omega
    have h5 : (2 : Nat) ^ p ≤ 2 ^ 1 := by norm_num; omega
    have h6 : p ≤ 1 := (Nat.pow_le_pow_iff_right (by norm_num : 1 < 2)).mp h5
    omega
  have hva : va = 2 ^ 127 := by
    rw [hp1] at hwrap
    rw [two128_eq] at hwrap
    norm_num at hwrap
    omega
  have hAa : a = ⟨.mk (2 ^ 127), 1⟩ := by
    rcases a with ⟨ab, ap⟩
    simp only at hba hpeq2
    rw [hba, hva, hpeq2, hp1]
  have hBb : b = ⟨.mk 0, 1⟩ := by
    rcases b with ⟨bb, bp⟩
    simp only at hbb
    rw [hbb]
    have hbp1 : bp = 1 := hp1
    rw [hbp1]
  rw [hAa, hBb]
  decide

/-- Witness for C10 on `2001:db8::/126`-like data: the network `::/126`
split to `/127`. -/
theorem c10_split_iterator_agree_witness :
    splitViaIterator ⟨.mk 0, 126⟩ 127 = CIDR.Split ⟨.mk 0, 126⟩ 127 ∧
    (2 : Nat) = 2 ^ (127 - 126) ∧
    ([(⟨.mk 0, 127⟩ : CIDR), ⟨.mk 2, 127⟩].length =
      (⟨2, .mk 0, 2, 127⟩ : SubnetIterator).remaining) ∧
    (false = false ↔ (⟨0, .mk 0, 2, 127⟩ : SubnetIterator).remaining = 0) := by
  have h := c10_split_iterator_agree ⟨.mk 0, 126⟩ 127 (by decide)
  exact ⟨h.1, h.2.1 ⟨2, .mk 0, 2, 127⟩ (by decide),
    h.2.2.1 ⟨2, .mk 0, 2, 127⟩ [⟨.mk 0, 127⟩, ⟨.mk 2, 127⟩] (by decide),
    h.2.2.2 ⟨0, .mk 0, 2, 127⟩ ⟨.empty, 0⟩ false ⟨0, .mk 0, 2, 127⟩ (by decide)⟩

theorem floor_not_v4 {v k : Nat} (hv : isV4Mapped v = false) :
    isV4Mapped (v / 2 ^ k * 2 ^ k) = false := by
  rw [← Bool.not_eq_true, isV4Mapped_iff] at hv ⊢
  rcases le_or_lt k 32 with hk | hk
  · have h1 : (2 : Nat) ^ k * 2 ^ (32 - k) = 2 ^ 32 := by
      rw [← pow_add]
      congr 1
      omega
    have h2 : v / 2 ^ k * 2 ^ k / 2 ^ 32 = v / 2 ^ 32 := by
      rw [← h1, ← Nat.div_div_eq_div_mul, ← Nat.div_div_eq_div_mul,
        Nat.mul_div_cancel _ (Nat.pos_pow_of_pos k (by norm_num))]
    rw [h2]
    exact hv
  · have h1 : (2 : Nat) ^ k = 2 ^ (k - 32) * 2 ^ 32 := by
      rw [← pow_add]
      congr 1
      omega
    have h2 : v / 2 ^ k * 2 ^ k / 2 ^ 32 = v / 2 ^ k * 2 ^ (k - 32) := by
      rw [h1, ← Nat.mul_assoc]
      exact Nat.mul_div_cancel _ (Nat.pos_pow_of_pos 32 (by norm_num))
    rw [h2]
    intro hcon
    have hdvd : 2 ∣ v / 2 ^ k * 2 ^ (k - 32) :=
      Dvd.dvd.mul_left (dvd_pow_self 2 (by omega)) _
    omega

theorem block_disjoint_nat {va vb pa pb : Nat}
    (hmoda : va % 2 ^ (128 - pa) = 0) (hmodb : vb % 2 ^ (128 - pb) = 0)
    (hlt : va < vb)
    (hnc : ¬(vb + 2 ^ (128 - pb) ≤ va + 2 ^ (128 - pa))) :
    va + 2 ^ (128 - pa) ≤ vb := by
  rcases le_or_lt (2 ^ (128 - pb)) (2 ^ (128 - pa)) with hc | hc
  · exact push_disjoint_nat hmoda hmodb (by omega) hc (by omega)
  · have hdvd : (2 : Nat) ^ (128 - pa) ∣ 2 ^ (128 - pb) :=
      pow_dvd_pow 2 ((Nat.pow_le_pow_iff_right (by norm_num : 1 < 2)).mp (by omega))
    exact add_pow_le (Nat.dvd_of_mod_eq_zero hmoda)
      (dvd_trans hdvd (Nat.dvd_of_mod_eq_zero hmodb)) hlt

theorem sib_false_of_gap {a b : CIDR} (ha : a.wf) (hb : b.wf)
    (hgap : a.base.BigInt + a.HostCount < b.base.BigInt) :
    isMergeableSib a b = false ∧ isMergeableSib b a = false := by
  obtain ⟨va, hba, hlta, hv4a, hpa, hmoda⟩ := wf_iff.mp ha
  obtain ⟨vb, hbb, hltb, hv4b, hpb, hmodb⟩ := wf_iff.mp hb
  rw [hba, hbb, show (Address.mk va).BigInt = va from rfl,
    show (Address.mk vb).BigInt = vb from rfl, hostCount_eq a] at hgap
  have hfa : va + 2 ^ (128 - a.plen) ≤ two128 :=
    add_pow_le (Nat.dvd_of_mod_eq_zero hmoda) (pow_dvd_two128 (by omega)) hlta
  have hfb : vb + 2 ^ (128 - b.plen) ≤ two128 :=
    add_pow_le (Nat.dvd_of_mod_eq_zero hmodb) (pow_dvd_two128 (by omega)) hltb
  have hb1 : (1 : Nat) ≤ 2 ^ (128 - b.plen) := Nat.one_le_two_pow
  have ha1 : (1 : Nat) ≤ 2 ^ (128 - a.plen) := Nat.one_le_two_pow
  constructor
  · refine isMergeableSib_false_of_next_ne ha hb ?_
    rw [hba, hbb, show (Address.mk va).BigInt = va from rfl,
      show (Address.mk vb).BigInt = vb from rfl, hostCount_eq a,
      Nat.mod_eq_of_lt (by omega)]
    omega
  · by_cases hw : vb + 2 ^ (128 - b.plen) < two128
    · refine isMergeableSib_false_of_next_ne hb ha ?_
      rw [hba, hbb, show (Address.mk va).BigInt = va from rfl,
        show (Address.mk vb).BigInt = vb from rfl, hostCount_eq b,
        Nat.mod_eq_of_lt hw]
      omega
    · have hw2 : vb + 2 ^ (128 - b.plen) = two128 := by omega
      by_cases hva0 : va = 0
      · cases hsib : isMergeableSib b a with
        | false => rfl
        | true =>
          exfalso
          obtain ⟨hpeq, hppos, hnext, hmask⟩ := isMergeableSib_true_elim hb ha hsib
          rw [hba, hbb, show (Address.mk va).BigInt = va from rfl,
            show (Address.mk vb).BigInt = vb from rfl] at hnext hmask
          rw [hostCount_eq b] at hnext
          set p := a.plen with hpdef
          subst hva0
          rw [show (0 : Nat) / 2 ^ (129 - p) * 2 ^ (129 - p) = 0 from by simp] at hmask
          have hg1 : (1 : Nat) ≤ 2 ^ (129 - p) := Nat.one_le_two_pow
          have hvblt : vb < 2 ^ (129 - p) := by
            by_contra hge
            push_neg at hge
            have h1 : 1 ≤ vb / 2 ^ (129 - p) := (Nat.one_le_div_iff (by omega)).mpr hge
            have h2 : 2 ^ (129 - p) ≤ vb / 2 ^ (129 - p) * 2 ^ (129 - p) :=
              le_mul_of_one_le_left (Nat.zero_le _) h1
            omega
          have hsplit : (2 : Nat) ^ p * 2 ^ (128 - p) = two128 := by
            rw [← pow_add, two128]
            congr 1
            omega
          have hp129 : (2 : Nat) ^ (129 - p) = 2 * 2 ^ (128 - p) := by
            rw [← pow_succ']
            congr 1
            omega
          rw [hpeq] at hw2 hfb
          have hp1 : p = 1 := by
            have h4 : (2 : Nat) ^ p < 3 := by
              rcases Nat.lt_or_ge (2 ^ p) 3 with hc | hc
              · exact hc
              · exfalso
                have : 3 * 2 ^ (128 - p) ≤ 2 ^ p * 2 ^ (128 - p) :=
                  Nat.mul_le_mul_right _ hc
                omega
            have h5 : (2 : Nat) ^ p ≤ 2 ^ 1 := by norm_num; omega
            have h6 : p ≤ 1 := (Nat.pow_le_pow_iff_right (by norm_num : 1 < 2)).mp h5
            omega
          rw [hp1] at hgap hw2 hsplit
          omega
      · refine isMergeableSib_false_of_next_ne hb ha ?_
        rw [hba, hbb, show (Address.mk va).BigInt = va from rfl,
          show (Address.mk vb).BigInt = vb from rfl, hostCount_eq b, hw2, Nat.mod_self]
        omega

theorem stack_pairwise_sib : ∀ {st : List CIDR},
    (∀ x ∈ st, x.wf) →
    st.Pairwise (fun a b => b.base.BigInt + b.HostCount ≤ a.base.BigInt) →
    st.Chain' (fun a b => isMergeableSib b a = false) →
    st.Pairwise fun a b => isMergeableSib a b = false ∧ isMergeableSib b a = false := by
  intro st
  induction st with
  | nil =>
    intro _ _ _
    exact List.Pairwise.nil
  | cons x rest ih =>
    intro hwf hdisj hch
    rw [List.pairwise_cons] at hdisj ⊢
    obtain ⟨hdx, hdrest⟩ := hdisj
    refine ⟨?_, ih (fun y hy => hwf y (by simp [hy])) hdrest hch.tail⟩
    intro y hy
    rcases rest with _ | ⟨z, rest2⟩
    · simp at hy
    · rcases List.mem_cons.mp hy with hyz | hy2
      · subst hyz
        have hxy : isMergeableSib y x = false := (List.chain'_cons.mp hch).1
        have hd : y.base.BigInt + y.HostCount ≤ x.base.BigInt := hdx y (by simp)
        have hxy2 : isMergeableSib x y = false := by
          cases hcase : isMergeableSib x y with
          | false => rfl
          | true =>
            have hrev := isMergeableSib_rev (hwf x (by simp)) (hwf y (by simp)) hd hcase
            rw [hrev] at hxy
            exact absurd hxy (by decide)
        exact ⟨hxy2, hxy⟩
      · have hdyz : y.base.BigInt + y.HostCount ≤ z.base.BigInt := by
          rw [List.pairwise_cons] at hdrest
          exact hdrest.1 y hy2
        have hdzx : z.base.BigInt + z.HostCount ≤ x.base.BigInt := hdx z (by simp)
        have hz1 : (1 : Nat) ≤ z.HostCount := by
          rw [hostCount_eq]
          exact Nat.one_le_two_pow
        have hgap : y.base.BigInt + y.HostCount < x.base.BigInt := by omega
        have hg := sib_false_of_gap (hwf y (by simp [hy2])) (hwf x (by simp)) hgap
        exact ⟨hg.2, hg.1⟩

theorem mergeLoopAux_step {f : Nat} {last prev : CIDR} {rest : List CIDR}
    (hl : last.wf) (hp : prev.wf)
    (hd : prev.base.BigInt + prev.HostCount ≤ last.base.BigInt) :
    (prev.Next = none ∧ mergeLoopAux (f + 1) (last :: prev :: rest) = none) ∨
    (isMergeableSib prev last = false ∧
      mergeLoopAux (f + 1) (last :: prev :: rest) = some (last :: prev :: rest)) ∨
    (isMergeableSib prev last = true ∧
      prev.plen = last.plen ∧ 1 ≤ last.plen ∧
      last.base.BigInt = prev.base.BigInt + prev.HostCount ∧
      prev.base.BigInt % 2 ^ (129 - last.plen) = 0 ∧
      CIDR.wf ⟨prev.base, last.plen - 1⟩ ∧
      mergeLoopAux (f + 1) (last :: prev :: rest) =
        mergeLoopAux f ((⟨prev.base, last.plen - 1⟩ : CIDR) :: rest)) := by
  obtain ⟨vp, hbp, hltp, hv4p, hpp, hmodp⟩ := wf_iff.mp hp
  obtain ⟨vl, hbl, hltl, hv4l, hpl, hmodl⟩ := wf_iff.mp hl
  have hdn : vp + 2 ^ (128 - prev.plen) ≤ vl := by
    rw [hbp, hbl, show (Address.mk vp).BigInt = vp from rfl,
      show (Address.mk vl).BigInt = vl from rfl, hostCount_eq prev] at hd
    exact hd
  by_cases h1 : last.plen ≠ prev.plen
  · refine Or.inr (Or.inl ⟨?_, ?_⟩)
    · unfold isMergeableSib
      rw [show (prev.plen == last.plen) = false from by
        rw [beq_eq_false_iff_ne]
        omega]
      simp
    · unfold mergeLoopAux
      rw [if_pos h1]
  · push_neg at h1
    by_cases h2 : last.plen = 0
    · refine Or.inr (Or.inl ⟨?_, ?_⟩)
      · unfold isMergeableSib
        rw [show decide (0 < last.plen) = false from by
          rw [decide_eq_false_iff_not]
          omega]
        simp
      · unfold mergeLoopAux
        rw [if_neg (not_not_intro h1), if_pos h2]
    · have hppos : 1 ≤ last.plen := by omega
      have hnext : prev.Next =
          (if isV4Mapped ((vp + 2 ^ (128 - prev.plen)) % two128) then none
           else some ⟨.mk ((vp + 2 ^ (128 - prev.plen)) % two128), prev.plen⟩) := by
        rw [Next_char hp, hbp, show (Address.mk vp).BigInt = vp from rfl,
          hostCount_eq prev]
      by_cases hv4 : isV4Mapped ((vp + 2 ^ (128 - prev.plen)) % two128) = true
      · refine Or.inl ⟨?_, ?_⟩
        · rw [hnext, if_pos hv4]
        · unfold mergeLoopAux
          rw [if_neg (not_not_intro h1), if_neg h2, hnext, if_pos hv4]
      · have hv4f : isV4Mapped ((vp + 2 ^ (128 - prev.plen)) % two128) = false := by
          rw [← Bool.not_eq_true]
          exact hv4
        have hnx : prev.Next =
            some ⟨.mk ((vp + 2 ^ (128 - prev.plen)) % two128), prev.plen⟩ := by
          rw [hnext, if_neg hv4]
        by_cases hWl : (vp + 2 ^ (128 - prev.plen)) % two128 = vl
        · -- successor base hits the top entry
          have hble : vp + 2 ^ (128 - prev.plen) ≤ two128 :=
            add_pow_le (Nat.dvd_of_mod_eq_zero hmodp) (pow_dvd_two128 (by omega)) hltp
          have hple1 : (1 : Nat) ≤ 2 ^ (128 - prev.plen) := Nat.one_le_two_pow
          have hvl : vl = vp + 2 ^ (128 - prev.plen) := by
            by_cases hlt2 : vp + 2 ^ (128 - prev.plen) < two128
            · rw [Nat.mod_eq_of_lt hlt2] at hWl
              omega
            · have heq2 : vp + 2 ^ (128 - prev.plen) = two128 := by omega
              rw [heq2, Nat.mod_self] at hWl
              omega
          have hpe : prev.plen = last.plen := h1.symm
          have hpl1 : last.plen - 1 ≤ 128 := by omega
          have hmaskp : prev.base.Mask (last.plen - 1) =
              some (.mk (vp / 2 ^ (129 - last.plen) * 2 ^ (129 - last.plen))) := by
            rw [hbp, Mask_mk_of_not_v4 hpl1 hv4p,
              show 128 - (last.plen - 1) = 129 - last.plen from by omega]
          have hmaskl : last.base.Mask (last.plen - 1) =
              some (.mk (vl / 2 ^ (129 - last.plen) * 2 ^ (129 - last.plen))) := by
            rw [hbl, Mask_mk_of_not_v4 hpl1 hv4l,
              show 128 - (last.plen - 1) = 129 - last.plen from by omega]
          have hsz : (2 : Nat) ^ (129 - last.plen) = 2 * 2 ^ (128 - last.plen) := by
            rw [← pow_succ']
            congr 1
            omega
          have hmodp2 : vp % 2 ^ (128 - last.plen) = 0 := by
            rw [← hpe]
            exact hmodp
          have hvl2 : vl = vp + 2 ^ (128 - last.plen) := by
            rw [hpe] at hvl
            exact hvl
          have hSpos : (0 : Nat) < 2 ^ (129 - last.plen) := Nat.pos_pow_of_pos _ (by norm_num)
          have hFle : vp / 2 ^ (129 - last.plen) * 2 ^ (129 - last.plen) ≤ vp :=
            Nat.div_mul_le_self vp _
          have hdm : vp / 2 ^ (129 - last.plen) * 2 ^ (129 - last.plen) +
              vp % 2 ^ (129 - last.plen) = vp := Nat.div_add_mod' vp _
          have hmltS : vp % 2 ^ (129 - last.plen) < 2 ^ (129 - last.plen) :=
            Nat.mod_lt _ hSpos
          have hFdvd2 : (2 : Nat) ^ (129 - last.plen) ∣
              vp / 2 ^ (129 - last.plen) * 2 ^ (129 - last.plen) :=
            dvd_mul_left _ _
          have hFdvd : (2 : Nat) ^ (128 - last.plen) ∣
              vp / 2 ^ (129 - last.plen) * 2 ^ (129 - last.plen) :=
            dvd_trans ⟨2, by rw [hsz]; ring⟩ hFdvd2
          have hrdvd : (2 : Nat) ^ (128 - last.plen) ∣ vp % 2 ^ (129 - last.plen) := by
            have heq3 : vp % 2 ^ (129 - last.plen) =
                vp - vp / 2 ^ (129 - last.plen) * 2 ^ (129 - last.plen) := by
              omega
            rw [heq3]
            exact Nat.dvd_sub' (Nat.dvd_of_mod_eq_zero hmodp2) hFdvd
          have hr01 : vp % 2 ^ (129 - last.plen) = 0 ∨
              vp % 2 ^ (129 - last.plen) = 2 ^ (128 - last.plen) := by
            obtain ⟨k, hk⟩ := hrdvd
            match k, hk with
            | 0, hk => exact Or.inl (by omega)
            | 1, hk => exact Or.inr (by omega)
            | (m + 2), hk =>
              exfalso
              have hmul := Nat.mul_le_mul_left (2 ^ (128 - last.plen))
                (show 2 ≤ m + 2 by omega)
              omega
          by_cases hFF : vp / 2 ^ (129 - last.plen) * 2 ^ (129 - last.plen) =
              vl / 2 ^ (129 - last.plen) * 2 ^ (129 - last.plen)
          · -- sibling halves of a common parent: the loop merges
            have hr0 : vp % 2 ^ (129 - last.plen) = 0 := by
              rcases hr01 with hr0 | hrh
              · exact hr0
              · exfalso
                have hvlS : (2 : Nat) ^ (129 - last.plen) ∣ vl := by
                  have heq4 : vl = vp / 2 ^ (129 - last.plen) * 2 ^ (129 - last.plen) +
                      2 ^ (129 - last.plen) := by
                    omega
                  rw [heq4]
                  exact dvd_add hFdvd2 dvd_rfl
                have hcan : vl / 2 ^ (129 - last.plen) * 2 ^ (129 - last.plen) = vl :=
                  Nat.div_mul_cancel hvlS
                omega
            have hfloor : vp / 2 ^ (129 - last.plen) * 2 ^ (129 - last.plen) = vp := by
              omega
            have hmaskp2 : prev.base.Mask (last.plen - 1) = some (.mk vp) := by
              rw [hmaskp, hfloor]
            have hmaskl2 : last.base.Mask (last.plen - 1) = some (.mk vp) := by
              rw [hmaskl, ← hFF, hfloor]
            refine Or.inr (Or.inr ⟨?_, hpe, hppos, ?_, ?_, ?_, ?_⟩)
            · unfold isMergeableSib
              rw [hnx, hmaskp2, hmaskl2, hbl]
              simp only [Bool.and_eq_true, beq_iff_eq, decide_eq_true_eq]
              refine ⟨⟨⟨hpe, by omega⟩, ?_⟩, ?_⟩
              · rw [compare_eq_zero_iff]
                exact congrArg Address.mk hWl
              · rw [compare_eq_zero_iff]
            · rw [hbp, hbl, show (Address.mk vp).BigInt = vp from rfl,
                show (Address.mk vl).BigInt = vl from rfl, hostCount_eq prev]
              rw [hpe]
              exact hvl2
            · rw [hbp, show (Address.mk vp).BigInt = vp from rfl]
              exact hr0
            · rw [hbp]
              refine wf_mk hltp hv4p hpl1 ?_
              rw [show 128 - (last.plen - 1) = 129 - last.plen from by omega]
              exact hr0
            · conv_lhs => unfold mergeLoopAux
              rw [if_neg (not_not_intro h1), if_neg h2, hnx]
              simp only []
              rw [if_neg (by
                intro hcon
                refine hcon ?_
                rw [hbl, compare_eq_zero_iff]
                exact congrArg Address.mk hWl)]
              rw [hmaskp2]
              simp only []
              rw [hmaskl2]
              simp only []
              rw [if_neg (by
                intro hcon
                exact hcon (compare_eq_zero_iff.mpr rfl))]
              rw [NewCIDR_mk hpl1 hv4p,
                show 128 - (last.plen - 1) = 129 - last.plen from by omega, hfloor]
              rw [hbp]
              rfl
          · -- equal-plen neighbours that straddle a parent boundary: no merge
            refine Or.inr (Or.inl ⟨?_, ?_⟩)
            · unfold isMergeableSib
              rw [hmaskp, hmaskl]
              simp only []
              rw [show ((Address.mk (vp / 2 ^ (129 - last.plen) * 2 ^ (129 - last.plen))).Compare
                  (Address.mk (vl / 2 ^ (129 - last.plen) * 2 ^ (129 - last.plen))) == 0) =
                  false from by
                rw [beq_eq_false_iff_ne]
                intro hcon
                rw [compare_eq_zero_iff] at hcon
                exact hFF ((Address.mk.injEq _ _).mp hcon)]
              simp
            · unfold mergeLoopAux
              rw [if_neg (not_not_intro h1), if_neg h2, hnx]
              simp only []
              rw [if_neg (by
                intro hcon
                refine hcon ?_
                rw [hbl, compare_eq_zero_iff]
                exact congrArg Address.mk hWl)]
              rw [hmaskp]
              simp only []
              rw [hmaskl]
              simp only []
              rw [if_pos (by
                intro hcon
                rw [compare_eq_zero_iff] at hcon
                exact hFF ((Address.mk.injEq _ _).mp hcon))]
        · -- successor base misses the top entry: no merge
          refine Or.inr (Or.inl ⟨?_, ?_⟩)
          · refine isMergeableSib_false_of_next_ne hp hl ?_
            rw [hbp, hbl, show (Address.mk vp).BigInt = vp from rfl,
              show (Address.mk vl).BigInt = vl from rfl, hostCount_eq prev]
            exact hWl
          · unfold mergeLoopAux
            rw [if_neg (not_not_intro h1), if_neg h2, hnx]
            simp only []
            rw [if_pos (by
              intro hcon
              rw [hbl, compare_eq_zero_iff] at hcon
              exact hWl ((Address.mk.injEq _ _).mp hcon))]

theorem mergeLoopAux_spec (f : Nat) : ∀ (st out : List CIDR),
    (∀ x ∈ st, x.wf) →
    st.Pairwise (fun a b => b.base.BigInt + b.HostCount ≤ a.base.BigInt) →
    st.tail.Chain' (fun a b => isMergeableSib b a = false) →
    st.length ≤ f + 1 →
    mergeLoopAux f st = some out →
    (∀ x ∈ out, x.wf) ∧
    out.Pairwise (fun a b => b.base.BigInt + b.HostCount ≤ a.base.BigInt) ∧
    out.Chain' (fun a b => isMergeableSib b a = false) ∧
    (∀ n : Nat, (∃ x ∈ out, x.inRange n) ↔ ∃ x ∈ st, x.inRange n) ∧
    (∀ x ∈ st, ∃ d ∈ out, d.base.BigInt ≤ x.base.BigInt ∧
      x.base.BigInt + x.HostCount ≤ d.base.BigInt + d.HostCount) ∧
    (∀ d ∈ out, ∃ e ∈ st, e.base.BigInt = d.base.BigInt ∧ d.plen ≤ e.plen) := by
  induction f with
  | zero =>
    intro st out hwf hdisj hch hlen h
    have heq : mergeLoopAux 0 st = some st := by
      rcases st with _ | ⟨a, _ | ⟨b, r2⟩⟩ <;> rfl
    rw [heq] at h
    cases h
    refine ⟨hwf, hdisj, ?_, fun n => Iff.rfl, ?_, ?_⟩
    · rcases st with _ | ⟨a, _ | ⟨b, r2⟩⟩
      · exact List.chain'_nil
      · exact List.chain'_singleton a
      · simp at hlen
    · intro x hx
      exact ⟨x, hx, le_refl _, le_refl _⟩
    · intro d hd2
      exact ⟨d, hd2, rfl, le_refl _⟩
  | succ g ih =>
    intro st out hwf hdisj hch hlen h
    rcases st with _ | ⟨last, _ | ⟨prev, rest⟩⟩
    · rw [show mergeLoopAux (g + 1) [] = some [] from rfl] at h
      cases h
      refine ⟨hwf, hdisj, List.chain'_nil, fun n => Iff.rfl, ?_, ?_⟩
      · intro x hx
        simp at hx
      · intro d hd2
        simp at hd2
    · rw [show mergeLoopAux (g + 1) [last] = some [last] from rfl] at h
      cases h
      refine ⟨hwf, hdisj, List.chain'_singleton _, fun n => Iff.rfl, ?_, ?_⟩
      · intro x hx
        exact ⟨x, hx, le_refl _, le_refl _⟩
      · intro d hd2
        exact ⟨d, hd2, rfl, le_refl _⟩
    · have hlwf : last.wf := hwf last (by simp)
      have hpwf : prev.wf := hwf prev (by simp)
      have hdlp : prev.base.BigInt + prev.HostCount ≤ last.base.BigInt :=
        (List.pairwise_cons.mp hdisj).1 prev (by simp)
      rcases @mergeLoopAux_step g last prev rest hlwf hpwf hdlp with
        ⟨hn, heq⟩ | ⟨hsib, heq⟩ | ⟨hsib, hpe, hppos, hbase, hmod, hparwf, heq⟩
      · rw [heq] at h
        exact absurd h (by simp)
      · rw [heq] at h
        cases h
        refine ⟨hwf, hdisj, ?_, fun n => Iff.rfl, ?_, ?_⟩
        · rw [List.chain'_cons]
          exact ⟨hsib, hch⟩
        · intro x hx
          exact ⟨x, hx, le_refl _, le_refl _⟩
        · intro d hd2
          exact ⟨d, hd2, rfl, le_refl _⟩
      · rw [heq] at h
        have hp128 : last.plen ≤ 128 := hlwf.2.1
        have hparbase : (⟨prev.base, last.plen - 1⟩ : CIDR).base.BigInt =
            prev.base.BigInt := rfl
        have hparHC : (⟨prev.base, last.plen - 1⟩ : CIDR).HostCount =
            prev.HostCount + last.HostCount := by
          rw [hostCount_eq, hostCount_eq, hostCount_eq,
            show (⟨prev.base, last.plen - 1⟩ : CIDR).plen = last.plen - 1 from rfl,
            hpe,
            show 128 - (last.plen - 1) = (128 - last.plen) + 1 from by omega,
            pow_succ]
          omega
        have hwf2 : ∀ x ∈ (⟨prev.base, last.plen - 1⟩ : CIDR) :: rest, x.wf := by
          intro x hx
          rcases List.mem_cons.mp hx with hx | hx
          · subst hx
            exact hparwf
          · exact hwf x (by simp [hx])
        have hdisj2 : ((⟨prev.base, last.plen - 1⟩ : CIDR) :: rest).Pairwise
            (fun a b => b.base.BigInt + b.HostCount ≤ a.base.BigInt) := by
          rw [List.pairwise_cons]
          constructor
          · intro d hd3
            exact (List.pairwise_cons.mp (List.pairwise_cons.mp hdisj).2).1 d hd3
          · exact (List.pairwise_cons.mp (List.pairwise_cons.mp hdisj).2).2
        have hch2 : ((⟨prev.base, last.plen - 1⟩ : CIDR) :: rest).tail.Chain'
            (fun a b => isMergeableSib b a = false) := hch.tail
        have hlen2 : ((⟨prev.base, last.plen - 1⟩ : CIDR) :: rest).length ≤ g + 1 := by
          simp only [List.length_cons] at hlen ⊢
          omega
        obtain ⟨ow, od, oc, ou, odom, oanch⟩ := ih _ out hwf2 hdisj2 hch2 hlen2 h
        have hrange : ∀ n : Nat, (⟨prev.base, last.plen - 1⟩ : CIDR).inRange n ↔
            (prev.inRange n ∨ last.inRange n) := by
          intro n
          unfold CIDR.inRange
          rw [hparbase, hparHC, hbase]
          omega
        refine ⟨ow, od, oc, ?_, ?_, ?_⟩
        · intro n
          rw [ou n]
          constructor
          · rintro ⟨x, hx, hr⟩
            rcases List.mem_cons.mp hx with hx | hx
            · subst hx
              rcases (hrange n).mp hr with hr2 | hr2
              · exact ⟨prev, by simp, hr2⟩
              · exact ⟨last, by simp, hr2⟩
            · exact ⟨x, by simp [hx], hr⟩
          · rintro ⟨x, hx, hr⟩
            rcases List.mem_cons.mp hx with hx | hx
            · exact ⟨⟨prev.base, last.plen - 1⟩, by simp,
                (hrange n).mpr (Or.inr (hx ▸ hr))⟩
            · rcases List.mem_cons.mp hx with hx | hx
              · exact ⟨⟨prev.base, last.plen - 1⟩, by simp,
                  (hrange n).mpr (Or.inl (hx ▸ hr))⟩
              · exact ⟨x, by simp [hx], hr⟩
        · intro x hx
          obtain ⟨d, hd3, hdl, hdr⟩ := odom ⟨prev.base, last.plen - 1⟩ (by simp)
          rw [hparbase] at hdl
          rw [hparbase, hparHC] at hdr
          rcases List.mem_cons.mp hx with hx | hx
          · subst hx
            refine ⟨d, hd3, ?_, ?_⟩
            · rw [hbase]
              omega
            · rw [hbase]
              omega
          · rcases List.mem_cons.mp hx with hx | hx
            · subst hx
              refine ⟨d, hd3, hdl, ?_⟩
              omega
            · exact odom x (by simp [hx])
        · intro d hd3
          obtain ⟨e, he, helo, hple2⟩ := oanch d hd3
          rcases List.mem_cons.mp he with he2 | he2
          · subst he2
            refine ⟨prev, by simp, helo, ?_⟩
            rw [show (⟨prev.base, last.plen - 1⟩ : CIDR).plen = last.plen - 1
              from rfl] at hple2
            omega
          · exact ⟨e, by simp [he2], helo, hple2⟩

theorem sumStep_spec {stack P : List CIDR} {c : CIDR} {out : List CIDR}
    (hinv : SumInv stack P) (hPwf : ∀ e ∈ P, e.wf) (hc : c.wf)
    (hle : ∀ e ∈ P, cidrLe e c)
    (h : sumStep stack c = some out) :
    SumInv out (P ++ [c]) := by
  unfold sumStep at h
  rcases stack with _ | ⟨top, rest⟩
  · have hP : P = [] := by
      cases P with
      | nil => rfl
      | cons e es =>
        obtain ⟨d, hd, _⟩ := hinv.cover e (by simp)
        simp at hd
    subst hP
    rw [show mergeLoop [c] = some [c] from rfl] at h
    cases h
    refine ⟨?_, ?_, ?_, fun n => Iff.rfl, ?_, ?_⟩
    · intro x hx
      simp only [List.mem_singleton] at hx
      subst hx
      exact hc
    · exact List.pairwise_singleton _ _
    · exact List.chain'_singleton _
    · intro x hx
      simp only [List.nil_append, List.mem_singleton] at hx
      rw [hx]
      exact ⟨c, by simp, le_refl _, le_refl _⟩
    · intro d hd
      simp only [List.mem_singleton] at hd
      rw [hd]
      exact ⟨c, by simp, rfl, le_refl _⟩
  · have htopwf : top.wf := hinv.wfAll top (by simp)
    simp only [] at h
    rcases hcc : top.ContainsCIDR c with _ | b
    · rw [hcc] at h
      exact absurd h (by simp)
    rw [hcc] at h
    cases b
    · -- not contained in the top entry: push c and merge upward
      simp only [] at h
      have htop : top.base.BigInt + top.HostCount ≤ c.base.BigInt := by
        obtain ⟨e, heP, helo, hple⟩ := hinv.anchor top (by simp)
        have hewf : e.wf := hPwf e heP
        obtain ⟨vt, hbt, hltt, hv4t, hpt, hmodt⟩ := wf_iff.mp htopwf
        obtain ⟨ve, hbe, hlte, hv4e, hpe2, hmode⟩ := wf_iff.mp hewf
        obtain ⟨vc, hbc, hltc, hv4c, hpc, hmodc⟩ := wf_iff.mp hc
        have hvet : ve = vt := by
          rw [hbe, hbt, show (Address.mk ve).BigInt = ve from rfl,
            show (Address.mk vt).BigInt = vt from rfl] at helo
          exact helo
        have hord := cidrLe_iff.mp (hle e heP)
        rw [hbe, hbc, addrKey_mk, addrKey_mk] at hord
        have hnotc : ¬(vt ≤ vc ∧
            vc + 2 ^ (128 - c.plen) ≤ vt + 2 ^ (128 - top.plen)) := by
          intro hcon
          have hct : top.ContainsCIDR c = some true := by
            rw [contains_true_iff htopwf hc, hbt, hbc,
              show (Address.mk vt).BigInt = vt from rfl,
              show (Address.mk vc).BigInt = vc from rfl,
              hostCount_eq top, hostCount_eq c]
            exact ⟨hcon.1, hcon.2⟩
          rw [hct] at hcc
          exact absurd hcc (by simp)
        rcases hord with hlt2 | ⟨heq2, hple3⟩
        · have hdis := block_disjoint_nat hmodt hmodc (by omega)
            (by intro hcon; exact hnotc ⟨by omega, hcon⟩)
          rw [hbt, hbc, show (Address.mk vt).BigInt = vt from rfl,
            show (Address.mk vc).BigInt = vc from rfl, hostCount_eq top]
          exact hdis
        · exfalso
          refine hnotc ⟨by omega, ?_⟩
          have hcle : (2 : Nat) ^ (128 - c.plen) ≤ 2 ^ (128 - top.plen) :=
            Nat.pow_le_pow_right (by norm_num) (by omega)
          omega
      have hdisj2 : (c :: top :: rest).Pairwise
          (fun a b => b.base.BigInt + b.HostCount ≤ a.base.BigInt) := by
        rw [List.pairwise_cons]
        constructor
        · intro d hd2
          rcases List.mem_cons.mp hd2 with hd2 | hd2
          · rw [hd2]
            exact htop
          · have h1 : d.base.BigInt + d.HostCount ≤ top.base.BigInt :=
              (List.pairwise_cons.mp hinv.disj).1 d hd2
            have h2 : (1 : Nat) ≤ top.HostCount := by
              rw [hostCount_eq]
              exact Nat.one_le_two_pow
            omega
        · exact hinv.disj
      have hwf2 : ∀ x ∈ c :: top :: rest, x.wf := by
        intro x hx
        rcases List.mem_cons.mp hx with hx | hx
        · rw [hx]
          exact hc
        · exact hinv.wfAll x hx
      have hch2 : (c :: top :: rest).tail.Chain'
          (fun a b => isMergeableSib b a = false) := hinv.nomerge
      unfold mergeLoop at h
      obtain ⟨ow, od, oc2, ou, odom, oanch⟩ :=
        mergeLoopAux_spec _ _ out hwf2 hdisj2 hch2 (Nat.le_succ _) h
      refine ⟨ow, od, oc2, ?_, ?_, ?_⟩
      · intro n
        rw [ou n]
        constructor
        · rintro ⟨x, hx, hr⟩
          rcases List.mem_cons.mp hx with hx | hx
          · exact ⟨c, by simp, by rw [← hx]; exact hr⟩
          · obtain ⟨y, hy, hry⟩ := (hinv.union n).mp ⟨x, hx, hr⟩
            exact ⟨y, by simp [hy], hry⟩
        · rintro ⟨x, hx, hr⟩
          rcases List.mem_append.mp hx with hx | hx
          · obtain ⟨y, hy, hry⟩ := (hinv.union n).mpr ⟨x, hx, hr⟩
            exact ⟨y, by simp [hy], hry⟩
          · simp only [List.mem_singleton] at hx
            exact ⟨c, by simp, by rw [← hx]; exact hr⟩
      · intro x hx
        rcases List.mem_append.mp hx with hx | hx
        · obtain ⟨d, hd2, hdl, hdr⟩ := hinv.cover x hx
          obtain ⟨d2, hd22, hdl2, hdr2⟩ := odom d (by simp [hd2])
          exact ⟨d2, hd22, by omega, by omega⟩
        · simp only [List.mem_singleton] at hx
          obtain ⟨d2, hd22, hdl2, hdr2⟩ := odom c (by simp)
          rw [hx]
          exact ⟨d2, hd22, hdl2, hdr2⟩
      · intro d hd2
        obtain ⟨e, he, helo, hple2⟩ := oanch d hd2
        rcases List.mem_cons.mp he with he2 | he2
        · refine ⟨c, by simp, ?_, ?_⟩
          · rw [← he2]
            exact helo
          · rw [← he2]
            exact hple2
        · obtain ⟨e2, he2P, helo2, hple22⟩ := hinv.anchor e he2
          exact ⟨e2, by simp [he2P], helo2.trans helo, le_trans hple2 hple22⟩
    · -- already contained in the top entry: the stack is unchanged
      simp only [Option.some.injEq] at h
      subst h
      have hsub := (contains_true_iff htopwf hc).mp hcc
      refine ⟨hinv.wfAll, hinv.disj, hinv.nomerge, ?_, ?_, ?_⟩
      · intro n
        constructor
        · intro hex
          obtain ⟨y, hy, hry⟩ := (hinv.union n).mp hex
          exact ⟨y, by simp [hy], hry⟩
        · rintro ⟨x, hx, hr⟩
          rcases List.mem_append.mp hx with hx | hx
          · exact (hinv.union n).mpr ⟨x, hx, hr⟩
          · simp only [List.mem_singleton] at hx
            refine ⟨top, by simp, ?_⟩
            have hrc : c.inRange n := by
              rw [← hx]
              exact hr
            unfold CIDR.inRange at hrc ⊢
            omega
      · intro x hx
        rcases List.mem_append.mp hx with hx | hx
        · exact hinv.cover x hx
        · simp only [List.mem_singleton] at hx
          rw [hx]
          exact ⟨top, by simp, hsub.1, hsub.2⟩
      · intro d hd2
        obtain ⟨e, heP, helo, hple2⟩ := hinv.anchor d hd2
        exact ⟨e, by simp [heP], helo, hple2⟩

theorem mapM_norm_id : ∀ (cs : List CIDR), (∀ x ∈ cs, x.wf) →
    (cs.mapM fun c => (c.base.Mask c.plen).map fun b => CIDR.mk b c.plen) =
      some cs := by
  intro cs
  induction cs with
  | nil =>
    intro _
    rfl
  | cons c rest ih =>
    intro hin
    rw [List.mapM_cons, (hin c (by simp)).2.2, ih (fun x hx => hin x (by simp [hx]))]
    rfl

theorem foldlM_sumStep_spec : ∀ (l P st0 stk : List CIDR),
    SumInv st0 P → (∀ x ∈ P, x.wf) → (∀ x ∈ l, x.wf) →
    l.Pairwise cidrLe →
    (∀ e ∈ P, ∀ x ∈ l, cidrLe e x) →
    l.foldlM sumStep st0 = some stk →
    SumInv stk (P ++ l) := by
  intro l
  induction l with
  | nil =>
    intro P st0 stk hinv hPwf _ _ _ h
    simp only [List.foldlM_nil, Option.pure_def, Option.some.injEq] at h
    subst h
    rw [List.append_nil]
    exact hinv
  | cons c rest ih =>
    intro P st0 stk hinv hPwf hlwf hsort hPl h
    rw [List.foldlM_cons] at h
    cases h1 : sumStep st0 c with
    | none =>
      rw [h1] at h
      simp at h
    | some st1 =>
      rw [h1] at h
      simp at h
      have hinv1 : SumInv st1 (P ++ [c]) :=
        sumStep_spec hinv hPwf (hlwf c (by simp)) (fun e he => hPl e he c (by simp)) h1
      have hPwf2 : ∀ x ∈ P ++ [c], x.wf := by
        intro x hx
        rcases List.mem_append.mp hx with hx | hx
        · exact hPwf x hx
        · simp only [List.mem_singleton] at hx
          rw [hx]
          exact hlwf c (by simp)
      have hlwf2 : ∀ x ∈ rest, x.wf := fun x hx => hlwf x (by simp [hx])
      have hsort2 : rest.Pairwise cidrLe := (List.pairwise_cons.mp hsort).2
      have hPl2 : ∀ e ∈ P ++ [c], ∀ x ∈ rest, cidrLe e x := by
        intro e he x hx
        rcases List.mem_append.mp he with he | he
        · exact hPl e he x (by simp [hx])
        · simp only [List.mem_singleton] at he
          rw [he]
          exact (List.pairwise_cons.mp hsort).1 x hx
      have hres := ih (P ++ [c]) st1 stk hinv1 hPwf2 hlwf2 hsort2 hPl2 h
      rw [List.append_assoc] at hres
      exact hres

/-- **C1.** For well-formed input networks, when `Summarize` returns a list
its union of ranges equals the union of the inputs, every input network is
contained in some output network, and no two outputs overlap or form a
mergeable sibling pair (in either order). -/
theorem c1_summarize (cs out : List CIDR) (hin : ∀ x ∈ cs, x.wf)
    (h : Summarize cs = some out) :
    (∀ n : Nat, (∃ d ∈ out, d.inRange n) ↔ ∃ x ∈ cs, x.inRange n) ∧
    (∀ x ∈ cs, ∃ d ∈ out, d.ContainsCIDR x = some true) ∧
    out.Pairwise (fun a b =>
      a.Overlaps b = some false ∧ b.Overlaps a = some false) ∧
    out.Pairwise (fun a b =>
      isMergeableSib a b = false ∧ isMergeableSib b a = false) := by
  unfold Summarize at h
  split_ifs at h with hemp
  · simp only [Option.some.injEq] at h
    subst h
    have hcs : cs = [] := by
      cases cs with
      | nil => rfl
      | cons a l => simp at hemp
    subst hcs
    refine ⟨?_, ?_, List.Pairwise.nil, List.Pairwise.nil⟩
    · intro n
      simp
    · intro x hx
      simp at hx
  · rw [mapM_norm_id cs hin] at h
    simp only [] at h
    cases hstk : (List.insertionSort cidrLe cs).foldlM sumStep [] with
    | none =>
      rw [hstk] at h
      simp at h
    | some stk =>
      rw [hstk] at h
      simp only [Option.some.injEq] at h
      have hsorted : (List.insertionSort cidrLe cs).Pairwise cidrLe :=
        List.sorted_insertionSort cidrLe cs
      have hperm := List.perm_insertionSort cidrLe cs
      have hswf : ∀ x ∈ List.insertionSort cidrLe cs, x.wf := fun x hx =>
        hin x (hperm.mem_iff.mp hx)
      have hinv0 : SumInv [] [] := by
        refine ⟨?_, List.Pairwise.nil, List.chain'_nil, ?_, ?_, ?_⟩
        · intro x hx
          simp at hx
        · intro n
          constructor
          · rintro ⟨x, hx, _⟩
            simp at hx
          · rintro ⟨x, hx, _⟩
            simp at hx
        · intro x hx
          simp at hx
        · intro d hd
          simp at hd
      have hres := foldlM_sumStep_spec (List.insertionSort cidrLe cs) [] [] stk
        hinv0 (by intro x hx; simp at hx) hswf hsorted
        (by intro e he; simp at he) hstk
      rw [List.nil_append] at hres
      have hmem : ∀ x : CIDR, x ∈ List.insertionSort cidrLe cs ↔ x ∈ cs :=
        fun x => hperm.mem_iff
      subst h
      refine ⟨?_, ?_, ?_, ?_⟩
      · intro n
        constructor
        · rintro ⟨d, hd, hr⟩
          obtain ⟨x, hx, hrx⟩ := (hres.union n).mp ⟨d, List.mem_reverse.mp hd, hr⟩
          exact ⟨x, (hmem x).mp hx, hrx⟩
        · rintro ⟨x, hx, hrx⟩
          obtain ⟨d, hd, hr⟩ := (hres.union n).mpr ⟨x, (hmem x).mpr hx, hrx⟩
          exact ⟨d, List.mem_reverse.mpr hd, hr⟩
      · intro x hx
        obtain ⟨d, hd, hdl, hdr⟩ := hres.cover x ((hmem x).mpr hx)
        refine ⟨d, List.mem_reverse.mpr hd, ?_⟩
        rw [contains_true_iff (hres.wfAll d hd) (hin x hx)]
        exact ⟨hdl, hdr⟩
      · rw [List.pairwise_reverse]
        refine List.Pairwise.imp_of_mem ?_ hres.disj
        intro a b ha hb hab
        have hwa := hres.wfAll a ha
        have hwb := hres.wfAll b hb
        exact ⟨overlaps_false_of_disjoint hwb hwa (Or.inr hab),
          overlaps_false_of_disjoint hwa hwb (Or.inl hab)⟩
      · rw [List.pairwise_reverse]
        have hsp := stack_pairwise_sib hres.wfAll hres.disj hres.nomerge
        exact List.Pairwise.imp (fun h2 => ⟨h2.2, h2.1⟩) hsp

/-- **C1 counterexample.** Two well-formed `/96` networks summarize to
nothing at all: after pushing the second network the merge loop calls
`Next` on `::fffe:0:0/96`, whose successor base `::ffff:0:0` is rejected
as IPv4-mapped, so `Summarize` panics instead of returning a set.  The
claim promises a returned set for *every* input collection. -/
theorem c1_counterexample :
    CIDR.wf ⟨.mk 0xfffe00000000, 96⟩ ∧ CIDR.wf ⟨.mk (2 ^ 112), 96⟩ ∧
    Summarize [⟨.mk 0xfffe00000000, 96⟩, ⟨.mk (2 ^ 112), 96⟩] = none := by
  refine ⟨by decide, by decide, ?_⟩
  rfl

/-- Witness for C1 on the single network `::/64`: `Summarize` keeps it and
it contains itself. -/
theorem c1_summarize_witness :
    (∀ x ∈ ([⟨.mk 0, 64⟩] : List CIDR), x.wf) ∧
    Summarize [⟨.mk 0, 64⟩] = some [⟨.mk 0, 64⟩] ∧
    ∃ d ∈ ([⟨.mk 0, 64⟩] : List CIDR),
      d.ContainsCIDR ⟨.mk 0, 64⟩ = some true := by
  have hwf : ∀ x ∈ ([⟨.mk 0, 64⟩] : List CIDR), CIDR.wf x := by
    intro x hx
    simp only [List.mem_singleton] at hx
    rw [hx]
    decide
  have hsum : Summarize [⟨.mk 0, 64⟩] = some [⟨.mk 0, 64⟩] := by rfl
  have h := c1_summarize [⟨.mk 0, 64⟩] [⟨.mk 0, 64⟩] hwf hsum
  exact ⟨hwf, hsum, h.2.1 ⟨.mk 0, 64⟩ (by simp)⟩

end IP6Calc
